import Mathlib

/-!
Shallow embedding of the CS451 Project 3 L-store engine (src/lstore) and proofs
checking the claims of the specification against it.

Conventions used throughout:
* Python ints are modelled as Lean Int (record identifiers, keys, column
  values, counters); slot indices and page counts are Nat.
* Python dicts are modelled as association lists with first-match lookup,
  in-place replacement on assignment and insertion-order iteration, which is
  exactly the observable dict behaviour the source relies on.
* The 4096-byte page buffer stores 8-byte big-endian signed integers; since
  only values in the signed 64-bit range are ever stored (the source rejects
  the rest before writing), the buffer is modelled at slot granularity as a
  function from slot index to Int, with unwritten slots reading as 0 exactly
  like the zero-initialised bytearray.
* Wall-clock time is modelled by a constant clock field: a modelled run is
  instantaneous, so the merge trigger in Table.update_record, which demands
  more than merge_interval = 60 seconds since the last merge, never fires.
-/

namespace LStore

/-- Dictionary lookup on an association list: first entry with the key, as in
a Python dict (keys are unique, so the first match is the only match). -/
def dGet {α β : Type} [DecidableEq α] : List (α × β) → α → Option β
  | [], _ => none
  | p :: rest, k => if p.1 = k then some p.2 else dGet rest k

/-- Dictionary assignment d[k] = v: replace the value in place if the key is
present, otherwise append the new pair, preserving insertion order. -/
def dSet {α β : Type} [DecidableEq α] : List (α × β) → α → β → List (α × β)
  | [], k, v => [(k, v)]
  | p :: rest, k, v => if p.1 = k then (k, v) :: rest else p :: dSet rest k v

/-- Dictionary deletion del d[k]: drop the entry with the key, if any. -/
def dDel {α β : Type} [DecidableEq α] : List (α × β) → α → List (α × β)
  | [], _ => []
  | p :: rest, k => if p.1 = k then rest else p :: dDel rest k

/-- Removal of the first occurrence of an element from a list; used for
Python list.remove and set.discard (the lists involved hold no duplicates). -/
def lErase {α : Type} [DecidableEq α] : List α → α → List α
  | [], _ => []
  | a :: rest, x => if a = x then rest else a :: lErase rest x

/-- Addition to a Python set modelled as a duplicate-free list. -/
def setAdd {α : Type} [DecidableEq α] (s : List α) (x : α) : List α :=
  if x ∈ s then s else s ++ [x]

/-- Lower bound of the 8-byte signed integer range. -/
def int64Min : Int := -9223372036854775808

/-- Upper bound of the 8-byte signed integer range. -/
def int64Max : Int := 9223372036854775807

/-- Test from page.py line 26: a value can be stored iff it fits in an
8-byte signed integer. -/
def fitsInt64 (v : Int) : Bool := int64Min ≤ v ∧ v ≤ int64Max

/-- Model of lstore/page.py Page: a fixed 4096-byte buffer holding up to 512
slots of 8-byte big-endian signed integers, plus the record count.  The
buffer is modelled at slot granularity; slot j of the zeroed buffer reads
as 0. -/
structure Page where
  num_records : Nat
  data : Nat → Int

/-- Page.__init__: zeroed buffer, no records. -/
def Page.empty : Page := { num_records := 0, data := fun _ => 0 }

/-- Page.has_capacity from page.py: fewer than 512 = 4096/8 records. -/
def Page.has_capacity (p : Page) : Bool := p.num_records < 512

/-- Page.write from page.py.  With an index, overwrite an existing slot
(index must be below the record count); without, append at slot num_records.
Mirrors the source order of effects exactly: the append branch increments
num_records before the 8-byte range check, so a failed append of an
out-of-range value still increments the count. -/
def Page.write (p : Page) (value : Int) (index : Option Nat) : Bool × Page :=
  match index with
  | some i =>
    if i ≥ p.num_records then (false, p)
    else if fitsInt64 value then
      (true, { p with data := fun j => if j = i then value else p.data j })
    else (false, p)
  | none =>
    if ¬ p.has_capacity then (false, p)
    else
      let p1 : Page := { p with num_records := p.num_records + 1 }
      if fitsInt64 value then
        (true, { p1 with data := fun j => if j = p.num_records then value else p.data j })
      else (false, p1)

/-- Page.read from page.py: the value at a slot, or None when the slot index
is at or beyond the record count. -/
def Page.read (p : Page) (index : Nat) : Option Int :=
  if index ≥ p.num_records then none else some (p.data index)

/-- One bufferpool entry, the (page, pin_count, is_dirty) triple stored in
Bufferpool.pool in bufferpool.py. -/
structure BPEntry where
  page : Page
  pin_count : Nat
  is_dirty : Bool

/-- Model of lstore/bufferpool.py Bufferpool.  Pool keys (the source builds
the string table_name + page_id) are an abstract type K with decidable
equality; for a single table the string keys are in bijection with the
structural keys used here.  The pool and the rid page_directory are Python
dicts, the LRU list has the most recently used key at the tail.  The disk
holds the raw slot contents of each written file, and disk_writes logs every
write_page_to_disk event in order. -/
structure Bufferpool (K : Type) where
  pool_size : Nat
  pool : List (K × BPEntry)
  lru : List K
  page_directory : List (Int × K)
  disk : List (K × (Nat → Int))
  disk_writes : List K

/-- Bufferpool.__init__: empty pool and LRU over a given disk state.  The
source also tries to preload page_directory from one hard-coded metadata
file; absent that file the dict starts empty, which is what is modelled. -/
def Bufferpool.init (K : Type) (pool_size : Nat) (disk : List (K × (Nat → Int))) :
    Bufferpool K :=
  { pool_size := pool_size, pool := [], lru := [], page_directory := [],
    disk := disk, disk_writes := [] }

/-- Bufferpool._load_page_from_disk: a missing file yields an empty Page; an
existing file holds a full 4096-byte payload, so the inferred record count
len(data) // 8 is always 512. -/
def Bufferpool.load_page {K : Type} [DecidableEq K] (bp : Bufferpool K) (k : K) : Page :=
  match dGet bp.disk k with
  | none => Page.empty
  | some d => { num_records := 512, data := d }

/-- Bufferpool._write_page_to_disk: store the raw page payload and log the
event. -/
def Bufferpool.write_page_to_disk {K : Type} [DecidableEq K] (bp : Bufferpool K)
    (k : K) (p : Page) : Bufferpool K :=
  { bp with disk := dSet bp.disk k p.data, disk_writes := bp.disk_writes ++ [k] }

/-- Loop body of Bufferpool._evict_page: walk the LRU list and evict the
first unpinned entry, flushing it first when dirty.  A key missing from the
pool is skipped (under the pool invariants every LRU key is pooled). -/
def Bufferpool.evictFrom {K : Type} [DecidableEq K] (bp : Bufferpool K) :
    List K → Bufferpool K
  | [] => bp
  | k :: rest =>
    match dGet bp.pool k with
    | none => bp.evictFrom rest
    | some e =>
      if e.pin_count = 0 then
        let bp1 := if e.is_dirty then bp.write_page_to_disk k e.page else bp
        { bp1 with pool := dDel bp1.pool k, lru := lErase bp1.lru k }
      else bp.evictFrom rest

/-- Bufferpool._evict_page: scan the LRU list from the least recently used
end and evict at most one unpinned page. -/
def Bufferpool.evict_page {K : Type} [DecidableEq K] (bp : Bufferpool K) : Bufferpool K :=
  bp.evictFrom bp.lru

/-- Bufferpool.get_page: on a hit, bump the pin count and move the key to
the MRU end; on a miss, load from disk, evict first if the pool is at
capacity, and insert with pin count 1, clean. -/
def Bufferpool.get_page {K : Type} [DecidableEq K] (bp : Bufferpool K) (k : K) :
    Page × Bufferpool K :=
  match dGet bp.pool k with
  | some e =>
    (e.page,
      { bp with lru := lErase bp.lru k ++ [k],
                pool := dSet bp.pool k { e with pin_count := e.pin_count + 1 } })
  | none =>
    let page := bp.load_page k
    let bp1 := if bp.pool.length ≥ bp.pool_size then bp.evict_page else bp
    (page, { bp1 with pool := dSet bp1.pool k { page := page, pin_count := 1, is_dirty := false },
                      lru := bp1.lru ++ [k] })

/-- Bufferpool.mark_dirty: set the dirty flag of a pooled page. -/
def Bufferpool.mark_dirty {K : Type} [DecidableEq K] (bp : Bufferpool K) (k : K) :
    Bufferpool K :=
  match dGet bp.pool k with
  | none => bp
  | some e => { bp with pool := dSet bp.pool k { e with is_dirty := true } }

/-- Bufferpool.unpin_page: decrement the pin count, never below zero. -/
def Bufferpool.unpin_page {K : Type} [DecidableEq K] (bp : Bufferpool K) (k : K) :
    Bufferpool K :=
  match dGet bp.pool k with
  | none => bp
  | some e =>
    if 0 < e.pin_count then
      { bp with pool := dSet bp.pool k { e with pin_count := e.pin_count - 1 } }
    else bp

/-- Bufferpool.write_to_page: fetch the page (pinning it), perform the Page
write, and mark dirty on success.  Page objects are shared with the pool
entry in the source, so the write mutates the pooled page in place; the
model stores the written page back unconditionally. -/
def Bufferpool.write_to_page {K : Type} [DecidableEq K] (bp : Bufferpool K) (k : K)
    (value : Int) (index : Option Nat) : Bool × Bufferpool K :=
  let gp := bp.get_page k
  let w := gp.1.write value index
  let bp2 :=
    match dGet gp.2.pool k with
    | some e => { gp.2 with pool := dSet gp.2.pool k { e with page := w.2 } }
    | none => gp.2
  if w.1 then (true, bp2.mark_dirty k) else (false, bp2)

/-- Bufferpool.read_from_page: fetch the page (pinning it) and read a slot. -/
def Bufferpool.read_from_page {K : Type} [DecidableEq K] (bp : Bufferpool K) (k : K)
    (index : Nat) : Option Int × Bufferpool K :=
  let gp := bp.get_page k
  (gp.1.read index, gp.2)

/-- Bufferpool.get_num_records: fetch the page (pinning it) and return its
record count. -/
def Bufferpool.get_num_records {K : Type} [DecidableEq K] (bp : Bufferpool K) (k : K) :
    Nat × Bufferpool K :=
  let gp := bp.get_page k
  (gp.1.num_records, gp.2)

/-- Loop body of Bufferpool.close: flush every dirty pooled page to disk. -/
def Bufferpool.closeFrom {K : Type} [DecidableEq K] (bp : Bufferpool K) :
    List (K × BPEntry) → Bufferpool K
  | [] => bp
  | (k, e) :: rest =>
    if e.is_dirty then (bp.write_page_to_disk k e.page).closeFrom rest
    else bp.closeFrom rest

/-- Bufferpool.close: flush all dirty pages. -/
def Bufferpool.close {K : Type} [DecidableEq K] (bp : Bufferpool K) : Bufferpool K :=
  bp.closeFrom bp.pool

/-- Content view of the bufferpool: the page a get_page call would hand out
for each key, ignoring pins, LRU order and dirt. -/
def Bufferpool.pageOf {K : Type} [DecidableEq K] (bp : Bufferpool K) (k : K) : Page :=
  match dGet bp.pool k with
  | some e => e.page
  | none => bp.load_page k

/-- Pool invariants maintained by the claims: every pooled entry is pinned at
least once and pool keys are duplicate free (a dict). -/
def BPInv {K : Type} (bp : Bufferpool K) : Prop :=
  (∀ p ∈ bp.pool, 1 ≤ p.2.pin_count) ∧ (bp.pool.map Prod.fst).Nodup

/-- Bufferpool operations available without unpinning, as exercised by Table
and by claim C10: get_page, read_from_page, write_to_page,
get_num_records. -/
inductive BPOp (K : Type) where
  | get (k : K)
  | read (k : K) (index : Nat)
  | write (k : K) (value : Int) (index : Option Nat)
  | numRecords (k : K)

/-- Key touched by a bufferpool operation. -/
def BPOp.key {K : Type} : BPOp K → K
  | .get k => k
  | .read k _ => k
  | .write k _ _ => k
  | .numRecords k => k

/-- State reached by one bufferpool operation, discarding the returned
value. -/
def Bufferpool.runOp {K : Type} [DecidableEq K] (bp : Bufferpool K) : BPOp K → Bufferpool K
  | .get k => (bp.get_page k).2
  | .read k i => (bp.read_from_page k i).2
  | .write k v i => (bp.write_to_page k v i).2
  | .numRecords k => (bp.get_num_records k).2

/-- State reached by a sequence of bufferpool operations. -/
def Bufferpool.runOps {K : Type} [DecidableEq K] (bp : Bufferpool K)
    (ops : List (BPOp K)) : Bufferpool K :=
  ops.foldl Bufferpool.runOp bp

/-- Kind tag of a page-directory entry in lstore/table.py. -/
inductive RecKind where
  | base
  | tail
  | deleted
  | merged
deriving DecidableEq

/-- One per-column index mapping of lstore/index.py: a Python dict from
column value to rid. -/
abbrev IDict := List (Int × Int)

/-- Key of a page in the bufferpool.  The source builds the string
name_base_col_chain or name_tail_col_chain; for the single table modelled
here the string is determined by (is_base, column, chain index), which is
used directly as the key. -/
abbrev PageKey := Bool × Nat × Nat

/-- Index.locate: look the value up in the column index, None when the
column has no index. -/
def Index.locate (indices : List (Option IDict)) (column : Nat) (value : Int) :
    Option Int :=
  match indices.getD column none with
  | none => none
  | some d => dGet d value

/-- Index.locate_range: iterate the dict items in insertion order, keep the
pairs whose key lies in [lo, hi], sort them by key (Python sorted is stable;
insertionSort is the same stable sort), and return the rids. -/
def Index.locate_range (indices : List (Option IDict)) (lo hi : Int) (column : Nat) :
    List Int :=
  match indices.getD column none with
  | none => []
  | some d =>
    let matching := d.filter (fun p => decide (lo ≤ p.1 ∧ p.1 ≤ hi))
    (matching.insertionSort (fun p q => p.1 ≤ q.1)).map Prod.snd

/-- Index.update_index: remove the first entry of this column mapping that
points at the rid, if any, then assign mapping[value] = rid.  Out-of-range
or absent column mappings are left unchanged (the source returns False). -/
def Index.update_index (indices : List (Option IDict)) (column : Nat) (value : Int)
    (rid : Int) : List (Option IDict) :=
  match indices.getD column none with
  | none => indices
  | some d =>
    let d1 :=
      match d.find? (fun p => decide (p.2 = rid)) with
      | some old => dDel d old.1
      | none => d
    indices.set column (some (dSet d1 value rid))

/-- Index.__init__ for a freshly created table: one absent mapping per user
column, then create_index on the key column, which installs an empty dict
and scans the still-empty page directory. -/
def Index.initIndices (num_columns key : Nat) : List (Option IDict) :=
  (List.replicate num_columns (none : Option IDict)).set key (some [])

/-- Record from lstore/table.py as produced by Table.get_record: rid, the
value of the key column, all user column values, and the three metadata
fields read from the page (None when the slot read failed). -/
structure Record where
  rid : Int
  key : Int
  columns : List Int
  indirection : Option Int
  timestamp : Option Int
  schema_encoding : Option Int
deriving DecidableEq

/-- Model of lstore/table.py Table.  The per-column page-id lists
base_page_ids and tail_page_ids always have the same length in every
column (they are extended together), so only the common lengths are kept;
the page with id name_base_col_i is the bufferpool entry at key
(true, col, i).  The clock field now models time(); last_merge_time is set
to the clock at construction. -/
structure Table where
  key : Nat
  num_columns : Nat
  page_directory : List (Int × (RecKind × Nat × Nat))
  bufferpool : Bufferpool PageKey
  indices : List (Option IDict)
  next_rid : Int
  num_records : Int
  num_updates : Int
  num_base_pages : Nat
  num_tail_pages : Nat
  now : Int
  last_merge_time : Int

/-- Total column count, num_columns + 4 metadata columns. -/
def Table.total_columns (t : Table) : Nat := t.num_columns + 4

/-- Table.__init__ with a fresh Index over a bufferpool of the given
capacity and disk image: empty page directory, counters at zero, one page
id per column in both chains. -/
def Table.init (num_columns key : Nat) (pool_size : Nat)
    (disk : List (PageKey × (Nat → Int))) (now : Int) : Table :=
  { key := key, num_columns := num_columns, page_directory := [],
    bufferpool := Bufferpool.init PageKey pool_size disk,
    indices := Index.initIndices num_columns key,
    next_rid := 0, num_records := 0, num_updates := 0,
    num_base_pages := 1, num_tail_pages := 1,
    now := now, last_merge_time := now }

/-- Bufferpool write_to_page lifted to the table state. -/
def Table.bpWrite (t : Table) (k : PageKey) (value : Int) (index : Option Nat) :
    Bool × Table :=
  let w := t.bufferpool.write_to_page k value index
  (w.1, { t with bufferpool := w.2 })

/-- Bufferpool get_num_records lifted to the table state. -/
def Table.bpNumRecords (t : Table) (k : PageKey) : Nat × Table :=
  let g := t.bufferpool.get_num_records k
  (g.1, { t with bufferpool := g.2 })

/-- Capacity check over a list of columns at one chain index, with the
short-circuit evaluation of the all(...) generator in create_record line 110
and of the any(not ...) generator in update_record line 237: pages are
fetched (and pinned) until the first full one. -/
def Table.colsHaveCapacity (t : Table) (isb : Bool) (idx : Nat) :
    List Nat → Bool × Table
  | [] => (true, t)
  | c :: rest =>
    let g := t.bufferpool.get_page (isb, c, idx)
    let t1 := { t with bufferpool := g.2 }
    if g.1.has_capacity then t1.colsHaveCapacity isb idx rest
    else (false, t1)

/-- While loop of create_record lines 108 to 113: the first base chain index
at which every column page has capacity, none when all chains are full. -/
def Table.scanBaseChains (t : Table) : List Nat → Option Nat × Table
  | [] => (none, t)
  | i :: rest =>
    let chk := t.colsHaveCapacity true i (List.range t.total_columns)
    if chk.1 then (some i, chk.2) else (chk.2).scanBaseChains rest

/-- Table._get_page: bounds-check the column and chain index, then fetch the
page from the bufferpool. -/
def Table.getPage (t : Table) (isb : Bool) (column page_index : Nat) :
    Option Page × Table :=
  let len := if isb then t.num_base_pages else t.num_tail_pages
  if column ≥ t.total_columns ∨ page_index ≥ len then (none, t)
  else
    let g := t.bufferpool.get_page (isb, column, page_index)
    (some g.1, { t with bufferpool := g.2 })

/-- User-column read loop of Table.get_record lines 197 to 203: read the
given columns at one slot, failing (None) when a page is missing or a slot
read returns None. -/
def Table.readCols (t : Table) (isb : Bool) (page_index slot : Nat) :
    List Nat → Option (List Int) × Table
  | [] => (some [], t)
  | c :: rest =>
    match t.getPage isb c page_index with
    | (none, t1) => (none, t1)
    | (some pg, t1) =>
      match pg.read slot with
      | none => (none, t1)
      | some v =>
        match t1.readCols isb page_index slot rest with
        | (none, t2) => (none, t2)
        | (some vs, t2) => (some (v :: vs), t2)

/-- Table.get_record without a transaction id (no call site in the verified
paths passes one).  Deleted entries are unreadable; merged entries are read
from the tail chain like tail entries (is_base is the kind equalling base).
The three metadata slots are read without failure checks; a failing user
column read, a missing page, or a key column index beyond the value list
(an IndexError caught by the handler) returns None. -/
def Table.get_record (t : Table) (rid : Int) : Option Record × Table :=
  match dGet t.page_directory rid with
  | none => (none, t)
  | some (page_type, page_index, slot) =>
    if page_type = RecKind.deleted then (none, t)
    else
      let isb := page_type = RecKind.base
      match t.getPage isb 0 page_index with
      | (none, t1) => (none, t1)
      | (some pg0, t1) =>
        let ind := pg0.read slot
        match t1.getPage isb 2 page_index with
        | (none, t2) => (none, t2)
        | (some pg2, t2) =>
          let ts := pg2.read slot
          match t2.getPage isb 3 page_index with
          | (none, t3) => (none, t3)
          | (some pg3, t3) =>
            let sch := pg3.read slot
            match t3.readCols isb page_index slot (List.range' 4 t.num_columns) with
            | (none, t4) => (none, t4)
            | (some values, t4) =>
              if t.key < values.length then
                (some { rid := rid, key := values.getD t.key 0, columns := values,
                        indirection := ind, timestamp := ts, schema_encoding := sch }, t4)
              else (none, t4)

/-- Data-column write loop of create_record lines 135 to 142: append each
value to its column page, stopping with failure on the first unsuccessful
write (the record is then abandoned, earlier writes kept). -/
def Table.writeUserCols (t : Table) (idx : Nat) (i : Nat) :
    List Int → Bool × Table
  | [] => (true, t)
  | v :: rest =>
    let w := t.bpWrite (true, 4 + i, idx) v none
    if w.1 then (w.2).writeUserCols idx (i + 1) rest
    else (false, w.2)

/-- Index maintenance loop of create_record lines 154 to 157: for every
column with an active mapping, update_index with the inserted value. -/
def Table.updateIndices (t : Table) (rid : Int) :
    List (Nat × Int) → Table
  | [] => t
  | (i, v) :: rest =>
    let t1 :=
      if (t.indices.getD i none).isSome then
        { t with indices := Index.update_index t.indices i v rid }
      else t
    t1.updateIndices rid rest

/-- Table.create_record.  Allocate the rid from the monotonic counter, find
or create a base chain index with capacity in every column, take the slot
from the indirection column count, register the page in the bufferpool rid
directory, append the four metadata values and then the user values (a
failed user write returns None), record the page-directory entry, build the
Record, update the active indices, and bump num_records. -/
def Table.create_record (t : Table) (columns : List Int) : Option Record × Table :=
  let rid := t.next_rid
  let t0 : Table := { t with next_rid := t.next_rid + 1 }
  let timestamp := t0.now
  let scan := t0.scanBaseChains (List.range t0.num_base_pages)
  let pick : Nat × Table :=
    match scan.1 with
    | some i => (i, scan.2)
    | none => ((scan.2).num_base_pages, { scan.2 with num_base_pages := (scan.2).num_base_pages + 1 })
  let idx := pick.1
  let t1 := pick.2
  let sl := t1.bpNumRecords (true, 0, idx)
  let slot := sl.1
  let t2 := sl.2
  let t3 : Table :=
    { t2 with bufferpool :=
        { t2.bufferpool with page_directory := dSet t2.bufferpool.page_directory rid (true, 0, idx) } }
  let w0 := t3.bpWrite (true, 0, idx) rid none
  let w1 := (w0.2).bpWrite (true, 1, idx) rid none
  let w2 := (w1.2).bpWrite (true, 2, idx) timestamp none
  let w3 := (w2.2).bpWrite (true, 3, idx) 0 none
  let wu := (w3.2).writeUserCols idx 0 columns
  if ¬ wu.1 then (none, wu.2)
  else
    let t4 : Table := { wu.2 with page_directory := dSet (wu.2).page_directory rid (RecKind.base, idx, slot) }
    if t4.key < columns.length then
      let record : Record :=
        { rid := rid, key := columns.getD t4.key 0, columns := columns,
          indirection := some rid, timestamp := some timestamp, schema_encoding := some 0 }
      let t5 := t4.updateIndices rid columns.enum
      (some record, { t5 with num_records := t5.num_records + 1 })
    else (none, t4)

/-- Append loop of _write_tail_record lines 267 to 268: append every current
base value to its tail column page, ignoring the success flags. -/
def Table.appendVals (t : Table) (idx : Nat) (i : Nat) : List Int → Table
  | [] => t
  | v :: rest =>
    let w := t.bpWrite (false, 4 + i, idx) v none
    (w.2).appendVals idx (i + 1) rest

/-- Append loop of _write_tail_record lines 271 to 273: append each
non-None update value to its tail column page. -/
def Table.appendOptVals (t : Table) (idx : Nat) (i : Nat) : List (Option Int) → Table
  | [] => t
  | v :: rest =>
    let t1 :=
      match v with
      | some x => ((t.bpWrite (false, 4 + i, idx) x none)).2
      | none => t
    t1.appendOptVals idx (i + 1) rest

/-- Overwrite loop of _update_base_record lines 293 to 296: write each
non-None value over the base slot of its column. -/
def Table.overwriteOptVals (t : Table) (idx slot : Nat) (i : Nat) :
    List (Option Int) → Table
  | [] => t
  | v :: rest =>
    let t1 :=
      match v with
      | some x => ((t.bpWrite (true, 4 + i, idx) x (some slot))).2
      | none => t
    t1.overwriteOptVals idx slot (i + 1) rest

/-- Table._write_tail_record: append the pre-update base values, then the
non-None update values, then the four metadata values (the tail indirection
is the base indirection unless it self-loops, in which case the base rid);
finally register the tail rid at the slot given by the indirection column
count minus one. -/
def Table.write_tail_record (t : Table) (base_record : Record) (tail_rid : Int)
    (timestamp schema_encoding : Int) (page_idx : Nat)
    (new_columns : List (Option Int)) : Table :=
  let t1 := t.appendVals page_idx 0 base_record.columns
  let t2 := t1.appendOptVals page_idx 0 new_columns
  let tail_indirection : Option Int :=
    if base_record.indirection ≠ some base_record.rid then base_record.indirection else none
  let w0 := t2.bpWrite (false, 0, page_idx) (tail_indirection.getD base_record.rid) none
  let w1 := (w0.2).bpWrite (false, 1, page_idx) tail_rid none
  let w2 := (w1.2).bpWrite (false, 2, page_idx) timestamp none
  let w3 := (w2.2).bpWrite (false, 3, page_idx) schema_encoding none
  let cnt := (w3.2).bpNumRecords (false, 0, page_idx)
  { cnt.2 with page_directory := dSet (cnt.2).page_directory tail_rid (RecKind.tail, page_idx, cnt.1 - 1) }

/-- Table._update_base_record: overwrite the non-None user values at the
base slot, then the indirection, timestamp and schema metadata.  A missing
page-directory entry raises KeyError in the source (none here); the caller
checked the entry, so the branch is unreachable from update_record. -/
def Table.update_base_record (t : Table) (base_rid tail_rid : Int)
    (timestamp schema_encoding : Int) (new_columns : List (Option Int)) :
    Option Table :=
  match dGet t.page_directory base_rid with
  | none => none
  | some (_, base_page_idx, base_slot) =>
    let t1 := t.overwriteOptVals base_page_idx base_slot 0 new_columns
    let w0 := t1.bpWrite (true, 0, base_page_idx) tail_rid (some base_slot)
    let w2 := (w0.2).bpWrite (true, 2, base_page_idx) timestamp (some base_slot)
    let w3 := (w2.2).bpWrite (true, 3, base_page_idx) schema_encoding (some base_slot)
    some w3.2

/-- Table.update_record without a transaction id.  Check the directory
entry, read the current base record, compute the tail rid as num_records +
num_updates, extend the tail chains when any column page is full, write the
tail record, rewrite the base record in place, and bump num_updates.  The
subsequent merge trigger demands num_updates divisible by 10 and more than
60 seconds since last_merge_time; under the constant clock of this model
the elapsed time is zero, so __merge (whose tail-chain walk does not even
terminate on an updated record) is never invoked and is not modelled. -/
def Table.update_record (t : Table) (rid : Int) (schema_encoding : Int)
    (columns : List (Option Int)) : Bool × Table :=
  if (dGet t.page_directory rid).isNone then (false, t)
  else
    match t.get_record rid with
    | (none, t1) => (false, t1)
    | (some base_record, t1) =>
      let tail_rid : Int := t1.num_records + t1.num_updates
      let timestamp := t1.now
      let current_idx := t1.num_tail_pages - 1
      let chk := t1.colsHaveCapacity false current_idx (List.range t1.total_columns)
      let pick : Nat × Table :=
        if chk.1 then (current_idx, chk.2)
        else ((chk.2).num_tail_pages, { chk.2 with num_tail_pages := (chk.2).num_tail_pages + 1 })
      let idx := pick.1
      let t2 := pick.2
      let t3 := t2.write_tail_record base_record tail_rid timestamp schema_encoding idx columns
      match t3.update_base_record rid tail_rid timestamp schema_encoding columns with
      | none => (false, t3)
      | some t4 => (true, { t4 with num_updates := t4.num_updates + 1 })

/-- Version-chain walk of Query.select_version lines 189 to 204: follow the
indirection pointers from the base record, collecting each tail record,
stopping on a missing pointer, a self-loop, a pointer into the visited set,
or an unreadable record.  The fuel starts above the page-directory size; the
visited-set guard admits at most one iteration per directory entry, so the
fuel never runs out and the walk matches the terminating Python loop. -/
def Table.buildVersions (t : Table) (fuel : Nat) (current : Record)
    (visited : List Int) (acc : List Record) : List Record × Table :=
  match fuel with
  | 0 => (acc, t)
  | fuel + 1 =>
    match current.indirection with
    | none => (acc, t)
    | some ind =>
      if ind ∈ visited ∨ ind = current.rid then (acc, t)
      else
        match t.get_record ind with
        | (none, t1) => (acc, t1)
        | (some nxt, t1) =>
          t1.buildVersions fuel nxt (visited ++ [nxt.rid]) (acc ++ [nxt])

/-- Record as returned by Query.select and Query.select_version: the rid
(None on the not-found paths of select_version), the key, and projected
column values. -/
structure SelRecord where
  rid : Option Int
  key : Int
  columns : List (Option Int)
deriving DecidableEq

/-- Projection of Query.select lines 123 to 129: one entry per mask
position, the column value where the mask is truthy and None elsewhere. -/
def projectColumns (cols : List Int) (mask : List Nat) : List (Option Int) :=
  (mask.enum).map (fun p => if p.2 ≠ 0 then some (cols.getD p.1 0) else none)

/-- Projection used throughout Query.select_version: keep only the values
at truthy mask positions (no None placeholders). -/
def projectKeep (cols : List Int) (mask : List Nat) : List (Option Int) :=
  ((mask.enum).filter (fun p => decide (p.2 ≠ 0))).map (fun p => some (cols.getD p.1 0))

/-- Query.insert: reject a column-count mismatch, then create the record. -/
def Query.insert (t : Table) (columns : List Int) : Bool × Table :=
  if columns.length ≠ t.num_columns then (false, t)
  else
    match t.create_record columns with
    | (some _, t1) => (true, t1)
    | (none, t1) => (false, t1)

/-- Query.select.  The key column always carries an index, so the source
takes the index path: locate the rid, fetch the record, reject a key
mismatch, and project.  An empty (falsy) mask skips projection.  The
fallback scan calls Table.get_all_records, a method Table does not define,
so that branch raises AttributeError and returns False. -/
def Query.select (t : Table) (key : Int) (column : Nat) (query_columns : List Nat) :
    Option (List SelRecord) × Table :=
  if (t.indices.getD t.key none).isSome then
    match Index.locate t.indices t.key key with
    | none => (none, t)
    | some rid =>
      match t.get_record rid with
      | (none, t1) => (none, t1)
      | (some record, t1) =>
        if record.key ≠ key then (none, t1)
        else
          let cols :=
            if query_columns.isEmpty then record.columns.map some
            else projectColumns record.columns query_columns
          (some [{ rid := some record.rid, key := record.key, columns := cols }], t1)
  else (none, t)

/-- Query.select_version.  Locate through the column given by key_index,
fetch the base record; version 0 projects the current base values.  For
negative versions, build the tail chain; an empty chain or a version older
than the chain projects the base record (the source comment calls this the
original state, but the base holds the current values); version -2 projects
the oldest collected tail record, version -1 the newest.  The not-found
paths return a record with rid None and one None per selected column. -/
def Query.select_version (t : Table) (key : Int) (key_index : Nat)
    (mask : List Nat) (relative_version : Int) : List SelRecord × Table :=
  let missing : SelRecord :=
    { rid := none, key := key, columns := List.replicate mask.sum none }
  match Index.locate t.indices key_index key with
  | none => ([missing], t)
  | some rid =>
    match t.get_record rid with
    | (none, t1) => ([missing], t1)
    | (some base_record, t1) =>
      if relative_version = 0 then
        ([{ rid := some base_record.rid, key := key,
            columns := projectKeep base_record.columns mask }], t1)
      else
        let bv := t1.buildVersions (t1.page_directory.length + 1) base_record [rid] []
        let versions := bv.1
        let t2 := bv.2
        if versions.isEmpty then
          ([{ rid := some base_record.rid, key := key,
              columns := projectKeep base_record.columns mask }], t2)
        else if relative_version.natAbs > versions.length then
          ([{ rid := some base_record.rid, key := key,
              columns := projectKeep base_record.columns mask }], t2)
        else if relative_version = -2 then
          ([{ rid := some base_record.rid, key := key,
              columns := projectKeep ((versions.getLastD base_record)).columns mask }], t2)
        else if relative_version = -1 then
          ([{ rid := some base_record.rid, key := key,
              columns := projectKeep ((versions.headD base_record)).columns mask }], t2)
        else
          ([{ rid := some base_record.rid, key := key,
              columns := projectKeep base_record.columns mask }], t2)

/-- Overlay loop of Query.update lines 306 to 310: start from the current
values and write each non-None update value over its position. -/
def overlayCols (cols : List (Option Int)) : List (Nat × Option Int) → List (Option Int)
  | [] => cols
  | (i, some v) :: rest => overlayCols (cols.set i (some v)) rest
  | (_, none) :: rest => overlayCols cols rest

/-- Schema-encoding accumulation of Query.update: bit i set iff update
position i is non-None. -/
def schemaBits (columns : List (Option Int)) : Nat :=
  (columns.enum).foldl (fun acc p => if p.2.isSome then acc ||| (1 <<< p.1) else acc) 0

/-- Query.update: select the current record with an all-ones mask, overlay
the non-None update values, locate the rid and call update_record, then run
the verification select (which only logs, but pins pages). -/
def Query.update (t : Table) (primary_key : Int) (columns : List (Option Int)) :
    Bool × Table :=
  match Query.select t primary_key t.key (List.replicate t.num_columns 1) with
  | (none, t1) => (false, t1)
  | (some recs, t1) =>
    match recs.headD { rid := none, key := primary_key, columns := [] } with
    | current_record =>
      let new_columns := overlayCols current_record.columns columns.enum
      let schema_encoding : Int := (schemaBits columns : Nat)
      match Index.locate t1.indices t1.key primary_key with
      | none => (false, t1)
      | some rid =>
        let upd := t1.update_record rid schema_encoding new_columns
        let ver := Query.select upd.2 primary_key (upd.2).key (List.replicate (upd.2).num_columns 1)
        (upd.1, ver.2)

/-- Summation loop of Query.sum lines 354 to 378: for each rid, fetch the
record, skip unreadable rids and keys already seen, and accumulate the value
of the aggregate column. -/
def Query.sumLoop (t : Table) (col : Nat) (seen : List Int) (acc : Int) :
    List Int → Int × Table
  | [] => (acc, t)
  | rid :: rest =>
    match t.get_record rid with
    | (none, t1) => Query.sumLoop t1 col seen acc rest
    | (some record, t1) =>
      if record.key ∈ seen then Query.sumLoop t1 col seen acc rest
      else Query.sumLoop t1 col (seen ++ [record.key])
        (acc + record.columns.getD col 0) rest

/-- Query.sum: reject an out-of-range aggregate column (False), gather the
rids in range from the primary index, and accumulate. -/
def Query.sum (t : Table) (start_range end_range : Int)
    (aggregate_column_index : Nat) : Option Int × Table :=
  if aggregate_column_index ≥ t.num_columns then (none, t)
  else
    let rids := Index.locate_range t.indices start_range end_range t.key
    let s := Query.sumLoop t aggregate_column_index [] 0 rids
    (some s.1, s.2)

/-- Primary-key index dict of a table (the mapping the source stores at
indices[table.key]; always present). -/
def Table.keyDict (t : Table) : IDict := (t.indices.getD t.key none).getD []

/-- Current value of one column of the record a rid resolves to, 0 when the
record is unreadable; the quantity Query.sum accumulates per key. -/
def Table.currentColValue (t : Table) (col : Nat) (rid : Int) : Int :=
  match (t.get_record rid).1 with
  | some r => r.columns.getD col 0
  | none => 0

/-- Key of the record a rid resolves to, 0 when the record is unreadable;
the value Query.sum deduplicates on. -/
def Table.recKey (t : Table) (rid : Int) : Int :=
  match (t.get_record rid).1 with
  | some r => r.key
  | none => 0

/-- Value of Table._get_page as determined by the content view of the
bufferpool: the page get_page hands out, or None on the bounds check of
_get_page.  Used to state that reads are determined by the view. -/
def Table.viewPage (t : Table) (isb : Bool) (column page_index : Nat) : Option Page :=
  if column ≥ t.total_columns ∨ page_index ≥ (if isb then t.num_base_pages else t.num_tail_pages)
  then none
  else some (t.bufferpool.pageOf (isb, column, page_index))

/-- Value of the user-column read loop of Table.get_record as determined by
the content view: same logic as readCols, reading through viewPage. -/
def Table.readColsV (t : Table) (isb : Bool) (page_index slot : Nat) :
    List Nat → Option (List Int)
  | [] => some []
  | c :: rest =>
    match t.viewPage isb c page_index with
    | none => none
    | some pg =>
      match pg.read slot with
      | none => none
      | some v =>
        match t.readColsV isb page_index slot rest with
        | none => none
        | some vs => some (v :: vs)

/-- Value of Table.get_record as determined by the content view: same logic
as get_record, reading through viewPage and readColsV. -/
def Table.getRecordV (t : Table) (rid : Int) : Option Record :=
  match dGet t.page_directory rid with
  | none => none
  | some (page_type, page_index, slot) =>
    if page_type = RecKind.deleted then none
    else
      let isb := page_type = RecKind.base
      match t.viewPage isb 0 page_index with
      | none => none
      | some pg0 =>
        let ind := pg0.read slot
        match t.viewPage isb 2 page_index with
        | none => none
        | some pg2 =>
          let ts := pg2.read slot
          match t.viewPage isb 3 page_index with
          | none => none
          | some pg3 =>
            let sch := pg3.read slot
            match t.readColsV isb page_index slot (List.range' 4 t.num_columns) with
            | none => none
            | some values =>
              if t.key < values.length then
                some { rid := rid, key := values.getD t.key 0, columns := values,
                       indirection := ind, timestamp := ts, schema_encoding := sch }
              else none

/-- Equality of every table field except the bufferpool: the relation
between a state and the result of any helper that only touches pages. -/
def Table.coreEq (t s : Table) : Prop :=
  s.key = t.key ∧ s.num_columns = t.num_columns ∧ s.page_directory = t.page_directory ∧
  s.indices = t.indices ∧ s.next_rid = t.next_rid ∧ s.num_records = t.num_records ∧
  s.num_updates = t.num_updates ∧ s.num_base_pages = t.num_base_pages ∧
  s.num_tail_pages = t.num_tail_pages ∧ s.now = t.now ∧ s.last_merge_time = t.last_merge_time

/-- Observational equality of two table states: everything except bufferpool
pin counts, LRU order, dirt and the rid directory.  Reads only bump pins, so
they preserve this view. -/
def Table.SameView (t s : Table) : Prop :=
  t.key = s.key ∧ t.num_columns = s.num_columns ∧ t.page_directory = s.page_directory ∧
  t.indices = s.indices ∧ t.next_rid = s.next_rid ∧ t.num_records = s.num_records ∧
  t.num_updates = s.num_updates ∧ t.num_base_pages = s.num_base_pages ∧
  t.num_tail_pages = s.num_tail_pages ∧ t.now = s.now ∧ t.last_merge_time = s.last_merge_time ∧
  ∀ k, t.bufferpool.pageOf k = s.bufferpool.pageOf k

/-- Well-formedness of a table state, the facts holding in every state the
engine reaches and needed for the insert/select round trip: pool invariants;
a valid key column; aligned record counts across the columns of each base
chain position; untouched base chain positions empty; a representable
non-negative rid counter and clock; index entries pointing only at already
allocated rids; and a present primary index. -/
def Table.WF (t : Table) : Prop :=
  BPInv t.bufferpool ∧
  t.key < t.num_columns ∧
  (∀ i, i < t.num_base_pages → ∀ c1, c1 < t.total_columns → ∀ c2, c2 < t.total_columns →
    (t.bufferpool.pageOf (true, c1, i)).num_records =
      (t.bufferpool.pageOf (true, c2, i)).num_records) ∧
  (∀ c i, t.num_base_pages ≤ i → t.bufferpool.pageOf (true, c, i) = Page.empty) ∧
  0 ≤ t.next_rid ∧ fitsInt64 t.next_rid = true ∧
  fitsInt64 t.now = true ∧
  (∀ c d, t.indices.getD c none = some d → ∀ p ∈ d, p.2 < t.next_rid) ∧
  (t.indices.getD t.key none).isSome

/-- Fresh 5-column table with key column 0, bufferpool capacity 1000 and an
empty disk, matching the Grades table of the test scenarios. -/
def demoTable : Table := Table.init 5 0 1000 [] 0

/-- Scenario 1 state after inserting (92106429, 1, 2, 3, 4). -/
def demoInserted : Table := (Query.insert demoTable [92106429, 1, 2, 3, 4]).2

/-- Scenario 1 state after the update with [None, None, 9, None, 10]. -/
def demoUpdated : Table :=
  (Query.update demoInserted 92106429 [none, none, some 9, none, some 10]).2

/-- Scenario 2 state: keys 1..10 inserted with column 1 equal to the key. -/
def demoTableTen : Table :=
  (List.range 10).foldl
    (fun t i => (Query.insert t [(i : Int) + 1, (i : Int) + 1, 0, 0, 0]).2)
    (Table.init 5 0 1000 [] 0)

/-- Rid-collision scenario, step 1: insert key 1 (base rid 0). -/
def collideStep1 : Table := (Query.insert (Table.init 5 0 1000 [] 0) [1, 10, 20, 30, 40]).2

/-- Rid-collision scenario, step 2: update key 1, creating tail rid
num_records + num_updates = 1. -/
def collideStep2 : Table :=
  (Query.update collideStep1 1 [none, some 11, none, none, none]).2

/-- Rid-collision scenario, step 3: insert key 2, whose base rid is the
counter value 1, colliding with the tail rid of step 2. -/
def collideStep3 : Table := (Query.insert collideStep2 [2, 50, 60, 70, 80]).2

/-- LockType from lstore/lock_manager.py. -/
inductive LockType where
  | shared
  | exclusive
deriving DecidableEq

/-- Lock from lstore/lock_manager.py: holder and mode.  The timestamp field
(a thread ident used only for logging) is not modelled. -/
structure Lock where
  transaction_id : Int
  lock_type : LockType
deriving DecidableEq

/-- Model of lstore/lock_manager.py LockManager: the per record lock table
and the reverse map from transaction to the set of rids it locks (a Python
set, modelled as a duplicate-free list). -/
structure LockManager where
  record_locks : List (Int × List Lock)
  transaction_locks : List (Int × List Int)
deriving DecidableEq

/-- LockManager.__init__. -/
def LockManager.empty : LockManager := { record_locks := [], transaction_locks := [] }

/-- Outcome of the scan over the existing locks on a record inside
LockManager.acquire_lock. -/
inductive ScanResult where
  | conflict
  | granted (locks : List Lock)
  | fallthrough

/-- Scan loop of LockManager.acquire_lock (lines 60 to 79 of
lock_manager.py).  Walking the lock list in order: a lock of another
transaction conflicts when either side is exclusive; a lock of the requester
grants immediately on an equal mode, upgrades a shared lock in place on an
exclusive request, and is skipped otherwise (an exclusive holder requesting
shared falls through both branches and keeps scanning). -/
def acquireScan (transaction_id : Int) (lock_type : LockType) : List Lock → ScanResult
  | [] => .fallthrough
  | lk :: rest =>
    if lk.transaction_id ≠ transaction_id then
      if lk.lock_type = .exclusive ∨ lock_type = .exclusive then .conflict
      else
        match acquireScan transaction_id lock_type rest with
        | .granted ls => .granted (lk :: ls)
        | .conflict => .conflict
        | .fallthrough => .fallthrough
    else
      if lk.lock_type = lock_type then .granted (lk :: rest)
      else if lk.lock_type = .shared ∧ lock_type = .exclusive then
        .granted ({ lk with lock_type := .exclusive } :: rest)
      else
        match acquireScan transaction_id lock_type rest with
        | .granted ls => .granted (lk :: ls)
        | .conflict => .conflict
        | .fallthrough => .fallthrough

/-- LockManager.acquire_lock.  First the two dict entries are initialised if
missing (these mutations persist even when the call raises); then the lock
list is scanned.  A conflict raises LockConflictError, modelled as the Bool
false; otherwise the call returns True, appending a fresh lock and recording
the rid in the reverse map only when the scan fell through. -/
def LockManager.acquire_lock (lm : LockManager) (transaction_id rid : Int)
    (lock_type : LockType) : Bool × LockManager :=
  let rlocks := match dGet lm.record_locks rid with
    | some _ => lm.record_locks
    | none => dSet lm.record_locks rid []
  let tlocks := match dGet lm.transaction_locks transaction_id with
    | some _ => lm.transaction_locks
    | none => dSet lm.transaction_locks transaction_id []
  let lm1 : LockManager := { record_locks := rlocks, transaction_locks := tlocks }
  let cur := (dGet lm1.record_locks rid).getD []
  match acquireScan transaction_id lock_type cur with
  | .conflict => (false, lm1)
  | .granted ls => (true, { lm1 with record_locks := dSet lm1.record_locks rid ls })
  | .fallthrough =>
    (true,
      { record_locks :=
          dSet lm1.record_locks rid (cur ++ [{ transaction_id := transaction_id, lock_type := lock_type }]),
        transaction_locks :=
          dSet lm1.transaction_locks transaction_id
            (setAdd ((dGet lm1.transaction_locks transaction_id).getD []) rid) })

/-- LockManager.release_lock: drop every lock of the transaction on the rid,
deleting the record entry when it empties, and discard the rid from the
reverse map, deleting the transaction entry when it empties. -/
def LockManager.release_lock (lm : LockManager) (transaction_id rid : Int) : LockManager :=
  let lm1 :=
    match dGet lm.record_locks rid with
    | none => lm
    | some locks =>
      let remaining := locks.filter (fun lk => decide (lk.transaction_id ≠ transaction_id))
      if remaining.isEmpty then { lm with record_locks := dDel lm.record_locks rid }
      else { lm with record_locks := dSet lm.record_locks rid remaining }
  match dGet lm1.transaction_locks transaction_id with
  | none => lm1
  | some rids =>
    let rids1 := lErase rids rid
    if rids1.isEmpty then { lm1 with transaction_locks := dDel lm1.transaction_locks transaction_id }
    else { lm1 with transaction_locks := dSet lm1.transaction_locks transaction_id rids1 }

/-- Call of LockManager.release_lock made while the caller already holds the
manager mutex.  release_lock opens with a with-statement on the same
non-reentrant threading.Lock, so the call blocks forever; a call that never
returns is modelled as none. -/
def lockedRelease (lm : LockManager) (transaction_id rid : Int) : Option LockManager :=
  match lm, transaction_id, rid with
  | _, _, _ => none

/-- LockManager.release_all_locks: holding the manager mutex, call
release_lock for every rid in the reverse map of the transaction.  Each such
call re-acquires the already-held non-reentrant mutex (see lockedRelease),
so the method returns only when the transaction holds nothing. -/
def LockManager.release_all_locks (lm : LockManager) (transaction_id : Int) :
    Option LockManager :=
  match dGet lm.transaction_locks transaction_id with
  | none => some lm
  | some rids => rids.foldlM (fun acc rid => lockedRelease acc transaction_id rid) lm

/-- Query operations dispatched by name in transaction.py line 82 (the
source compares query_func.__name__ against the string select). -/
inductive QueryOp where
  | select
  | insert
  | update
  | delete
  | increment
  | sum
  | select_version
  | sum_version
deriving DecidableEq

/-- Lock mode chosen by Transaction.execute, line 82 of transaction.py:
SHARED exactly for select, EXCLUSIVE for every other operation. -/
def Transaction.lockTypeFor (op : QueryOp) : LockType :=
  match op with
  | .select => .shared
  | _ => .exclusive

/-- Behaviour of a queued query function when invoked: it either returns a
value whose truthiness is recorded, or raises an exception. -/
inductive QOutcome where
  | ret (truthy : Bool)
  | raises
deriving DecidableEq

/-- One queued query of a transaction: the operation (standing for
query_func.__name__), its argument list (args[0] is the primary key the
transaction locks), and its modelled behaviour when run. -/
structure TQuery where
  op : QueryOp
  args : List Int
  outcome : QOutcome
deriving DecidableEq

/-- Model of lstore/transaction.py Transaction state. -/
structure Transaction where
  transaction_id : Int
  queries : List TQuery
  started : Bool
  committed : Bool
  aborted : Bool
  results : List Bool
deriving DecidableEq

/-- Transaction with no flags set and no results, as built by __init__. -/
def Transaction.mk0 (transaction_id : Int) (queries : List TQuery) : Transaction :=
  { transaction_id := transaction_id, queries := queries,
    started := false, committed := false, aborted := false, results := [] }

/-- Transaction.commit: guard the flags, release all locks (none = the
release deadlocked, see LockManager.release_all_locks), set committed. -/
def Transaction.commit (txn : Transaction) (lm : LockManager) :
    Option (Bool × Transaction × LockManager) :=
  if ¬ txn.started ∨ txn.committed ∨ txn.aborted then some (false, txn, lm)
  else
    match lm.release_all_locks txn.transaction_id with
    | none => none
    | some lm1 => some (true, { txn with committed := true }, lm1)

/-- Transaction.abort: guard the flags, release all locks, set aborted. -/
def Transaction.abort (txn : Transaction) (lm : LockManager) :
    Option (Bool × Transaction × LockManager) :=
  if ¬ txn.started ∨ txn.committed then some (false, txn, lm)
  else
    match lm.release_all_locks txn.transaction_id with
    | none => none
    | some lm1 => some (true, { txn with aborted := true }, lm1)

/-- Return value of Transaction.execute: the committed value of commit, or a
propagated TransactionAbortError. -/
inductive ExecOutcome where
  | ret (b : Bool)
  | raised
deriving DecidableEq

/-- Main loop of Transaction.execute (lines 77 to 103 of transaction.py).
For each queued query in order: pick the lock mode from the operation name,
acquire the lock on args[0] (logged), run the query, append its result, and
release the lock early when no later queued query uses the same key.  A lock
conflict or an exception from the query hits the inner handler, which
releases the lock on this key and re-raises; the Bool result is false
exactly when an exception is propagating. -/
def Transaction.executeLoop (tid : Int) (lm : LockManager) (results : List Bool)
    (log : List (Int × LockType)) :
    List TQuery → Bool × LockManager × List Bool × List (Int × LockType)
  | [] => (true, lm, results, log)
  | q :: rest =>
    let key := q.args.headD 0
    let mode := Transaction.lockTypeFor q.op
    let acq := lm.acquire_lock tid key mode
    let log1 := log ++ [(key, mode)]
    if ¬ acq.1 then (false, (acq.2).release_lock tid key, results, log1)
    else
      match q.outcome with
      | .raises => (false, (acq.2).release_lock tid key, results, log1)
      | .ret b =>
        let results1 := results ++ [b]
        let lm2 :=
          if rest.all (fun q2 => decide (¬ key = q2.args.headD 0)) then
            (acq.2).release_lock tid key
          else acq.2
        Transaction.executeLoop tid lm2 results1 log1 rest

/-- Transaction.execute.  Returns none when a lock release self-deadlocks;
otherwise the outcome (the value of commit, or the TransactionAbortError
raised after abort), the final transaction, the final lock manager, and the
log of lock acquisitions (key, mode) made by the loop. -/
def Transaction.execute (txn : Transaction) (lm : LockManager) :
    Option (ExecOutcome × Transaction × LockManager × List (Int × LockType)) :=
  if txn.started then some (.ret false, txn, lm, [])
  else
    let txn1 := { txn with started := true }
    match Transaction.executeLoop txn1.transaction_id lm txn1.results [] txn1.queries with
    | (ok, lm1, results1, log) =>
      if ok then
        match Transaction.commit { txn1 with results := results1 } lm1 with
        | none => none
        | some (b, txn2, lm2) => some (.ret b, txn2, lm2, log)
      else
        match Transaction.abort { txn1 with results := results1 } lm1 with
        | none => none
        | some (_, txn2, lm2) => some (.raised, txn2, lm2, log)

/-- Query loop of TransactionWorker._execute_transaction (lines 39 to 48 of
transaction_worker.py): run each query under the global table lock; a falsy
return raises QueryExecutionError, caught by the handler which aborts.  The
returned log lists the queries that were actually invoked. -/
def workerLoop (executed : List TQuery) :
    List TQuery → Bool × List TQuery
  | [] => (true, executed)
  | q :: rest =>
    match q.outcome with
    | .raises => (false, executed ++ [q])
    | .ret b =>
      if b then workerLoop (executed ++ [q]) rest
      else (false, executed ++ [q])

/-- TransactionWorker._execute_transaction: begin the transaction, run the
queries (no per-record locks are taken; the worker holds the global lock),
abort on the first falsy or raising query, otherwise commit.  Returns the
success flag, the final transaction, the final lock manager, and the list of
queries that ran. -/
def TransactionWorker.execute_transaction (txn : Transaction) (lm : LockManager) :
    Option (Bool × Transaction × LockManager × List TQuery) :=
  if txn.started then some (false, txn, lm, [])
  else
    let txn1 := { txn with started := true }
    match workerLoop [] txn1.queries with
    | (ok, executed) =>
      if ok then
        match Transaction.commit txn1 lm with
        | none => none
        | some (cb, txn2, lm2) =>
          if cb then some (true, txn2, lm2, executed)
          else some (false, txn2, lm2, executed)
      else
        match Transaction.abort txn1 lm with
        | none => none
        | some (_, txn2, lm2) => some (false, txn2, lm2, executed)

/-- Upgrade scenario of claim C4: transaction 1 takes shared on record 0,
transaction 2 takes shared on record 0, then transaction 1 requests
exclusive. -/
def upgradeDemo : Bool × LockManager :=
  ((((LockManager.empty.acquire_lock 1 0 .shared).2).acquire_lock 2 0 .shared).2).acquire_lock 1 0 .exclusive

/-- Lock-manager state in which transaction 1 holds one shared lock, on
record 0. -/
def oneLockDemo : LockManager := (LockManager.empty.acquire_lock 1 0 .shared).2

/-- Transaction of claim C9: the first queued query (an update on key 5)
returns a falsy value, the second (a select on key 6) succeeds. -/
def falsyDemoTxn : Transaction :=
  Transaction.mk0 7
    [{ op := .update, args := [5], outcome := .ret false },
     { op := .select, args := [6], outcome := .ret true }]

/-- Transaction of claim C8: one queued sum query over keys 3..7. -/
def sumDemoTxn : Transaction :=
  Transaction.mk0 8 [{ op := .sum, args := [3, 7, 1], outcome := .ret true }]

/-- Lock-manager state in which record 0 carries the shared locks of
transactions 1 and 2, in that order. -/
def twoSharedDemo : LockManager :=
  (((LockManager.empty.acquire_lock 1 0 .shared).2).acquire_lock 2 0 .shared).2

/-- Truthiness of a modelled query return value; raising counts as falsy for
the worker loop. -/
def QOutcome.truthy : QOutcome → Bool
  | .ret b => b
  | .raises => false

/-- Table-level operations considered for rid allocation: the insert and
update entry points of query.py. -/
inductive TableOp where
  | ins (columns : List Int)
  | upd (key : Int) (columns : List (Option Int))

/-- State reached by one table operation. -/
def Table.applyOp (t : Table) : TableOp → Table
  | .ins cols => (Query.insert t cols).2
  | .upd k cols => (Query.update t k cols).2

/-- Base rids allocated while one operation runs: Query.insert reaching
create_record consumes exactly the counter value (even when the insert later
fails, the rid is never reused); updates allocate no base rid. -/
def Table.opBaseRids (t : Table) : TableOp → List Int
  | .ins cols => if cols.length = t.num_columns then [t.next_rid] else []
  | .upd _ _ => []

/-- Base rids allocated over a whole operation sequence, in order. -/
def Table.runOpsLog (t : Table) : List TableOp → List Int
  | [] => []
  | op :: rest => t.opBaseRids op ++ (t.applyOp op).runOpsLog rest

/-- Locks currently held by a transaction according to the reverse map. -/
def LockManager.heldBy (lm : LockManager) (tid : Int) : List Int :=
  (dGet lm.transaction_locks tid).getD []

/-- Lock-manager states whose locks all belong to one transaction, together
with the bookkeeping invariants the manager maintains for them; this is the
shape of every state a single transaction produces from the empty manager. -/
def OnlyTxn (tid : Int) (lm : LockManager) : Prop :=
  (∀ p ∈ lm.record_locks, ∀ lk ∈ p.2, lk.transaction_id = tid) ∧
  (∀ p ∈ lm.record_locks, p.2 ≠ []) ∧
  (∀ p ∈ lm.transaction_locks, p.1 = tid) ∧
  (lm.record_locks.map Prod.fst).Nodup ∧
  (lm.transaction_locks.map Prod.fst).Nodup ∧
  (lm.heldBy tid).Nodup ∧
  dGet lm.transaction_locks tid ≠ some [] ∧
  (∀ rid : Int, (dGet lm.record_locks rid).isSome ↔ rid ∈ lm.heldBy tid)

/-! Basic facts about the dictionary model. -/

theorem dGet_dSet_self {α β : Type} [DecidableEq α] (l : List (α × β)) (k : α) (v : β) :
    dGet (dSet l k v) k = some v := by
  induction l with
  | nil => simp [dSet, dGet]
  | cons p rest ih =>
    by_cases h : p.1 = k
    · simp [dSet, h, dGet]
    · simp [dSet, h, dGet, ih]

theorem dGet_dSet_ne {α β : Type} [DecidableEq α] (l : List (α × β)) (k k2 : α) (v : β)
    (h : k2 ≠ k) : dGet (dSet l k v) k2 = dGet l k2 := by
  have hk : ¬ k = k2 := fun hh => h hh.symm
  induction l with
  | nil => simp [dSet, dGet, hk]
  | cons p rest ih =>
    by_cases hp : p.1 = k
    · simp [dSet, hp, dGet, hk]
    · simp [dSet, hp, dGet, ih]

theorem dGet_dDel_ne {α β : Type} [DecidableEq α] (l : List (α × β)) (k k2 : α)
    (h : k2 ≠ k) : dGet (dDel l k) k2 = dGet l k2 := by
  induction l with
  | nil => simp [dDel]
  | cons p rest ih =>
    by_cases hp : p.1 = k
    · have hk2 : ¬ p.1 = k2 := fun hh => h (hp ▸ hh).symm
      have hk : ¬ k = k2 := fun hh => h hh.symm
      simp [dDel, hp, dGet, hk2, hk]
    · simp [dDel, hp, dGet, ih]

theorem dGet_eq_none {α β : Type} [DecidableEq α] (l : List (α × β)) (k : α)
    (h : k ∉ l.map Prod.fst) : dGet l k = none := by
  induction l with
  | nil => simp [dGet]
  | cons p rest ih =>
    simp only [List.map_cons, List.mem_cons, not_or] at h
    have hp : ¬ p.1 = k := fun hh => h.1 hh.symm
    simp [dGet, hp, ih h.2]

theorem dGet_dDel_self {α β : Type} [DecidableEq α] (l : List (α × β)) (k : α)
    (h : (l.map Prod.fst).Nodup) : dGet (dDel l k) k = none := by
  induction l with
  | nil => simp [dDel, dGet]
  | cons p rest ih =>
    simp only [List.map_cons, List.nodup_cons] at h
    by_cases hp : p.1 = k
    · simp only [dDel, if_pos hp]
      exact dGet_eq_none rest k (hp ▸ h.1)
    · simp [dDel, hp, dGet, ih h.2]

theorem dSet_keys {α β : Type} [DecidableEq α] (l : List (α × β)) (k : α) (v : β) :
    (dSet l k v).map Prod.fst =
      if k ∈ l.map Prod.fst then l.map Prod.fst else l.map Prod.fst ++ [k] := by
  induction l with
  | nil => simp [dSet]
  | cons p rest ih =>
    by_cases hp : p.1 = k
    · simp [dSet, hp]
    · have hk : ¬ k = p.1 := fun hh => hp hh.symm
      by_cases hm : k ∈ rest.map Prod.fst
      · simp [dSet, hp, ih, hm, hk]
      · simp [dSet, hp, ih, hm, hk]

theorem dSet_keys_nodup {α β : Type} [DecidableEq α] (l : List (α × β)) (k : α) (v : β)
    (h : (l.map Prod.fst).Nodup) : ((dSet l k v).map Prod.fst).Nodup := by
  rw [dSet_keys]
  by_cases hm : k ∈ l.map Prod.fst
  · simpa [hm] using h
  · rw [if_neg hm]
    exact h.append (List.nodup_singleton k)
      (by simpa [List.disjoint_singleton] using hm)

theorem dDel_keys_sublist {α β : Type} [DecidableEq α] (l : List (α × β)) (k : α) :
    ((dDel l k).map Prod.fst).Sublist (l.map Prod.fst) := by
  induction l with
  | nil => simp [dDel]
  | cons p rest ih =>
    by_cases hp : p.1 = k
    · simp only [dDel, if_pos hp, List.map_cons]
      exact List.Sublist.cons _ (List.Sublist.refl _)
    · simp only [dDel, if_neg hp, List.map_cons]
      exact ih.cons₂ p.1

theorem dDel_keys_nodup {α β : Type} [DecidableEq α] (l : List (α × β)) (k : α)
    (h : (l.map Prod.fst).Nodup) : ((dDel l k).map Prod.fst).Nodup := by
  exact (dDel_keys_sublist l k).nodup h

/-! Claim C6: failure behaviour of Page.write. -/

/-- C6 counterexample: appending the out-of-range value 2^63 to an empty
page returns failure, yet the record count changes from 0 to 1, so a failing
Page.write call does not always leave the page unchanged. -/
theorem page_write_failure_mutates :
    (Page.empty.write 9223372036854775808 none).1 = false ∧
    Page.empty.num_records = 0 ∧
    (Page.empty.write 9223372036854775808 none).2.num_records = 1 := by
  refine ⟨by decide, rfl, by decide⟩

/-- C6 (amended): Page.write fails exactly on a full-page append, an
overwrite at a slot at or beyond the record count, or a value outside the
8-byte signed range; a failing write never changes the buffer, and it leaves
the record count unchanged except in one case: a failed append of an
out-of-range value to a non-full page increments the count by one (the
source increments before the range check), leaving the new slot
unwritten. -/
theorem page_write_failure_spec (p : Page) (value : Int) (index : Option Nat) :
    ((p.write value index).1 = false ↔
      ((index = none ∧ p.has_capacity = false) ∨
       (∃ i, index = some i ∧ p.num_records ≤ i) ∨
       fitsInt64 value = false)) ∧
    ((p.write value index).1 = false →
      (∀ j, ((p.write value index).2).data j = p.data j) ∧
      ((p.write value index).2).num_records =
        (if index = none ∧ p.has_capacity = true ∧ fitsInt64 value = false
         then p.num_records + 1 else p.num_records)) := by
  cases index with
  | none =>
    by_cases hcap : p.has_capacity
    · by_cases hfit : fitsInt64 value
      · constructor
        · simp [Page.write, hcap, hfit]
        · intro hfalse
          simp [Page.write, hcap, hfit] at hfalse
      · have hfit2 : fitsInt64 value = false := Bool.eq_false_iff.mpr hfit
        constructor
        · simp [Page.write, hcap, hfit2]
        · intro _
          refine ⟨fun j => by simp [Page.write, hcap, hfit2], ?_⟩
          simp [Page.write, hcap, hfit2]
    · have hcap2 : p.has_capacity = false := Bool.eq_false_iff.mpr hcap
      constructor
      · simp [Page.write, hcap2]
      · intro _
        refine ⟨fun j => by simp [Page.write, hcap2], ?_⟩
        simp [Page.write, hcap2]
  | some i =>
    by_cases hi : i ≥ p.num_records
    · constructor
      · simp only [Page.write, if_pos hi]
        simp [hi]
      · intro _
        refine ⟨fun j => by simp [Page.write, hi], ?_⟩
        simp [Page.write, hi]
    · by_cases hfit : fitsInt64 value
      · constructor
        · simp [Page.write, hi, hfit]
        · intro hfalse
          simp [Page.write, hi, hfit] at hfalse
      · have hfit2 : fitsInt64 value = false := Bool.eq_false_iff.mpr hfit
        constructor
        · simp only [Page.write, if_neg hi, hfit2]
          simp [hfit2]
        · intro _
          refine ⟨fun j => by simp [Page.write, hi, hfit2], ?_⟩
          simp [Page.write, hi, hfit2]

/-- Witness for the amended C6 theorem at the counterexample input: the
append of 2^63 to the empty page fails, keeps every buffer slot, and bumps
the count to 1. -/
theorem page_write_failure_spec_witness :
    (Page.empty.write 9223372036854775808 none).1 = false ∧
    (∀ j, ((Page.empty.write 9223372036854775808 none).2).data j = Page.empty.data j) ∧
    ((Page.empty.write 9223372036854775808 none).2).num_records = 1 := by
  have hfail : (Page.empty.write 9223372036854775808 none).1 = false :=
    (page_write_failure_spec Page.empty 9223372036854775808 none).1.mpr
      (Or.inr (Or.inr (by decide)))
  have h2 := (page_write_failure_spec Page.empty 9223372036854775808 none).2 hfail
  refine ⟨hfail, h2.1, ?_⟩
  rw [h2.2]
  decide

/-! Association-list membership facts. -/

theorem dGet_mem {α β : Type} [DecidableEq α] {l : List (α × β)} {k : α} {v : β}
    (h : dGet l k = some v) : (k, v) ∈ l := by
  induction l with
  | nil => simp [dGet] at h
  | cons p rest ih =>
    by_cases hp : p.1 = k
    · simp only [dGet, if_pos hp] at h
      have : p = (k, v) := Prod.ext hp (Option.some.injEq _ _ ▸ h)
      simp [this]
    · simp only [dGet, if_neg hp] at h
      exact List.mem_cons_of_mem p (ih h)

theorem mem_dSet {α β : Type} [DecidableEq α] {l : List (α × β)} {k : α} {v : β}
    {p : α × β} (h : p ∈ dSet l k v) : p ∈ l ∨ p = (k, v) := by
  induction l with
  | nil => simpa [dSet] using h
  | cons q rest ih =>
    by_cases hq : q.1 = k
    · simp only [dSet, if_pos hq, List.mem_cons] at h
      rcases h with h | h
      · exact Or.inr h
      · exact Or.inl (List.mem_cons_of_mem q h)
    · simp only [dSet, if_neg hq, List.mem_cons] at h
      rcases h with h | h
      · exact Or.inl (h ▸ List.mem_cons_self q rest)
      · rcases ih h with h2 | h2
        · exact Or.inl (List.mem_cons_of_mem q h2)
        · exact Or.inr h2

theorem isSome_dGet_dSet {α β : Type} [DecidableEq α] (l : List (α × β)) (k k2 : α)
    (v : β) (h : (dGet l k2).isSome) : (dGet (dSet l k v) k2).isSome := by
  by_cases hk : k2 = k
  · subst hk
    simp [dGet_dSet_self]
  · rw [dGet_dSet_ne l k k2 v hk]
    exact h

/-! Bufferpool lemmas under the pin invariant. -/

theorem Bufferpool.evictFrom_id {K : Type} [DecidableEq K] (bp : Bufferpool K)
    (hpins : ∀ p ∈ bp.pool, 1 ≤ p.2.pin_count) :
    ∀ l : List K, bp.evictFrom l = bp := by
  intro l
  induction l with
  | nil => rfl
  | cons k rest ih =>
    simp only [Bufferpool.evictFrom]
    cases h : dGet bp.pool k with
    | none => exact ih
    | some e =>
      have hmem := dGet_mem h
      have h1 : 1 ≤ e.pin_count := hpins (k, e) hmem
      have hne : ¬ e.pin_count = 0 := by omega
      simp only [if_neg hne]
      exact ih

theorem Bufferpool.evict_page_id {K : Type} [DecidableEq K] (bp : Bufferpool K)
    (hpins : ∀ p ∈ bp.pool, 1 ≤ p.2.pin_count) : bp.evict_page = bp :=
  bp.evictFrom_id hpins bp.lru

theorem Bufferpool.get_page_fst {K : Type} [DecidableEq K] (bp : Bufferpool K) (k : K) :
    (bp.get_page k).1 = bp.pageOf k := by
  cases h : dGet bp.pool k <;> simp [Bufferpool.get_page, Bufferpool.pageOf, h]

/-- Shape of the state after get_page when no eviction can act: the pool
gains or repins the key, everything else is untouched. -/
theorem Bufferpool.get_page_snd {K : Type} [DecidableEq K] (bp : Bufferpool K) (k : K)
    (hpins : ∀ p ∈ bp.pool, 1 ≤ p.2.pin_count) :
    (bp.get_page k).2 =
      (match dGet bp.pool k with
       | some e =>
         ({ bp with lru := lErase bp.lru k ++ [k],
                    pool := dSet bp.pool k { e with pin_count := e.pin_count + 1 } } : Bufferpool K)
       | none =>
         ({ bp with pool := dSet bp.pool k ⟨bp.load_page k, 1, false⟩, lru := bp.lru ++ [k] } : Bufferpool K)) := by
  cases h : dGet bp.pool k with
  | some e => simp [Bufferpool.get_page, h]
  | none =>
    simp only [Bufferpool.get_page, h]
    have hev : (if bp.pool.length ≥ bp.pool_size then bp.evict_page else bp) = bp := by
      split
      · exact bp.evict_page_id hpins
      · rfl
    rw [hev]

theorem Bufferpool.get_page_pageOf {K : Type} [DecidableEq K] (bp : Bufferpool K)
    (k : K) (hpins : ∀ p ∈ bp.pool, 1 ≤ p.2.pin_count) (k2 : K) :
    ((bp.get_page k).2).pageOf k2 = bp.pageOf k2 := by
  rw [bp.get_page_snd k hpins]
  cases h : dGet bp.pool k with
  | some e =>
    by_cases hk : k2 = k
    · subst hk
      simp [Bufferpool.pageOf, dGet_dSet_self, h]
    · simp [Bufferpool.pageOf, dGet_dSet_ne _ _ _ _ hk, Bufferpool.load_page]
  | none =>
    by_cases hk : k2 = k
    · subst hk
      simp [Bufferpool.pageOf, dGet_dSet_self, h]
    · simp [Bufferpool.pageOf, dGet_dSet_ne _ _ _ _ hk, Bufferpool.load_page]

theorem Bufferpool.get_page_pins {K : Type} [DecidableEq K] (bp : Bufferpool K) (k : K)
    (hpins : ∀ p ∈ bp.pool, 1 ≤ p.2.pin_count) :
    ∀ p ∈ ((bp.get_page k).2).pool, 1 ≤ p.2.pin_count := by
  rw [bp.get_page_snd k hpins]
  cases h : dGet bp.pool k with
  | some e =>
    intro p hp
    rcases mem_dSet hp with hin | he
    · exact hpins p hin
    · subst he
      simp
  | none =>
    intro p hp
    rcases mem_dSet hp with hin | he
    · exact hpins p hin
    · subst he
      simp

theorem Bufferpool.get_page_nodup {K : Type} [DecidableEq K] (bp : Bufferpool K) (k : K)
    (hpins : ∀ p ∈ bp.pool, 1 ≤ p.2.pin_count)
    (hnd : (bp.pool.map Prod.fst).Nodup) :
    (((bp.get_page k).2).pool.map Prod.fst).Nodup := by
  rw [bp.get_page_snd k hpins]
  cases h : dGet bp.pool k with
  | some e => exact dSet_keys_nodup _ _ _ hnd
  | none => exact dSet_keys_nodup _ _ _ hnd

theorem Bufferpool.get_page_inv {K : Type} [DecidableEq K] (bp : Bufferpool K) (k : K)
    (h : BPInv bp) : BPInv ((bp.get_page k).2) :=
  ⟨bp.get_page_pins k h.1, bp.get_page_nodup k h.1 h.2⟩

theorem Bufferpool.get_page_disk {K : Type} [DecidableEq K] (bp : Bufferpool K) (k : K)
    (hpins : ∀ p ∈ bp.pool, 1 ≤ p.2.pin_count) :
    ((bp.get_page k).2).disk = bp.disk ∧
    ((bp.get_page k).2).disk_writes = bp.disk_writes ∧
    ((bp.get_page k).2).pool_size = bp.pool_size ∧
    ((bp.get_page k).2).page_directory = bp.page_directory := by
  rw [bp.get_page_snd k hpins]
  cases h : dGet bp.pool k <;> simp

theorem Bufferpool.get_page_mem {K : Type} [DecidableEq K] (bp : Bufferpool K) (k : K)
    (hpins : ∀ p ∈ bp.pool, 1 ≤ p.2.pin_count) :
    (dGet ((bp.get_page k).2).pool k).isSome := by
  rw [bp.get_page_snd k hpins]
  cases h : dGet bp.pool k <;> simp [dGet_dSet_self]

theorem Bufferpool.get_page_mono {K : Type} [DecidableEq K] (bp : Bufferpool K)
    (k k2 : K) (hpins : ∀ p ∈ bp.pool, 1 ≤ p.2.pin_count)
    (h : (dGet bp.pool k2).isSome) : (dGet ((bp.get_page k).2).pool k2).isSome := by
  rw [bp.get_page_snd k hpins]
  cases hk : dGet bp.pool k <;> exact isSome_dGet_dSet _ _ _ _ h

theorem Bufferpool.get_page_entry {K : Type} [DecidableEq K] (bp : Bufferpool K) (k : K)
    (hpins : ∀ p ∈ bp.pool, 1 ≤ p.2.pin_count) :
    ∃ e : BPEntry, dGet ((bp.get_page k).2).pool k = some e ∧ e.page = bp.pageOf k ∧
      1 ≤ e.pin_count := by
  rw [bp.get_page_snd k hpins]
  cases h : dGet bp.pool k with
  | some e =>
    refine ⟨{ e with pin_count := e.pin_count + 1 }, by simp [dGet_dSet_self], ?_, by simp⟩
    simp [Bufferpool.pageOf, h]
  | none =>
    refine ⟨⟨bp.load_page k, 1, false⟩, by simp [dGet_dSet_self], ?_, by simp⟩
    simp [Bufferpool.pageOf, h]

theorem Bufferpool.mark_dirty_pageOf {K : Type} [DecidableEq K] (bp : Bufferpool K)
    (k k2 : K) : (bp.mark_dirty k).pageOf k2 = bp.pageOf k2 := by
  cases h : dGet bp.pool k with
  | none => simp [Bufferpool.mark_dirty, h]
  | some e =>
    by_cases hk : k2 = k
    · subst hk
      simp [Bufferpool.mark_dirty, h, Bufferpool.pageOf, dGet_dSet_self]
    · simp [Bufferpool.mark_dirty, h, Bufferpool.pageOf,
        dGet_dSet_ne _ _ _ _ hk, Bufferpool.load_page]

theorem Bufferpool.mark_dirty_pins {K : Type} [DecidableEq K] (bp : Bufferpool K)
    (k : K) (hpins : ∀ p ∈ bp.pool, 1 ≤ p.2.pin_count) :
    ∀ p ∈ (bp.mark_dirty k).pool, 1 ≤ p.2.pin_count := by
  cases h : dGet bp.pool k with
  | none => simpa [Bufferpool.mark_dirty, h] using hpins
  | some e =>
    simp only [Bufferpool.mark_dirty, h]
    intro p hp
    rcases mem_dSet hp with hin | he
    · exact hpins p hin
    · subst he
      exact hpins (k, e) (dGet_mem h)

theorem Bufferpool.mark_dirty_nodup {K : Type} [DecidableEq K] (bp : Bufferpool K)
    (k : K) (hnd : (bp.pool.map Prod.fst).Nodup) :
    ((bp.mark_dirty k).pool.map Prod.fst).Nodup := by
  cases h : dGet bp.pool k with
  | none => simpa [Bufferpool.mark_dirty, h] using hnd
  | some e =>
    simp only [Bufferpool.mark_dirty, h]
    exact dSet_keys_nodup _ _ _ hnd

theorem Bufferpool.mark_dirty_aux {K : Type} [DecidableEq K] (bp : Bufferpool K)
    (k : K) :
    (bp.mark_dirty k).disk = bp.disk ∧ (bp.mark_dirty k).disk_writes = bp.disk_writes ∧
    (bp.mark_dirty k).pool_size = bp.pool_size ∧
    (bp.mark_dirty k).page_directory = bp.page_directory := by
  cases h : dGet bp.pool k <;> simp [Bufferpool.mark_dirty, h]

theorem Bufferpool.mark_dirty_mono {K : Type} [DecidableEq K] (bp : Bufferpool K)
    (k k2 : K) (h : (dGet bp.pool k2).isSome) :
    (dGet (bp.mark_dirty k).pool k2).isSome := by
  cases hk : dGet bp.pool k with
  | none => simpa [Bufferpool.mark_dirty, hk] using h
  | some e =>
    simp only [Bufferpool.mark_dirty, hk]
    exact isSome_dGet_dSet _ _ _ _ h

theorem Bufferpool.write_to_page_fst {K : Type} [DecidableEq K] (bp : Bufferpool K)
    (k : K) (value : Int) (index : Option Nat) :
    (bp.write_to_page k value index).1 = ((bp.pageOf k).write value index).1 := by
  simp only [Bufferpool.write_to_page, bp.get_page_fst k]
  cases h : dGet ((bp.get_page k).2).pool k <;>
    cases hw : ((bp.pageOf k).write value index).1 <;> simp [hw]

theorem Bufferpool.write_to_page_pageOf {K : Type} [DecidableEq K] (bp : Bufferpool K)
    (k : K) (value : Int) (index : Option Nat)
    (hinv : BPInv bp) (k2 : K) :
    ((bp.write_to_page k value index).2).pageOf k2 =
      (if k2 = k then ((bp.pageOf k).write value index).2 else bp.pageOf k2) := by
  obtain ⟨e, he, hep, _⟩ := bp.get_page_entry k hinv.1
  have hbase : ∀ j, ((bp.get_page k).2).pageOf j = bp.pageOf j := bp.get_page_pageOf k hinv.1
  have key : ∀ j, (({ (bp.get_page k).2 with
      pool := dSet ((bp.get_page k).2).pool k
        { e with page := (((bp.get_page k).1).write value index).2 } } : Bufferpool K)).pageOf j =
      (if j = k then ((bp.pageOf k).write value index).2 else bp.pageOf j) := by
    intro j
    by_cases hj : j = k
    · subst hj
      simp [Bufferpool.pageOf, dGet_dSet_self, bp.get_page_fst j]
    · rw [if_neg hj, ← hbase j]
      simp [Bufferpool.pageOf, dGet_dSet_ne _ _ _ _ hj, Bufferpool.load_page]
  simp only [Bufferpool.write_to_page, he]
  cases hw : (((bp.get_page k).1).write value index).1 with
  | true =>
    rw [if_pos rfl]
    show ((Bufferpool.mark_dirty _ k)).pageOf k2 = _
    rw [Bufferpool.mark_dirty_pageOf]
    exact key k2
  | false =>
    rw [if_neg (by simp)]
    exact key k2

theorem Bufferpool.write_to_page_state {K : Type} [DecidableEq K] (bp : Bufferpool K)
    (k : K) (value : Int) (index : Option Nat) (hinv : BPInv bp) :
    BPInv ((bp.write_to_page k value index).2) ∧
    ((bp.write_to_page k value index).2).disk_writes = bp.disk_writes ∧
    ((bp.write_to_page k value index).2).pool_size = bp.pool_size ∧
    (∀ j, (dGet bp.pool j).isSome →
      (dGet ((bp.write_to_page k value index).2).pool j).isSome) ∧
    (dGet ((bp.write_to_page k value index).2).pool k).isSome := by
  obtain ⟨e, he, hep, hpin⟩ := bp.get_page_entry k hinv.1
  have hginv : BPInv ((bp.get_page k).2) := bp.get_page_inv k hinv
  have hgaux := bp.get_page_disk k hinv.1
  simp only [Bufferpool.write_to_page, he]
  have hmid : ∀ (b2 : Bufferpool K), b2 =
      ({ (bp.get_page k).2 with
          pool := dSet ((bp.get_page k).2).pool k { e with page := (((bp.get_page k).1).write value index).2 } } : Bufferpool K) →
      BPInv b2 ∧ b2.disk_writes = bp.disk_writes ∧ b2.pool_size = bp.pool_size ∧
      (∀ j, (dGet bp.pool j).isSome → (dGet b2.pool j).isSome) ∧
      (dGet b2.pool k).isSome := by
    intro b2 hb2
    subst hb2
    refine ⟨⟨?_, ?_⟩, ?_, ?_, ?_, ?_⟩
    · intro p hp
      rcases mem_dSet hp with hin | hee
      · exact hginv.1 p hin
      · subst hee
        simpa using hpin
    · exact dSet_keys_nodup _ _ _ hginv.2
    · exact hgaux.2.1
    · exact hgaux.2.2.1
    · intro j hj
      exact isSome_dGet_dSet _ _ _ _ (bp.get_page_mono k j hinv.1 hj)
    · simp [dGet_dSet_self]
  cases hw : (((bp.get_page k).1).write value index).1 with
  | true =>
    rw [if_pos rfl]
    obtain ⟨h1, h2, h3, h4, h5⟩ := hmid _ rfl
    refine ⟨⟨?_, ?_⟩, ?_, ?_, ?_, ?_⟩
    · exact Bufferpool.mark_dirty_pins _ k h1.1
    · exact Bufferpool.mark_dirty_nodup _ k h1.2
    · exact (Bufferpool.mark_dirty_aux _ k).2.1.trans h2
    · exact (Bufferpool.mark_dirty_aux _ k).2.2.1.trans h3
    · intro j hj
      exact Bufferpool.mark_dirty_mono _ k j (h4 j hj)
    · exact Bufferpool.mark_dirty_mono _ k k h5
  | false =>
    rw [if_neg (by simp)]
    exact hmid _ rfl

theorem Bufferpool.read_from_page_snd {K : Type} [DecidableEq K] (bp : Bufferpool K)
    (k : K) (index : Nat) : (bp.read_from_page k index).2 = (bp.get_page k).2 := rfl

theorem Bufferpool.get_num_records_snd {K : Type} [DecidableEq K] (bp : Bufferpool K)
    (k : K) : (bp.get_num_records k).2 = (bp.get_page k).2 := rfl

theorem Bufferpool.runOp_facts {K : Type} [DecidableEq K] (bp : Bufferpool K)
    (op : BPOp K) (hinv : BPInv bp) :
    BPInv (bp.runOp op) ∧ (bp.runOp op).disk_writes = bp.disk_writes ∧
    (bp.runOp op).pool_size = bp.pool_size ∧
    (∀ j, (dGet bp.pool j).isSome → (dGet (bp.runOp op).pool j).isSome) ∧
    (dGet (bp.runOp op).pool op.key).isSome := by
  cases op with
  | get k =>
    exact ⟨bp.get_page_inv k hinv, (bp.get_page_disk k hinv.1).2.1,
      (bp.get_page_disk k hinv.1).2.2.1,
      fun j hj => bp.get_page_mono k j hinv.1 hj, bp.get_page_mem k hinv.1⟩
  | read k i =>
    simp only [Bufferpool.runOp, Bufferpool.read_from_page_snd, BPOp.key]
    exact ⟨bp.get_page_inv k hinv, (bp.get_page_disk k hinv.1).2.1,
      (bp.get_page_disk k hinv.1).2.2.1,
      fun j hj => bp.get_page_mono k j hinv.1 hj, bp.get_page_mem k hinv.1⟩
  | write k v i =>
    obtain ⟨h1, h2, h3, h4, h5⟩ := bp.write_to_page_state k v i hinv
    exact ⟨h1, h2, h3, h4, h5⟩
  | numRecords k =>
    simp only [Bufferpool.runOp, Bufferpool.get_num_records_snd, BPOp.key]
    exact ⟨bp.get_page_inv k hinv, (bp.get_page_disk k hinv.1).2.1,
      (bp.get_page_disk k hinv.1).2.2.1,
      fun j hj => bp.get_page_mono k j hinv.1 hj, bp.get_page_mem k hinv.1⟩

theorem Bufferpool.runOps_facts {K : Type} [DecidableEq K] (ops : List (BPOp K)) :
    ∀ bp : Bufferpool K, BPInv bp →
    BPInv (bp.runOps ops) ∧ (bp.runOps ops).disk_writes = bp.disk_writes ∧
    (bp.runOps ops).pool_size = bp.pool_size ∧
    (∀ j, (dGet bp.pool j).isSome → (dGet (bp.runOps ops).pool j).isSome) ∧
    (∀ k ∈ ops.map BPOp.key, (dGet (bp.runOps ops).pool k).isSome) := by
  induction ops with
  | nil => exact fun bp hinv => ⟨hinv, rfl, rfl, fun j hj => hj, by simp⟩
  | cons op rest ih =>
    intro bp hinv
    obtain ⟨hinv1, hdw1, hps1, hmono1, hkey1⟩ := bp.runOp_facts op hinv
    obtain ⟨hinv2, hdw2, hps2, hmono2, hkey2⟩ := ih (bp.runOp op) hinv1
    have hrun : bp.runOps (op :: rest) = (bp.runOp op).runOps rest := rfl
    refine ⟨hrun ▸ hinv2, hrun ▸ (hdw2.trans hdw1), hrun ▸ (hps2.trans hps1), ?_, ?_⟩
    · intro j hj
      exact hrun ▸ hmono2 j (hmono1 j hj)
    · intro k hk
      simp only [List.map_cons, List.mem_cons] at hk
      rcases hk with hk | hk
      · subst hk
        exact hrun ▸ hmono2 _ hkey1
      · exact hrun ▸ hkey2 k hk

theorem dGet_isSome_mem_keys {α β : Type} [DecidableEq α] {l : List (α × β)} {k : α}
    (h : (dGet l k).isSome) : k ∈ l.map Prod.fst := by
  rcases Option.isSome_iff_exists.mp h with ⟨v, hv⟩
  exact List.mem_map_of_mem Prod.fst (dGet_mem hv)

/-! Claim C10: pins are never released, so nothing is ever evicted. -/

/-- C10: over any sequence of get_page, read_from_page, write_to_page and
get_num_records operations (never unpin_page) on a fresh bufferpool, every
pooled page keeps a pin count of at least 1; consequently _evict_page
removes no entry, nothing is written to disk before close, every requested
page stays pooled, and once more than pool_size distinct pages have been
requested the pool holds more than pool_size pages. -/
theorem bufferpool_never_evicts {K : Type} [DecidableEq K] (pool_size : Nat)
    (disk : List (K × (Nat → Int))) (ops : List (BPOp K)) :
    (∀ p ∈ ((Bufferpool.init K pool_size disk).runOps ops).pool, 1 ≤ p.2.pin_count) ∧
    ((Bufferpool.init K pool_size disk).runOps ops).evict_page =
      (Bufferpool.init K pool_size disk).runOps ops ∧
    ((Bufferpool.init K pool_size disk).runOps ops).disk_writes = [] ∧
    (∀ k ∈ ops.map BPOp.key,
      (dGet ((Bufferpool.init K pool_size disk).runOps ops).pool k).isSome) ∧
    ((ops.map BPOp.key).dedup.length > pool_size →
      ((Bufferpool.init K pool_size disk).runOps ops).pool.length > pool_size) := by
  have hinit : BPInv (Bufferpool.init K pool_size disk) := by
    constructor
    · intro p hp
      simp [Bufferpool.init] at hp
    · simp [Bufferpool.init]
  obtain ⟨hinv, hdw, _, _, hkeys⟩ := Bufferpool.runOps_facts ops _ hinit
  refine ⟨hinv.1, Bufferpool.evict_page_id _ hinv.1, by simpa [Bufferpool.init] using hdw,
    hkeys, ?_⟩
  intro hgt
  have hsub : ∀ k ∈ (ops.map BPOp.key).dedup,
      k ∈ ((Bufferpool.init K pool_size disk).runOps ops).pool.map Prod.fst := by
    intro k hk
    exact dGet_isSome_mem_keys (hkeys k (List.mem_dedup.mp hk))
  have hfin : ((ops.map BPOp.key).dedup).toFinset ⊆
      (((Bufferpool.init K pool_size disk).runOps ops).pool.map Prod.fst).toFinset := by
    intro x hx
    rw [List.mem_toFinset] at hx
    rw [List.mem_toFinset]
    exact hsub x hx
  have hcard := Finset.card_le_card hfin
  rw [List.toFinset_card_of_nodup (List.nodup_dedup _)] at hcard
  have hle := @List.toFinset_card_le K _
    (((Bufferpool.init K pool_size disk).runOps ops).pool.map Prod.fst)
  rw [List.length_map] at hle
  omega

/-- Witness for C10 at a concrete instance: one get_page request on a
zero-capacity pool leaves the pool over capacity with the page pinned. -/
theorem bufferpool_never_evicts_witness :
    (((Bufferpool.init Nat 0 []).runOps [BPOp.get 0]).pool.length > 0) ∧
    (∀ p ∈ ((Bufferpool.init Nat 0 []).runOps [BPOp.get 0]).pool, 1 ≤ p.2.pin_count) := by
  have h := bufferpool_never_evicts 0 ([] : List (Nat × (Nat → Int))) [BPOp.get 0]
  exact ⟨h.2.2.2.2 (by decide), h.1⟩

/-! Core-preservation lemmas: these table helpers modify only the
bufferpool field of the state. -/

theorem Table.coreEq_refl (t : Table) : t.coreEq t :=
  ⟨rfl, rfl, rfl, rfl, rfl, rfl, rfl, rfl, rfl, rfl, rfl⟩

theorem Table.coreEq_trans {t s u : Table} (h1 : t.coreEq s) (h2 : s.coreEq u) :
    t.coreEq u := by
  obtain ⟨a1, a2, a3, a4, a5, a6, a7, a8, a9, a10, a11⟩ := h1
  obtain ⟨b1, b2, b3, b4, b5, b6, b7, b8, b9, b10, b11⟩ := h2
  exact ⟨b1.trans a1, b2.trans a2, b3.trans a3, b4.trans a4, b5.trans a5, b6.trans a6,
    b7.trans a7, b8.trans a8, b9.trans a9, b10.trans a10, b11.trans a11⟩

theorem Table.bpWrite_coreEq (t : Table) (k : PageKey) (v : Int) (i : Option Nat) :
    t.coreEq (t.bpWrite k v i).2 :=
  ⟨rfl, rfl, rfl, rfl, rfl, rfl, rfl, rfl, rfl, rfl, rfl⟩

theorem Table.bpNumRecords_coreEq (t : Table) (k : PageKey) :
    t.coreEq (t.bpNumRecords k).2 :=
  ⟨rfl, rfl, rfl, rfl, rfl, rfl, rfl, rfl, rfl, rfl, rfl⟩

theorem Table.getPage_coreEq (t : Table) (isb : Bool) (c i : Nat) :
    t.coreEq (t.getPage isb c i).2 := by
  unfold Table.getPage
  split <;> (dsimp only; split)
  · exact t.coreEq_refl
  · exact ⟨rfl, rfl, rfl, rfl, rfl, rfl, rfl, rfl, rfl, rfl, rfl⟩
  · exact t.coreEq_refl
  · exact ⟨rfl, rfl, rfl, rfl, rfl, rfl, rfl, rfl, rfl, rfl, rfl⟩

theorem Table.colsHaveCapacity_coreEq (isb : Bool) (idx : Nat) :
    ∀ (l : List Nat) (t : Table), t.coreEq (t.colsHaveCapacity isb idx l).2
  | [], t => t.coreEq_refl
  | c :: rest, t => by
    unfold Table.colsHaveCapacity
    dsimp only
    split
    · exact Table.coreEq_trans ⟨rfl, rfl, rfl, rfl, rfl, rfl, rfl, rfl, rfl, rfl, rfl⟩
        (Table.colsHaveCapacity_coreEq isb idx rest _)
    · exact ⟨rfl, rfl, rfl, rfl, rfl, rfl, rfl, rfl, rfl, rfl, rfl⟩

theorem Table.scanBaseChains_coreEq :
    ∀ (l : List Nat) (t : Table), t.coreEq (t.scanBaseChains l).2
  | [], t => t.coreEq_refl
  | i :: rest, t => by
    unfold Table.scanBaseChains
    dsimp only
    split
    · exact Table.colsHaveCapacity_coreEq true i (List.range t.total_columns) t
    · exact Table.coreEq_trans
        (Table.colsHaveCapacity_coreEq true i (List.range t.total_columns) t)
        (Table.scanBaseChains_coreEq rest _)

theorem Table.readCols_coreEq (isb : Bool) (pi slot : Nat) :
    ∀ (l : List Nat) (t : Table), t.coreEq (t.readCols isb pi slot l).2
  | [], t => t.coreEq_refl
  | c :: rest, t => by
    unfold Table.readCols
    rcases hgp : t.getPage isb c pi with ⟨og, t1⟩
    have h1 : t.coreEq t1 := by
      have h := t.getPage_coreEq isb c pi
      rw [hgp] at h
      exact h
    cases og with
    | none => exact h1
    | some pg =>
      dsimp only
      cases hread : pg.read slot with
      | none => exact h1
      | some v =>
        rcases hrc : t1.readCols isb pi slot rest with ⟨ov, t2⟩
        have h2 : t1.coreEq t2 := by
          have h := Table.readCols_coreEq isb pi slot rest t1
          rw [hrc] at h
          exact h
        cases ov with
        | none => exact Table.coreEq_trans h1 h2
        | some vs => exact Table.coreEq_trans h1 h2

theorem Table.get_record_coreEq (t : Table) (rid : Int) :
    t.coreEq (t.get_record rid).2 := by
  unfold Table.get_record
  cases hpd : dGet t.page_directory rid with
  | none => exact t.coreEq_refl
  | some entry =>
    rcases entry with ⟨kind, pidx, slot⟩
    dsimp only
    by_cases hdel : kind = RecKind.deleted
    · rw [if_pos hdel]
      exact t.coreEq_refl
    · rw [if_neg hdel]
      rcases hg0 : t.getPage (decide (kind = RecKind.base)) 0 pidx with ⟨og0, t1⟩
      have h1 : t.coreEq t1 := by
        have h := t.getPage_coreEq (decide (kind = RecKind.base)) 0 pidx
        rw [hg0] at h
        exact h
      cases og0 with
      | none => exact h1
      | some pg0 =>
        dsimp only
        rcases hg2 : t1.getPage (decide (kind = RecKind.base)) 2 pidx with ⟨og2, t2⟩
        have h2 : t1.coreEq t2 := by
          have h := t1.getPage_coreEq (decide (kind = RecKind.base)) 2 pidx
          rw [hg2] at h
          exact h
        cases og2 with
        | none => exact Table.coreEq_trans h1 h2
        | some pg2 =>
          dsimp only
          rcases hg3 : t2.getPage (decide (kind = RecKind.base)) 3 pidx with ⟨og3, t3⟩
          have h3 : t2.coreEq t3 := by
            have h := t2.getPage_coreEq (decide (kind = RecKind.base)) 3 pidx
            rw [hg3] at h
            exact h
          have h13 : t.coreEq t3 := Table.coreEq_trans (Table.coreEq_trans h1 h2) h3
          cases og3 with
          | none => exact h13
          | some pg3 =>
            dsimp only
            rcases hrc : t3.readCols (decide (kind = RecKind.base)) pidx slot
                (List.range' 4 t.num_columns) with ⟨ov, t4⟩
            have h4 : t3.coreEq t4 := by
              have h := Table.readCols_coreEq (decide (kind = RecKind.base)) pidx slot
                (List.range' 4 t.num_columns) t3
              rw [hrc] at h
              exact h
            have h14 : t.coreEq t4 := Table.coreEq_trans h13 h4
            cases ov with
            | none => exact h14
            | some values =>
              dsimp only
              split
              · exact h14
              · exact h14

theorem Table.writeUserCols_coreEq (idx : Nat) :
    ∀ (l : List Int) (i : Nat) (t : Table), t.coreEq (t.writeUserCols idx i l).2
  | [], _, t => t.coreEq_refl
  | v :: rest, i, t => by
    unfold Table.writeUserCols
    dsimp only
    split
    · exact Table.coreEq_trans (t.bpWrite_coreEq (true, 4 + i, idx) v none)
        (Table.writeUserCols_coreEq idx rest (i + 1) _)
    · exact t.bpWrite_coreEq (true, 4 + i, idx) v none

theorem Table.appendVals_coreEq (idx : Nat) :
    ∀ (l : List Int) (i : Nat) (t : Table), t.coreEq (t.appendVals idx i l)
  | [], _, t => t.coreEq_refl
  | v :: rest, i, t => by
    unfold Table.appendVals
    exact Table.coreEq_trans (t.bpWrite_coreEq (false, 4 + i, idx) v none)
      (Table.appendVals_coreEq idx rest (i + 1) _)

theorem Table.appendOptVals_coreEq (idx : Nat) :
    ∀ (l : List (Option Int)) (i : Nat) (t : Table), t.coreEq (t.appendOptVals idx i l)
  | [], _, t => t.coreEq_refl
  | v :: rest, i, t => by
    unfold Table.appendOptVals
    cases v with
    | some x =>
      exact Table.coreEq_trans (t.bpWrite_coreEq (false, 4 + i, idx) x none)
        (Table.appendOptVals_coreEq idx rest (i + 1) _)
    | none => exact Table.appendOptVals_coreEq idx rest (i + 1) t

theorem Table.overwriteOptVals_coreEq (idx slot : Nat) :
    ∀ (l : List (Option Int)) (i : Nat) (t : Table), t.coreEq (t.overwriteOptVals idx slot i l)
  | [], _, t => t.coreEq_refl
  | v :: rest, i, t => by
    unfold Table.overwriteOptVals
    cases v with
    | some x =>
      exact Table.coreEq_trans (t.bpWrite_coreEq (true, 4 + i, idx) x (some slot))
        (Table.overwriteOptVals_coreEq idx slot rest (i + 1) _)
    | none => exact Table.overwriteOptVals_coreEq idx slot rest (i + 1) t

/-! Preservation of the rid counter: only create_record advances it. -/

theorem Table.updateIndices_next_rid :
    ∀ (l : List (Nat × Int)) (t : Table) (rid : Int),
      (t.updateIndices rid l).next_rid = t.next_rid
  | [], _, _ => rfl
  | (i, v) :: rest, t, rid => by
    unfold Table.updateIndices
    dsimp only
    split
    · exact Table.updateIndices_next_rid rest _ rid
    · exact Table.updateIndices_next_rid rest t rid

theorem Table.create_record_next_rid (t : Table) (columns : List Int) :
    (t.create_record columns).2.next_rid = t.next_rid + 1 := by
  have hw : ∀ (x : Table) (k : PageKey) (v : Int) (i : Option Nat),
      (x.bpWrite k v i).2.next_rid = x.next_rid :=
    fun x k v i => (x.bpWrite_coreEq k v i).2.2.2.2.1
  have hn : ∀ (x : Table) (k : PageKey), (x.bpNumRecords k).2.next_rid = x.next_rid :=
    fun x k => (x.bpNumRecords_coreEq k).2.2.2.2.1
  have hs : ∀ (l : List Nat) (x : Table), (x.scanBaseChains l).2.next_rid = x.next_rid :=
    fun l x => (Table.scanBaseChains_coreEq l x).2.2.2.2.1
  have hu : ∀ (idx : Nat) (l : List Int) (i : Nat) (x : Table),
      (x.writeUserCols idx i l).2.next_rid = x.next_rid := by
    intro idx l i x
    exact (Table.writeUserCols_coreEq idx l i x).2.2.2.2.1
  unfold Table.create_record
  dsimp only
  repeat' split
  all_goals simp [Table.updateIndices_next_rid, hu, hw, hn, hs]

theorem Table.write_tail_record_next_rid (t : Table) (base_record : Record)
    (tail_rid timestamp schema_encoding : Int) (page_idx : Nat)
    (new_columns : List (Option Int)) :
    (t.write_tail_record base_record tail_rid timestamp schema_encoding page_idx
      new_columns).next_rid = t.next_rid := by
  have hw : ∀ (x : Table) (k : PageKey) (v : Int) (i : Option Nat),
      (x.bpWrite k v i).2.next_rid = x.next_rid :=
    fun x k v i => (x.bpWrite_coreEq k v i).2.2.2.2.1
  have hn : ∀ (x : Table) (k : PageKey), (x.bpNumRecords k).2.next_rid = x.next_rid :=
    fun x k => (x.bpNumRecords_coreEq k).2.2.2.2.1
  have ha : ∀ (idx : Nat) (l : List Int) (i : Nat) (x : Table),
      (x.appendVals idx i l).next_rid = x.next_rid :=
    fun idx l i x => (Table.appendVals_coreEq idx l i x).2.2.2.2.1
  have hao : ∀ (idx : Nat) (l : List (Option Int)) (i : Nat) (x : Table),
      (x.appendOptVals idx i l).next_rid = x.next_rid :=
    fun idx l i x => (Table.appendOptVals_coreEq idx l i x).2.2.2.2.1
  unfold Table.write_tail_record
  dsimp only
  simp [hw, hn, ha, hao]

theorem Table.update_base_record_next_rid (t : Table) (base_rid tail_rid : Int)
    (timestamp schema_encoding : Int) (new_columns : List (Option Int)) (t4 : Table)
    (h : t.update_base_record base_rid tail_rid timestamp schema_encoding new_columns =
      some t4) : t4.next_rid = t.next_rid := by
  have hw : ∀ (x : Table) (k : PageKey) (v : Int) (i : Option Nat),
      (x.bpWrite k v i).2.next_rid = x.next_rid :=
    fun x k v i => (x.bpWrite_coreEq k v i).2.2.2.2.1
  have ho : ∀ (idx slot : Nat) (l : List (Option Int)) (i : Nat) (x : Table),
      (x.overwriteOptVals idx slot i l).next_rid = x.next_rid :=
    fun idx slot l i x => (Table.overwriteOptVals_coreEq idx slot l i x).2.2.2.2.1
  unfold Table.update_base_record at h
  cases hpd : dGet t.page_directory base_rid with
  | none => rw [hpd] at h; simp at h
  | some entry =>
    rcases entry with ⟨kind, bidx, bslot⟩
    rw [hpd] at h
    dsimp only at h
    simp only [Option.some.injEq] at h
    rw [← h]
    simp [hw, ho]

theorem Table.get_record_next_rid (t : Table) (rid : Int) :
    (t.get_record rid).2.next_rid = t.next_rid :=
  (t.get_record_coreEq rid).2.2.2.2.1

theorem Table.update_record_next_rid (t : Table) (rid : Int) (schema_encoding : Int)
    (columns : List (Option Int)) :
    (t.update_record rid schema_encoding columns).2.next_rid = t.next_rid := by
  have hc : ∀ (isb : Bool) (idx : Nat) (l : List Nat) (x : Table),
      (x.colsHaveCapacity isb idx l).2.next_rid = x.next_rid :=
    fun isb idx l x => (Table.colsHaveCapacity_coreEq isb idx l x).2.2.2.2.1
  unfold Table.update_record
  split
  · rfl
  · rcases hgr : t.get_record rid with ⟨orec, t1⟩
    have h1 : t1.next_rid = t.next_rid := by
      have h := t.get_record_next_rid rid
      rw [hgr] at h
      exact h
    cases orec with
    | none => exact h1
    | some base_record =>
      dsimp only
      split
      · rename_i t3 heq
        rw [Table.write_tail_record_next_rid]
        split <;> simp [hc, h1]
      · rename_i t4 heq
        have h4 := Table.update_base_record_next_rid _ rid _ _ _ columns t4 heq
        show t4.next_rid = t.next_rid
        rw [h4, Table.write_tail_record_next_rid]
        split <;> simp [hc, h1]

theorem Query.select_next_rid (t : Table) (key : Int) (column : Nat)
    (query_columns : List Nat) :
    (Query.select t key column query_columns).2.next_rid = t.next_rid := by
  unfold Query.select
  split
  · cases hloc : Index.locate t.indices t.key key with
    | none => rfl
    | some rid =>
      dsimp only
      rcases hgr : t.get_record rid with ⟨orec, t1⟩
      have h1 : t1.next_rid = t.next_rid := by
        have h := t.get_record_next_rid rid
        rw [hgr] at h
        exact h
      cases orec with
      | none => exact h1
      | some record =>
        dsimp only
        split <;> exact h1
  · rfl

theorem Query.insert_next_rid_of_len (t : Table) (columns : List Int)
    (hlen : columns.length = t.num_columns) :
    (Query.insert t columns).2.next_rid = t.next_rid + 1 := by
  unfold Query.insert
  rw [if_neg (by omega)]
  rcases hcr : t.create_record columns with ⟨orec, t1⟩
  have h1 : t1.next_rid = t.next_rid + 1 := by
    have h := t.create_record_next_rid columns
    rw [hcr] at h
    exact h
  cases orec <;> exact h1

theorem Query.insert_of_len_ne (t : Table) (columns : List Int)
    (hlen : columns.length ≠ t.num_columns) :
    Query.insert t columns = (false, t) := by
  unfold Query.insert
  rw [if_pos hlen]

theorem Query.update_next_rid (t : Table) (primary_key : Int)
    (columns : List (Option Int)) :
    (Query.update t primary_key columns).2.next_rid = t.next_rid := by
  unfold Query.update
  rcases hsel : Query.select t primary_key t.key (List.replicate t.num_columns 1)
      with ⟨osel, t1⟩
  have h1 : t1.next_rid = t.next_rid := by
    have h := Query.select_next_rid t primary_key t.key (List.replicate t.num_columns 1)
    rw [hsel] at h
    exact h
  cases osel with
  | none => exact h1
  | some recs =>
    dsimp only
    cases hloc : Index.locate t1.indices t1.key primary_key with
    | none => exact h1
    | some rid =>
      dsimp only
      rcases hupd : t1.update_record rid ((schemaBits columns : Nat) : Int)
          (overlayCols (recs.headD { rid := none, key := primary_key, columns := [] }).columns
            columns.enum) with ⟨ok, t2⟩
      have h2 : t2.next_rid = t1.next_rid := by
        have h := t1.update_record_next_rid rid ((schemaBits columns : Nat) : Int)
          (overlayCols (recs.headD { rid := none, key := primary_key, columns := [] }).columns
            columns.enum)
        rw [hupd] at h
        exact h
      rcases hver : Query.select t2 primary_key t2.key (List.replicate t2.num_columns 1)
          with ⟨over, t3⟩
      have h3 : t3.next_rid = t2.next_rid := by
        have h := Query.select_next_rid t2 primary_key t2.key
          (List.replicate t2.num_columns 1)
        rw [hver] at h
        exact h
      show t3.next_rid = t.next_rid
      rw [h3, h2, h1]

theorem Table.applyOp_next_rid (t : Table) (op : TableOp) :
    (t.applyOp op).next_rid =
      (match op with
       | .ins cols => if cols.length = t.num_columns then t.next_rid + 1 else t.next_rid
       | .upd _ _ => t.next_rid) := by
  cases op with
  | ins cols =>
    by_cases hlen : cols.length = t.num_columns
    · simp only [Table.applyOp, if_pos hlen]
      exact Query.insert_next_rid_of_len t cols hlen
    · simp only [Table.applyOp, if_neg hlen]
      rw [Query.insert_of_len_ne t cols hlen]
  | upd k cols => exact Query.update_next_rid t k cols

theorem Table.runOpsLog_bound :
    ∀ (ops : List TableOp) (t : Table),
      (∀ r ∈ t.runOpsLog ops, t.next_rid ≤ r) ∧ (t.runOpsLog ops).Nodup
  | [], t => by simp [Table.runOpsLog]
  | op :: rest, t => by
    obtain ⟨ihb, ihn⟩ := Table.runOpsLog_bound rest (t.applyOp op)
    have hnext := t.applyOp_next_rid op
    cases op with
    | ins cols =>
      dsimp only at hnext
      by_cases hlen : cols.length = t.num_columns
      · have hlog : t.runOpsLog (.ins cols :: rest) =
            t.next_rid :: (t.applyOp (.ins cols)).runOpsLog rest := by
          simp [Table.runOpsLog, Table.opBaseRids, hlen]
        rw [if_pos hlen] at hnext
        constructor
        · intro r hr
          rw [hlog] at hr
          rcases List.mem_cons.mp hr with hr | hr
          · omega
          · have := ihb r hr
            omega
        · rw [hlog]
          refine List.nodup_cons.mpr ⟨?_, ihn⟩
          intro hmem
          have := ihb _ hmem
          omega
      · have hlog : t.runOpsLog (.ins cols :: rest) =
            (t.applyOp (.ins cols)).runOpsLog rest := by
          simp [Table.runOpsLog, Table.opBaseRids, hlen]
        rw [if_neg hlen] at hnext
        constructor
        · intro r hr
          rw [hlog] at hr
          have := ihb r hr
          omega
        · rw [hlog]
          exact ihn
    | upd k cols =>
      dsimp only at hnext
      have hlog : t.runOpsLog (.upd k cols :: rest) =
          (t.applyOp (.upd k cols)).runOpsLog rest := by
        simp [Table.runOpsLog, Table.opBaseRids]
      constructor
      · intro r hr
        rw [hlog] at hr
        have := ihb r hr
        omega
      · rw [hlog]
        exact ihn

/-! Claim C3: rid uniqueness. -/

/-- C3 counterexample: on a fresh table, insert key 1 (base rid 0), update
it (tail rid num_records + num_updates = 1), insert key 2.  After the
update, rid 1 already owns a page-directory entry (the tail record) while
the allocation counter also stands at 1, so the second insert creates a
second entry under rid 1, overwriting the tail entry with a base entry: two
page-directory entries are created under the same rid. -/
theorem rid_collision_concrete :
    dGet collideStep2.page_directory 1 = some (RecKind.tail, 0, 0) ∧
    collideStep2.next_rid = 1 ∧
    dGet collideStep3.page_directory 1 = some (RecKind.base, 0, 1) := by
  exact ⟨by set_option maxRecDepth 1000000 in decide,
    by set_option maxRecDepth 1000000 in decide,
    by set_option maxRecDepth 1000000 in decide⟩

/-- C3 (amended): base rids, which come from the mutex-protected counter
_get_next_rid, are pairwise distinct over every sequence of insert and
update operations (create_record consumes the counter value even when the
insert later fails, so a rid is never reused); tail rids, however, are
computed as num_records + num_updates and can coincide with a base rid
allocated later, as the counterexample shows. -/
theorem base_rid_allocation_nodup (t : Table) (ops : List TableOp) :
    (t.runOpsLog ops).Nodup ∧
    (∀ (columns : List Int) (r : Record),
      (t.create_record columns).1 = some r → r.rid = t.next_rid) := by
  refine ⟨(Table.runOpsLog_bound ops t).2, ?_⟩
  intro columns r h
  unfold Table.create_record at h
  dsimp only at h
  repeat' split at h
  all_goals simp at h
  all_goals rw [← h]

/-- Witness for the amended C3 theorem: the collision scenario log
[0, 1] is duplicate free, and the first insert on the fresh demo table is
assigned exactly the counter value 0. -/
theorem base_rid_allocation_nodup_witness :
    ((Table.init 5 0 1000 [] 0).runOpsLog
      [TableOp.ins [1, 10, 20, 30, 40],
       TableOp.upd 1 [none, some 11, none, none, none],
       TableOp.ins [2, 50, 60, 70, 80]]).Nodup ∧
    ({ rid := 0, key := 92106429, columns := [92106429, 1, 2, 3, 4],
       indirection := some 0, timestamp := some 0,
       schema_encoding := some 0 } : Record).rid = demoTable.next_rid := by
  constructor
  · exact (base_rid_allocation_nodup (Table.init 5 0 1000 [] 0) _).1
  · exact (base_rid_allocation_nodup demoTable []).2 [92106429, 1, 2, 3, 4] _
      (by set_option maxRecDepth 1000000 in decide)

/-! Claim C5: select_version on a record updated once. -/

/-- C5: evaluation of the scenario.  After inserting (92106429, 1, 2, 3, 4)
and updating with [None, None, 9, None, 10], select_version returns the
updated values for relative version 0 and the pre-update values for
relative version -1, as the specification states; but for relative version
-2 the guard at query.py line 216 (chain length 1 is smaller than 2) returns
the base record, which holds the CURRENT values [92106429, 1, 9, 3, 10],
not the pre-update values the specification and the version -2 branch of
the source itself intend. -/
theorem select_version_scenario :
    (Query.select_version demoUpdated 92106429 0 [1, 1, 1, 1, 1] 0).1 =
      [{ rid := some 0, key := 92106429,
         columns := [some 92106429, some 1, some 9, some 3, some 10] }] ∧
    (Query.select_version demoUpdated 92106429 0 [1, 1, 1, 1, 1] (-1)).1 =
      [{ rid := some 0, key := 92106429,
         columns := [some 92106429, some 1, some 2, some 3, some 4] }] ∧
    (Query.select_version demoUpdated 92106429 0 [1, 1, 1, 1, 1] (-2)).1 =
      [{ rid := some 0, key := 92106429,
         columns := [some 92106429, some 1, some 9, some 3, some 10] }] := by
  exact ⟨by set_option maxRecDepth 1000000 in decide,
    by set_option maxRecDepth 1000000 in decide,
    by set_option maxRecDepth 1000000 in decide⟩

/-! Small facts about the set model and the double assignment. -/

theorem mem_setAdd {α : Type} [DecidableEq α] (s : List α) (a x : α) :
    x ∈ setAdd s a ↔ x ∈ s ∨ x = a := by
  by_cases h : a ∈ s
  · simp only [setAdd, if_pos h]
    constructor
    · exact fun hx => Or.inl hx
    · rintro (hx | hx)
      · exact hx
      · exact hx ▸ h
  · simp [setAdd, if_neg h]

theorem setAdd_nodup {α : Type} [DecidableEq α] (s : List α) (a : α) (h : s.Nodup) :
    (setAdd s a).Nodup := by
  by_cases ha : a ∈ s
  · simpa [setAdd, ha] using h
  · rw [setAdd, if_neg ha]
    exact h.append (List.nodup_singleton a) (by simpa [List.disjoint_singleton] using ha)

theorem setAdd_ne_nil {α : Type} [DecidableEq α] (s : List α) (a : α) :
    setAdd s a ≠ [] := by
  by_cases ha : a ∈ s
  · rw [setAdd, if_pos ha]
    intro he
    rw [he] at ha
    exact (List.not_mem_nil a) ha
  · rw [setAdd, if_neg ha]
    simp

theorem mem_lErase {α : Type} [DecidableEq α] {s : List α} {a x : α}
    (h : x ∈ lErase s a) : x ∈ s := by
  induction s with
  | nil => simpa [lErase] using h
  | cons b rest ih =>
    by_cases hb : b = a
    · rw [lErase, if_pos hb] at h
      exact List.mem_cons_of_mem b h
    · rw [lErase, if_neg hb] at h
      rcases List.mem_cons.mp h with h | h
      · exact h ▸ List.mem_cons_self b rest
      · exact List.mem_cons_of_mem b (ih h)

theorem mem_lErase_of_ne {α : Type} [DecidableEq α] {s : List α} {a x : α}
    (hx : x ≠ a) (h : x ∈ s) : x ∈ lErase s a := by
  induction s with
  | nil => simpa using h
  | cons b rest ih =>
    by_cases hb : b = a
    · rw [lErase, if_pos hb]
      rcases List.mem_cons.mp h with h | h
      · exact absurd (h.trans hb) hx
      · exact h
    · rw [lErase, if_neg hb]
      rcases List.mem_cons.mp h with h | h
      · exact List.mem_cons.mpr (Or.inl h)
      · exact List.mem_cons_of_mem b (ih h)

theorem not_mem_lErase_self {α : Type} [DecidableEq α] {s : List α} (a : α)
    (h : s.Nodup) : a ∉ lErase s a := by
  induction s with
  | nil => simp [lErase]
  | cons b rest ih =>
    rcases List.nodup_cons.mp h with ⟨hb, hrest⟩
    by_cases hba : b = a
    · rw [lErase, if_pos hba]
      intro hmem
      exact hb (hba ▸ hmem)
    · rw [lErase, if_neg hba]
      intro hmem
      rcases List.mem_cons.mp hmem with hm | hm
      · exact hba hm.symm
      · exact ih hrest hm

theorem lErase_nodup {α : Type} [DecidableEq α] (s : List α) (a : α) (h : s.Nodup) :
    (lErase s a).Nodup := by
  induction s with
  | nil => simpa [lErase] using h
  | cons b rest ih =>
    rcases List.nodup_cons.mp h with ⟨hb, hrest⟩
    by_cases hba : b = a
    · rw [lErase, if_pos hba]
      exact hrest
    · rw [lErase, if_neg hba]
      exact List.nodup_cons.mpr ⟨fun hm => hb (mem_lErase hm), ih hrest⟩

theorem dSet_dSet {α β : Type} [DecidableEq α] (l : List (α × β)) (k : α) (v w : β) :
    dSet (dSet l k v) k w = dSet l k w := by
  induction l with
  | nil => simp [dSet]
  | cons p rest ih =>
    by_cases hp : p.1 = k
    · simp [dSet, hp]
    · simp [dSet, hp, ih]

/-! Scan lemmas for acquire_lock under single-transaction states. -/

theorem acquireScan_granted_ne_nil (t : Int) (m : LockType) :
    ∀ (locks ls : List Lock), acquireScan t m locks = .granted ls → ls ≠ []
  | [], ls, h => by simp [acquireScan] at h
  | lk :: rest, ls, h => by
    unfold acquireScan at h
    split at h
    · split at h
      · simp at h
      · cases hrec : acquireScan t m rest with
        | granted ls2 =>
          rw [hrec] at h
          simp only [ScanResult.granted.injEq] at h
          rw [← h]
          simp
        | conflict => rw [hrec] at h; simp at h
        | fallthrough => rw [hrec] at h; simp at h
    · split at h
      · simp only [ScanResult.granted.injEq] at h
        rw [← h]
        simp
      · split at h
        · simp only [ScanResult.granted.injEq] at h
          rw [← h]
          simp
        · cases hrec : acquireScan t m rest with
          | granted ls2 =>
            rw [hrec] at h
            simp only [ScanResult.granted.injEq] at h
            rw [← h]
            simp
          | conflict => rw [hrec] at h; simp at h
          | fallthrough => rw [hrec] at h; simp at h

theorem acquireScan_only (t : Int) (m : LockType) :
    ∀ (locks : List Lock), (∀ lk ∈ locks, lk.transaction_id = t) →
      acquireScan t m locks ≠ .conflict ∧
      (∀ ls, acquireScan t m locks = .granted ls → ∀ lk ∈ ls, lk.transaction_id = t)
  | [], _ => by
    constructor
    · simp [acquireScan]
    · intro ls h
      simp [acquireScan] at h
  | lk :: rest, hall => by
    have hlk : lk.transaction_id = t := hall lk (List.mem_cons_self lk rest)
    have hrest : ∀ l2 ∈ rest, l2.transaction_id = t :=
      fun l2 h2 => hall l2 (List.mem_cons_of_mem lk h2)
    obtain ⟨ihc, ihg⟩ := acquireScan_only t m rest hrest
    unfold acquireScan
    rw [if_neg (by simp [hlk])]
    by_cases hsame : lk.lock_type = m
    · rw [if_pos hsame]
      refine ⟨by simp, ?_⟩
      intro ls h
      simp only [ScanResult.granted.injEq] at h
      rw [← h]
      exact hall
    · rw [if_neg hsame]
      by_cases hup : lk.lock_type = .shared ∧ m = .exclusive
      · rw [if_pos hup]
        refine ⟨by simp, ?_⟩
        intro ls h
        simp only [ScanResult.granted.injEq] at h
        rw [← h]
        intro lk2 hm
        rcases List.mem_cons.mp hm with hm | hm
        · rw [hm]
          exact hlk
        · exact hrest lk2 hm
      · rw [if_neg hup]
        cases hrec : acquireScan t m rest with
        | granted ls2 =>
          refine ⟨by simp, ?_⟩
          intro ls h
          simp only [ScanResult.granted.injEq] at h
          rw [← h]
          intro lk2 hm
          rcases List.mem_cons.mp hm with hm | hm
          · rw [hm]
            exact hlk
          · exact ihg ls2 hrec lk2 hm
        | conflict => exact absurd hrec ihc
        | fallthrough => exact ⟨by simp, by intro ls h; simp at h⟩

/-! Claim C4: lock compatibility invariant. -/

/-- C4 counterexample: transaction 1 takes shared on record 0, transaction 2
takes shared on record 0, then transaction 1 requests exclusive.  The scan
hits the requester lock first and upgrades it in place without examining the
rest of the list, so the request is granted and record 0 now holds the
exclusive lock of transaction 1 together with the shared lock of
transaction 2: a reachable state violating the claimed invariant, reached by
an upgrade granted while the requester was not the sole holder. -/
theorem shared_exclusive_coexist :
    upgradeDemo.1 = true ∧
    dGet upgradeDemo.2.record_locks 0 =
      some [{ transaction_id := 1, lock_type := .exclusive },
            { transaction_id := 2, lock_type := .shared }] := by
  exact ⟨by decide, by decide⟩

/-- C4 (amended): the exclusive-request check examines only the locks that
precede the requester entry in the record lock list.  When the head lock is
the requester own shared lock, the exclusive request is granted and upgrades
in place, whatever follows; when the head lock belongs to another
transaction and either side is exclusive, the request raises a
lock-conflict error and the lock list is unchanged. -/
theorem acquire_exclusive_checks_prefix_only (lm : LockManager) (t rid : Int)
    (rest : List Lock) :
    (∀ mine : Lock, dGet lm.record_locks rid = some (mine :: rest) →
      mine.transaction_id = t → mine.lock_type = .shared →
      (lm.acquire_lock t rid .exclusive).1 = true ∧
      dGet ((lm.acquire_lock t rid .exclusive).2).record_locks rid =
        some ({ transaction_id := t, lock_type := .exclusive } :: rest)) ∧
    (∀ (other : Lock) (mode : LockType),
      dGet lm.record_locks rid = some (other :: rest) →
      other.transaction_id ≠ t →
      (other.lock_type = .exclusive ∨ mode = .exclusive) →
      (lm.acquire_lock t rid mode).1 = false ∧
      dGet ((lm.acquire_lock t rid mode).2).record_locks rid = some (other :: rest)) := by
  constructor
  · intro mine hget hmt hms
    have hscan : acquireScan t .exclusive (mine :: rest) =
        .granted ({ transaction_id := t, lock_type := .exclusive } :: rest) := by
      simp [acquireScan, hmt, hms]
    simp [LockManager.acquire_lock, hget, hscan, dGet_dSet_self]
  · intro other mode hget hot hex
    have hscan : acquireScan t mode (other :: rest) = .conflict := by
      rcases hex with hex | hex <;> simp [acquireScan, hot, hex]
    simp [LockManager.acquire_lock, hget, hscan]

/-- Witness for the amended C4 theorem on the concrete two-shared state:
the upgrade for transaction 1 (whose shared lock heads the list) is granted
over the shared lock of transaction 2, while an exclusive request by
transaction 3 (another transaction holds the head lock) raises and changes
nothing. -/
theorem acquire_exclusive_checks_prefix_only_witness :
    ((twoSharedDemo.acquire_lock 1 0 .exclusive).1 = true ∧
      dGet ((twoSharedDemo.acquire_lock 1 0 .exclusive).2).record_locks 0 =
        some [{ transaction_id := 1, lock_type := .exclusive },
              { transaction_id := 2, lock_type := .shared }]) ∧
    ((twoSharedDemo.acquire_lock 3 0 .exclusive).1 = false ∧
      dGet ((twoSharedDemo.acquire_lock 3 0 .exclusive).2).record_locks 0 =
        some [{ transaction_id := 1, lock_type := .shared },
              { transaction_id := 2, lock_type := .shared }]) := by
  constructor
  · exact (acquire_exclusive_checks_prefix_only twoSharedDemo 1 0
      [{ transaction_id := 2, lock_type := .shared }]).1
      { transaction_id := 1, lock_type := .shared } (by decide) rfl rfl
  · exact (acquire_exclusive_checks_prefix_only twoSharedDemo 3 0
      [{ transaction_id := 2, lock_type := .shared }]).2
      { transaction_id := 1, lock_type := .shared } .exclusive (by decide)
      (by decide) (Or.inr rfl)

/-! Claim C7: termination of release_all_locks. -/

/-- C7: transaction 1 holds exactly one lock, shared on record 0, in
oneLockDemo, as the reverse map shows; release_all_locks for transaction 1
then never returns: the method body holds the manager mutex and calls
release_lock, which blocks forever re-acquiring the same non-reentrant
mutex (modelled as none). -/
theorem release_all_locks_deadlocks :
    dGet oneLockDemo.transaction_locks 1 = some [0] ∧
    LockManager.release_all_locks oneLockDemo 1 = none := by
  exact ⟨by decide, by decide⟩

/-! Claim C8: lock modes chosen by Transaction.execute. -/

/-- C8 counterexample: a transaction queueing a single sum query (a read
according to the claim) acquires an EXCLUSIVE lock on its args position 0,
as the execute acquisition log shows, and exclusive differs from shared. -/
theorem sum_query_locked_exclusively :
    (Transaction.execute sumDemoTxn LockManager.empty).map (fun r => r.2.2.2) =
      some [(3, LockType.exclusive)] ∧
    LockType.exclusive ≠ LockType.shared := by
  exact ⟨by decide, by decide⟩

/-! Claim C9: behaviour on a falsy query result. -/

/-- C9 counterexample: in falsyDemoTxn the first queued query returns a
falsy value, yet Transaction.execute runs the second query as well (both
results are recorded), commits, and ends committed rather than aborted. -/
theorem falsy_result_still_commits :
    (Transaction.execute falsyDemoTxn LockManager.empty).map
      (fun r => (r.1, r.2.1.committed, r.2.1.aborted, r.2.1.results)) =
      some (.ret true, true, false, [false, true]) := by
  decide

/-! Preservation of the single-transaction lock invariant. -/

theorem mem_dDel {α β : Type} [DecidableEq α] {l : List (α × β)} {k : α} {p : α × β}
    (h : p ∈ dDel l k) : p ∈ l := by
  induction l with
  | nil => simpa [dDel] using h
  | cons q rest ih =>
    by_cases hq : q.1 = k
    · rw [dDel, if_pos hq] at h
      exact List.mem_cons_of_mem q h
    · rw [dDel, if_neg hq] at h
      rcases List.mem_cons.mp h with h | h
      · exact List.mem_cons.mpr (Or.inl h)
      · exact List.mem_cons_of_mem q (ih h)

theorem lErase_of_not_mem {α : Type} [DecidableEq α] {s : List α} {a : α}
    (h : a ∉ s) : lErase s a = s := by
  induction s with
  | nil => rfl
  | cons b rest ih =>
    simp only [List.mem_cons, not_or] at h
    rw [lErase, if_neg (fun hh => h.1 hh.symm), ih h.2]

/-- acquire_lock by the only transaction in an OnlyTxn state always succeeds
(no other holder can conflict), preserves the invariant, and adds at most the
requested rid to the reverse map. -/
theorem acquire_lock_onlyTxn (lm : LockManager) (tid rid : Int) (m : LockType)
    (h : OnlyTxn tid lm) :
    (lm.acquire_lock tid rid m).1 = true ∧
    OnlyTxn tid (lm.acquire_lock tid rid m).2 ∧
    ∀ r ∈ ((lm.acquire_lock tid rid m).2).heldBy tid, r ∈ lm.heldBy tid ∨ r = rid := by
  obtain ⟨h1, h2, h3, h4, h5, h6, h7, h8⟩ := h
  cases hr : dGet lm.record_locks rid with
  | none =>
    cases ht : dGet lm.transaction_locks tid with
    | none =>
      have hheld : lm.heldBy tid = [] := by simp [LockManager.heldBy, ht]
      have hres : lm.acquire_lock tid rid m =
          (true, { record_locks := dSet lm.record_locks rid [{ transaction_id := tid, lock_type := m }], transaction_locks := dSet lm.transaction_locks tid [rid] }) := by
        unfold LockManager.acquire_lock
        rw [hr, ht]
        simp only [dGet_dSet_self, Option.getD_some, acquireScan, dSet_dSet, setAdd]
        simp
      rw [hres]
      have hH : ((⟨dSet lm.record_locks rid [{ transaction_id := tid, lock_type := m }], dSet lm.transaction_locks tid [rid]⟩ : LockManager)).heldBy tid = [rid] := by
        simp [LockManager.heldBy, dGet_dSet_self]
      refine ⟨rfl, ⟨?_, ?_, ?_, ?_, ?_, ?_, ?_, ?_⟩, ?_⟩
      · intro p hp
        rcases mem_dSet hp with hp | hp
        · exact h1 p hp
        · rw [hp]
          intro lk hlk
          rcases List.mem_cons.mp hlk with hlk | hlk
          · rw [hlk]
          · exact absurd hlk (List.not_mem_nil lk)
      · intro p hp
        rcases mem_dSet hp with hp | hp
        · exact h2 p hp
        · rw [hp]
          simp
      · intro p hp
        rcases mem_dSet hp with hp | hp
        · exact h3 p hp
        · rw [hp]
      · exact dSet_keys_nodup lm.record_locks rid _ h4
      · exact dSet_keys_nodup lm.transaction_locks tid _ h5
      · rw [hH]
        simp
      · rw [dGet_dSet_self]
        simp
      · intro r
        rw [hH]
        by_cases hrr : r = rid
        · rw [hrr, dGet_dSet_self]
          simp
        · rw [dGet_dSet_ne lm.record_locks rid r _ hrr]
          have h8r := h8 r
          rw [hheld] at h8r
          simp only [List.not_mem_nil, iff_false] at h8r
          simp [h8r, hrr]
      · intro r hrm
        rw [hH] at hrm
        rcases List.mem_cons.mp hrm with hrm | hrm
        · exact Or.inr hrm
        · exact absurd hrm (List.not_mem_nil r)
    | some rids =>
      have hheld : lm.heldBy tid = rids := by simp [LockManager.heldBy, ht]
      have hres : lm.acquire_lock tid rid m =
          (true, { record_locks := dSet lm.record_locks rid [{ transaction_id := tid, lock_type := m }], transaction_locks := dSet lm.transaction_locks tid (setAdd rids rid) }) := by
        unfold LockManager.acquire_lock
        rw [hr, ht]
        simp only [dGet_dSet_self, Option.getD_some, acquireScan, dSet_dSet]
        simp [ht]
      rw [hres]
      have hH : ((⟨dSet lm.record_locks rid [{ transaction_id := tid, lock_type := m }], dSet lm.transaction_locks tid (setAdd rids rid)⟩ : LockManager)).heldBy tid = setAdd rids rid := by
        simp [LockManager.heldBy, dGet_dSet_self]
      refine ⟨rfl, ⟨?_, ?_, ?_, ?_, ?_, ?_, ?_, ?_⟩, ?_⟩
      · intro p hp
        rcases mem_dSet hp with hp | hp
        · exact h1 p hp
        · rw [hp]
          intro lk hlk
          rcases List.mem_cons.mp hlk with hlk | hlk
          · rw [hlk]
          · exact absurd hlk (List.not_mem_nil lk)
      · intro p hp
        rcases mem_dSet hp with hp | hp
        · exact h2 p hp
        · rw [hp]
          simp
      · intro p hp
        rcases mem_dSet hp with hp | hp
        · exact h3 p hp
        · rw [hp]
      · exact dSet_keys_nodup lm.record_locks rid _ h4
      · exact dSet_keys_nodup lm.transaction_locks tid _ h5
      · rw [hH]
        exact setAdd_nodup rids rid (hheld ▸ h6)
      · rw [dGet_dSet_self]
        intro he
        exact setAdd_ne_nil rids rid (Option.some.inj he)
      · intro r
        rw [hH, mem_setAdd]
        by_cases hrr : r = rid
        · rw [hrr, dGet_dSet_self]
          simp
        · rw [dGet_dSet_ne lm.record_locks rid r _ hrr]
          have h8r := h8 r
          rw [hheld] at h8r
          simp [h8r, hrr]
      · intro r hrm
        rw [hH, mem_setAdd] at hrm
        rcases hrm with hrm | hrm
        · exact Or.inl (hheld ▸ hrm)
        · exact Or.inr hrm
  | some locks =>
    have hrid_held : rid ∈ lm.heldBy tid := (h8 rid).mp (by rw [hr]; rfl)
    have hlocks_tid : ∀ lk ∈ locks, lk.transaction_id = tid := h1 (rid, locks) (dGet_mem hr)
    cases ht : dGet lm.transaction_locks tid with
    | none =>
      rw [LockManager.heldBy, ht] at hrid_held
      exact absurd hrid_held (List.not_mem_nil rid)
    | some rids =>
      have hheld : lm.heldBy tid = rids := by simp [LockManager.heldBy, ht]
      cases hscan : acquireScan tid m locks with
      | conflict => exact absurd hscan (acquireScan_only tid m locks hlocks_tid).1
      | granted ls =>
        have hls_tid : ∀ lk ∈ ls, lk.transaction_id = tid :=
          (acquireScan_only tid m locks hlocks_tid).2 ls hscan
        have hls_ne : ls ≠ [] := acquireScan_granted_ne_nil tid m locks ls hscan
        have hres : lm.acquire_lock tid rid m =
            (true, { record_locks := dSet lm.record_locks rid ls, transaction_locks := lm.transaction_locks }) := by
          unfold LockManager.acquire_lock
          rw [hr, ht]
          dsimp only
          rw [hr]
          simp only [Option.getD_some]
          rw [hscan]
        rw [hres]
        have hH : ((⟨dSet lm.record_locks rid ls, lm.transaction_locks⟩ : LockManager)).heldBy tid = rids := by
          simp [LockManager.heldBy, ht]
        refine ⟨rfl, ⟨?_, ?_, ?_, ?_, ?_, ?_, ?_, ?_⟩, ?_⟩
        · intro p hp
          rcases mem_dSet hp with hp | hp
          · exact h1 p hp
          · rw [hp]
            exact hls_tid
        · intro p hp
          rcases mem_dSet hp with hp | hp
          · exact h2 p hp
          · rw [hp]
            exact hls_ne
        · exact h3
        · exact dSet_keys_nodup lm.record_locks rid _ h4
        · exact h5
        · rw [hH]
          exact hheld ▸ h6
        · rw [ht]
          intro he
          rw [Option.some.inj he] at hheld
          rw [hheld] at hrid_held
          exact absurd hrid_held (List.not_mem_nil rid)
        · intro r
          rw [hH]
          by_cases hrr : r = rid
          · rw [hrr, dGet_dSet_self]
            simp only [Option.isSome_some, true_iff]
            exact hheld ▸ hrid_held
          · rw [dGet_dSet_ne lm.record_locks rid r _ hrr]
            exact hheld ▸ h8 r
        · intro r hrm
          rw [hH] at hrm
          exact Or.inl (hheld ▸ hrm)
      | fallthrough =>
        have hres : lm.acquire_lock tid rid m =
            (true, { record_locks := dSet lm.record_locks rid (locks ++ [{ transaction_id := tid, lock_type := m }]), transaction_locks := dSet lm.transaction_locks tid (setAdd rids rid) }) := by
          unfold LockManager.acquire_lock
          rw [hr, ht]
          dsimp only
          rw [hr, ht]
          simp only [Option.getD_some]
          rw [hscan]
        rw [hres]
        have hH : ((⟨dSet lm.record_locks rid (locks ++ [{ transaction_id := tid, lock_type := m }]), dSet lm.transaction_locks tid (setAdd rids rid)⟩ : LockManager)).heldBy tid = setAdd rids rid := by
          simp [LockManager.heldBy, dGet_dSet_self]
        refine ⟨rfl, ⟨?_, ?_, ?_, ?_, ?_, ?_, ?_, ?_⟩, ?_⟩
        · intro p hp
          rcases mem_dSet hp with hp | hp
          · exact h1 p hp
          · rw [hp]
            intro lk hlk
            rcases List.mem_append.mp hlk with hlk | hlk
            · exact hlocks_tid lk hlk
            · rcases List.mem_cons.mp hlk with hlk | hlk
              · rw [hlk]
              · exact absurd hlk (List.not_mem_nil lk)
        · intro p hp
          rcases mem_dSet hp with hp | hp
          · exact h2 p hp
          · rw [hp]
            simp
        · intro p hp
          rcases mem_dSet hp with hp | hp
          · exact h3 p hp
          · rw [hp]
        · exact dSet_keys_nodup lm.record_locks rid _ h4
        · exact dSet_keys_nodup lm.transaction_locks tid _ h5
        · rw [hH]
          exact setAdd_nodup rids rid (hheld ▸ h6)
        · rw [dGet_dSet_self]
          intro he
          exact setAdd_ne_nil rids rid (Option.some.inj he)
        · intro r
          rw [hH, mem_setAdd]
          by_cases hrr : r = rid
          · rw [hrr, dGet_dSet_self]
            simp
          · rw [dGet_dSet_ne lm.record_locks rid r _ hrr]
            have h8r := h8 r
            rw [hheld] at h8r
            simp [h8r, hrr]
        · intro r hrm
          rw [hH, mem_setAdd] at hrm
          rcases hrm with hrm | hrm
          · exact Or.inl (hheld ▸ hrm)
          · exact Or.inr hrm

/-- release_lock by the only transaction in an OnlyTxn state preserves the
invariant, and the reverse map afterwards holds a subset of the previous
rids with the released rid removed. -/
theorem release_lock_onlyTxn (lm : LockManager) (tid rid : Int)
    (h : OnlyTxn tid lm) :
    OnlyTxn tid (lm.release_lock tid rid) ∧
    ∀ r ∈ (lm.release_lock tid rid).heldBy tid, r ∈ lm.heldBy tid ∧ r ≠ rid := by
  obtain ⟨h1, h2, h3, h4, h5, h6, h7, h8⟩ := h
  cases hr : dGet lm.record_locks rid with
  | none =>
    have hrid_out : rid ∉ lm.heldBy tid := by
      intro hm
      have := (h8 rid).mpr hm
      rw [hr] at this
      exact absurd this (by simp)
    cases ht : dGet lm.transaction_locks tid with
    | none =>
      have hres : lm.release_lock tid rid = lm := by
        unfold LockManager.release_lock
        rw [hr]
        dsimp only
        rw [ht]
      rw [hres]
      refine ⟨⟨h1, h2, h3, h4, h5, h6, h7, h8⟩, ?_⟩
      intro r hrm
      rw [LockManager.heldBy, ht] at hrm
      exact absurd hrm (List.not_mem_nil r)
    | some rids =>
      have hheld : lm.heldBy tid = rids := by simp [LockManager.heldBy, ht]
      have hrid_rids : rid ∉ rids := hheld ▸ hrid_out
      have herase : lErase rids rid = rids := lErase_of_not_mem hrid_rids
      have hrids_ne : rids ≠ [] := by
        intro he
        rw [he] at ht
        exact h7 ht
      have hres : lm.release_lock tid rid =
          { lm with transaction_locks := dSet lm.transaction_locks tid rids } := by
        unfold LockManager.release_lock
        rw [hr]
        dsimp only
        rw [ht]
        dsimp only
        rw [herase, if_neg (by simpa [List.isEmpty_iff] using hrids_ne)]
      rw [hres]
      have hH : (({ lm with transaction_locks := dSet lm.transaction_locks tid rids } : LockManager)).heldBy tid = rids := by
        simp [LockManager.heldBy, dGet_dSet_self]
      refine ⟨⟨h1, h2, ?_, h4, ?_, ?_, ?_, ?_⟩, ?_⟩
      · intro p hp
        rcases mem_dSet hp with hp | hp
        · exact h3 p hp
        · rw [hp]
      · exact dSet_keys_nodup lm.transaction_locks tid _ h5
      · rw [hH]
        exact hheld ▸ h6
      · rw [dGet_dSet_self]
        intro he
        exact hrids_ne (Option.some.inj he)
      · intro r
        rw [hH]
        exact hheld ▸ h8 r
      · intro r hrm
        rw [hH] at hrm
        exact ⟨hheld ▸ hrm, fun he => hrid_rids (he ▸ hrm)⟩
  | some locks =>
    have hrid_in : rid ∈ lm.heldBy tid := (h8 rid).mp (by rw [hr]; rfl)
    have hlocks_tid : ∀ lk ∈ locks, lk.transaction_id = tid := h1 (rid, locks) (dGet_mem hr)
    have hfilter : locks.filter (fun lk => decide (lk.transaction_id ≠ tid)) = [] := by
      rw [List.filter_eq_nil]
      intro lk hlk
      simp [hlocks_tid lk hlk]
    cases ht : dGet lm.transaction_locks tid with
    | none =>
      rw [LockManager.heldBy, ht] at hrid_in
      exact absurd hrid_in (List.not_mem_nil rid)
    | some rids =>
      have hheld : lm.heldBy tid = rids := by simp [LockManager.heldBy, ht]
      have hrid_rids : rid ∈ rids := hheld ▸ hrid_in
      have hrids_nodup : rids.Nodup := hheld ▸ h6
      by_cases hemp : (lErase rids rid).isEmpty
      · have hres : lm.release_lock tid rid =
            { record_locks := dDel lm.record_locks rid, transaction_locks := dDel lm.transaction_locks tid } := by
          unfold LockManager.release_lock
          rw [hr]
          simp only [hfilter]
          rw [if_pos (by simp)]
          dsimp only
          rw [ht]
          dsimp only
          rw [if_pos hemp]
        rw [hres]
        have hH : ((⟨dDel lm.record_locks rid, dDel lm.transaction_locks tid⟩ : LockManager)).heldBy tid = [] := by
          simp [LockManager.heldBy, dGet_dDel_self lm.transaction_locks tid h5]
        have hsub : ∀ r, r ∈ rids → r = rid := by
          intro r hrm
          by_contra hne
          have : r ∈ lErase rids rid := mem_lErase_of_ne hne hrm
          rw [List.isEmpty_iff.mp hemp] at this
          exact absurd this (List.not_mem_nil r)
        refine ⟨⟨?_, ?_, ?_, ?_, ?_, ?_, ?_, ?_⟩, ?_⟩
        · exact fun p hp => h1 p (mem_dDel hp)
        · exact fun p hp => h2 p (mem_dDel hp)
        · exact fun p hp => h3 p (mem_dDel hp)
        · exact dDel_keys_nodup lm.record_locks rid h4
        · exact dDel_keys_nodup lm.transaction_locks tid h5
        · rw [hH]
          simp
        · rw [dGet_dDel_self lm.transaction_locks tid h5]
          simp
        · intro r
          rw [hH]
          by_cases hrr : r = rid
          · rw [hrr, dGet_dDel_self lm.record_locks rid h4]
            simp
          · rw [dGet_dDel_ne lm.record_locks rid r hrr]
            have h8r := h8 r
            rw [hheld] at h8r
            simp only [List.not_mem_nil, iff_false]
            intro hs
            exact hrr (hsub r (h8r.mp hs))
        · intro r hrm
          rw [hH] at hrm
          exact absurd hrm (List.not_mem_nil r)
      · have hres : lm.release_lock tid rid =
            { record_locks := dDel lm.record_locks rid, transaction_locks := dSet lm.transaction_locks tid (lErase rids rid) } := by
          unfold LockManager.release_lock
          rw [hr]
          simp only [hfilter]
          rw [if_pos (by simp)]
          dsimp only
          rw [ht]
          dsimp only
          rw [if_neg hemp]
        rw [hres]
        have hH : ((⟨dDel lm.record_locks rid, dSet lm.transaction_locks tid (lErase rids rid)⟩ : LockManager)).heldBy tid = lErase rids rid := by
          simp [LockManager.heldBy, dGet_dSet_self]
        refine ⟨⟨?_, ?_, ?_, ?_, ?_, ?_, ?_, ?_⟩, ?_⟩
        · exact fun p hp => h1 p (mem_dDel hp)
        · exact fun p hp => h2 p (mem_dDel hp)
        · intro p hp
          rcases mem_dSet hp with hp | hp
          · exact h3 p hp
          · rw [hp]
        · exact dDel_keys_nodup lm.record_locks rid h4
        · exact dSet_keys_nodup lm.transaction_locks tid _ h5
        · rw [hH]
          exact lErase_nodup rids rid hrids_nodup
        · rw [dGet_dSet_self]
          intro he
          rw [Option.some.inj he] at hemp
          exact hemp rfl
        · intro r
          rw [hH]
          by_cases hrr : r = rid
          · rw [hrr, dGet_dDel_self lm.record_locks rid h4]
            simp only [Option.isSome_none, Bool.false_eq_true, false_iff]
            exact not_mem_lErase_self rid hrids_nodup
          · rw [dGet_dDel_ne lm.record_locks rid r hrr]
            have h8r := h8 r
            rw [hheld] at h8r
            rw [h8r]
            constructor
            · exact mem_lErase_of_ne hrr
            · exact mem_lErase
        · intro r hrm
          rw [hH] at hrm
          refine ⟨hheld ▸ mem_lErase hrm, ?_⟩
          intro he
          rw [he] at hrm
          exact not_mem_lErase_self rid hrids_nodup hrm

/-- The query loop of Transaction.execute, started in an OnlyTxn state whose
held rids all reappear as keys of pending queries, and given queries none of
which raises: every lock acquisition succeeds, so the loop returns true with
every result recorded and every (key, mode) acquisition logged, and the
final manager holds no entry for the transaction. -/
theorem executeLoop_ret_spec (tid : Int) :
    ∀ (qs : List TQuery) (lm : LockManager) (results : List Bool)
      (log : List (Int × LockType)),
      OnlyTxn tid lm →
      (∀ q ∈ qs, q.outcome ≠ QOutcome.raises) →
      (∀ r ∈ lm.heldBy tid, ∃ q ∈ qs, q.args.headD 0 = r) →
      ∃ lm1,
        Transaction.executeLoop tid lm results log qs =
          (true, lm1, results ++ qs.map (fun q => QOutcome.truthy q.outcome),
            log ++ qs.map (fun q => (q.args.headD 0, Transaction.lockTypeFor q.op))) ∧
        dGet lm1.transaction_locks tid = none := by
  intro qs
  induction qs with
  | nil =>
    intro lm results log hinv _ hpend
    have hheld : lm.heldBy tid = [] := by
      cases hh : lm.heldBy tid with
      | nil => rfl
      | cons a rest =>
        obtain ⟨q, hq, _⟩ := hpend a (by rw [hh]; exact List.mem_cons_self a rest)
        exact absurd hq (List.not_mem_nil q)
    obtain ⟨_, _, _, _, _, _, h7, _⟩ := hinv
    refine ⟨lm, by simp [Transaction.executeLoop], ?_⟩
    cases hg : dGet lm.transaction_locks tid with
    | none => rfl
    | some rids =>
      have hrids : rids = [] := by
        have hh2 : lm.heldBy tid = rids := by simp [LockManager.heldBy, hg]
        rw [hheld] at hh2
        exact hh2.symm
      rw [hrids] at hg
      exact absurd hg h7
  | cons q rest ih =>
    intro lm results log hinv hout hpend
    have hq_out : q.outcome ≠ QOutcome.raises := hout q (List.mem_cons_self q rest)
    have hout2 : ∀ q2 ∈ rest, q2.outcome ≠ QOutcome.raises :=
      fun q2 h2 => hout q2 (List.mem_cons_of_mem q h2)
    obtain ⟨hacq1, hacqInv, hacqHeld⟩ :=
      acquire_lock_onlyTxn lm tid (q.args.headD 0) (Transaction.lockTypeFor q.op) hinv
    cases hb : q.outcome with
    | raises => exact absurd hb hq_out
    | ret b =>
      by_cases hall : rest.all (fun q2 => decide (¬ (q.args.headD 0) = q2.args.headD 0)) = true
      · obtain ⟨hrelInv, hrelHeld⟩ :=
          release_lock_onlyTxn ((lm.acquire_lock tid (q.args.headD 0) (Transaction.lockTypeFor q.op)).2)
            tid (q.args.headD 0) hacqInv
        have hpend2 : ∀ r ∈ (((lm.acquire_lock tid (q.args.headD 0) (Transaction.lockTypeFor q.op)).2).release_lock tid (q.args.headD 0)).heldBy tid,
            ∃ q2 ∈ rest, q2.args.headD 0 = r := by
          intro r hr2
          obtain ⟨hrmem, hrne⟩ := hrelHeld r hr2
          rcases hacqHeld r hrmem with hold | hkey
          · obtain ⟨q2, hq2, hkeyeq⟩ := hpend r hold
            rcases List.mem_cons.mp hq2 with hq2e | hq2r
            · refine absurd ?_ hrne
              rw [← hkeyeq, hq2e]
            · exact ⟨q2, hq2r, hkeyeq⟩
          · exact absurd hkey hrne
        obtain ⟨lm1, heq, hnone⟩ :=
          ih (((lm.acquire_lock tid (q.args.headD 0) (Transaction.lockTypeFor q.op)).2).release_lock tid (q.args.headD 0))
            (results ++ [b]) (log ++ [(q.args.headD 0, Transaction.lockTypeFor q.op)]) hrelInv hout2 hpend2
        refine ⟨lm1, ?_, hnone⟩
        rw [Transaction.executeLoop]
        dsimp only
        rw [hacq1, if_neg (by simp), hb]
        dsimp only
        rw [if_pos hall, heq]
        simp [hb, QOutcome.truthy]
      · have hw : ∃ q3 ∈ rest, q3.args.headD 0 = q.args.headD 0 := by
          by_contra hc
          push_neg at hc
          apply hall
          rw [List.all_eq_true]
          intro x hx
          simp only [decide_eq_true_eq]
          exact fun he => hc x hx he.symm
        obtain ⟨q3, hq3, he3⟩ := hw
        have hpend2 : ∀ r ∈ ((lm.acquire_lock tid (q.args.headD 0) (Transaction.lockTypeFor q.op)).2).heldBy tid,
            ∃ q2 ∈ rest, q2.args.headD 0 = r := by
          intro r hr2
          rcases hacqHeld r hr2 with hold | hkey
          · obtain ⟨q2, hq2, hkeyeq⟩ := hpend r hold
            rcases List.mem_cons.mp hq2 with hq2e | hq2r
            · refine ⟨q3, hq3, ?_⟩
              rw [he3, ← hq2e]
              exact hkeyeq
            · exact ⟨q2, hq2r, hkeyeq⟩
          · exact ⟨q3, hq3, he3.trans hkey.symm⟩
        obtain ⟨lm1, heq, hnone⟩ :=
          ih ((lm.acquire_lock tid (q.args.headD 0) (Transaction.lockTypeFor q.op)).2)
            (results ++ [b]) (log ++ [(q.args.headD 0, Transaction.lockTypeFor q.op)]) hacqInv hout2 hpend2
        refine ⟨lm1, ?_, hnone⟩
        rw [Transaction.executeLoop]
        dsimp only
        rw [hacq1, if_neg (by simp), hb]
        dsimp only
        rw [if_neg hall, heq]
        simp [hb, QOutcome.truthy]

/-- Transaction.execute on a fresh transaction over the empty lock manager,
when no queued query raises: it commits and returns True, with every query
result appended to results (truthiness never inspected) and the full
acquisition log. -/
theorem Transaction.execute_ret_spec (tid : Int) (qs : List TQuery)
    (hout : ∀ q ∈ qs, q.outcome ≠ QOutcome.raises) :
    ∃ lm1, Transaction.execute (Transaction.mk0 tid qs) LockManager.empty =
      some (ExecOutcome.ret true,
        { transaction_id := tid, queries := qs, started := true, committed := true,
          aborted := false, results := qs.map (fun q => QOutcome.truthy q.outcome) },
        lm1,
        qs.map (fun q => (q.args.headD 0, Transaction.lockTypeFor q.op))) := by
  have hinv : OnlyTxn tid LockManager.empty := by
    refine ⟨?_, ?_, ?_, ?_, ?_, ?_, ?_, ?_⟩ <;>
      simp [LockManager.empty, LockManager.heldBy, dGet]
  have hpend : ∀ r ∈ LockManager.empty.heldBy tid, ∃ q ∈ qs, q.args.headD 0 = r := by
    intro r hr
    simp [LockManager.heldBy, LockManager.empty, dGet] at hr
  obtain ⟨lm1, heq, hnone⟩ := executeLoop_ret_spec tid qs LockManager.empty [] [] hinv hout hpend
  refine ⟨lm1, ?_⟩
  unfold Transaction.execute Transaction.mk0
  rw [if_neg (by simp)]
  dsimp only
  rw [heq]
  dsimp only
  rw [if_pos rfl]
  unfold Transaction.commit
  rw [if_neg (by simp)]
  unfold LockManager.release_all_locks
  rw [hnone]
  simp

/-- Query loop of TransactionWorker._execute_transaction: with every query
before q returning truthy and q itself falsy or raising, the loop stops at
q: it reports failure and the executed list ends at q, the queries after q
never run. -/
theorem workerLoop_falsy :
    ∀ (pre executed : List TQuery) (q : TQuery) (post : List TQuery),
      (∀ p ∈ pre, p.outcome = QOutcome.ret true) →
      QOutcome.truthy q.outcome = false →
      workerLoop executed (pre ++ q :: post) = (false, executed ++ pre ++ [q])
  | [], executed, q, post, _, hq => by
    cases hb : q.outcome with
    | raises =>
      rw [List.nil_append, workerLoop, hb]
      simp
    | ret b =>
      rw [hb] at hq
      simp only [QOutcome.truthy] at hq
      rw [List.nil_append, workerLoop, hb]
      dsimp only
      rw [hq]
      simp
  | p :: rest, executed, q, post, hpre, hq => by
    have hp : p.outcome = QOutcome.ret true := hpre p (List.mem_cons_self p rest)
    have hrest : ∀ p2 ∈ rest, p2.outcome = QOutcome.ret true :=
      fun p2 h2 => hpre p2 (List.mem_cons_of_mem p h2)
    rw [List.cons_append, workerLoop, hp]
    dsimp only
    rw [if_pos rfl, workerLoop_falsy rest (executed ++ [p]) q post hrest hq]
    simp

/-- C8 (amended): Transaction.execute acquires, for each queued query, a lock
on args position 0 whose mode is the one lockTypeFor picks from the
operation name (the acquisition log of a fresh transaction over the empty
manager lists exactly (args[0], lockTypeFor op) per query, in order), and
lockTypeFor is SHARED exactly for select and EXCLUSIVE for every other
operation, reads included. -/
theorem execute_lock_modes (tid : Int) (qs : List TQuery)
    (h : ∀ q ∈ qs, q.outcome ≠ QOutcome.raises) :
    (Transaction.execute (Transaction.mk0 tid qs) LockManager.empty).map
        (fun r => r.2.2.2) =
      some (qs.map (fun q => (q.args.headD 0, Transaction.lockTypeFor q.op))) ∧
    Transaction.lockTypeFor .select = .shared ∧
    Transaction.lockTypeFor .insert = .exclusive ∧
    Transaction.lockTypeFor .update = .exclusive ∧
    Transaction.lockTypeFor .delete = .exclusive ∧
    Transaction.lockTypeFor .increment = .exclusive ∧
    Transaction.lockTypeFor .sum = .exclusive ∧
    Transaction.lockTypeFor .select_version = .exclusive ∧
    Transaction.lockTypeFor .sum_version = .exclusive := by
  obtain ⟨lm1, heq⟩ := Transaction.execute_ret_spec tid qs h
  refine ⟨?_, rfl, rfl, rfl, rfl, rfl, rfl, rfl, rfl⟩
  rw [heq]
  rfl

/-- C8 witness: a transaction queueing a sum query on key 3 and a select
query on key 5 logs an EXCLUSIVE acquisition for the sum and a SHARED one
for the select. -/
theorem execute_lock_modes_witness :
    (Transaction.execute
        (Transaction.mk0 8
          [{ op := QueryOp.sum, args := [3, 7, 1], outcome := QOutcome.ret true },
           { op := QueryOp.select, args := [5], outcome := QOutcome.ret true }])
        LockManager.empty).map (fun r => r.2.2.2) =
      some [(3, LockType.exclusive), (5, LockType.shared)] := by
  have h := execute_lock_modes 8
    [{ op := QueryOp.sum, args := [3, 7, 1], outcome := QOutcome.ret true },
     { op := QueryOp.select, args := [5], outcome := QOutcome.ret true }] (by decide)
  rw [h.1]
  rfl

/-- C9 (amended): Transaction.execute never inspects query return values: on
a fresh transaction whose queries all return (truthy or falsy alike), every
result is appended and the transaction commits, ending committed and not
aborted.  The falsy-return abort belongs to TransactionWorker's
_execute_transaction, which stops at the first query whose outcome is not a
truthy return (later queries never run), aborts, and ends the transaction
aborted and not committed. -/
theorem execute_ignores_falsy (tid : Int) (qs : List TQuery)
    (h : ∀ q ∈ qs, q.outcome ≠ QOutcome.raises) :
    (Transaction.execute (Transaction.mk0 tid qs) LockManager.empty).map
        (fun r => (r.1, r.2.1.committed, r.2.1.aborted, r.2.1.results)) =
      some (ExecOutcome.ret true, true, false,
        qs.map (fun q => QOutcome.truthy q.outcome)) ∧
    (∀ (tid2 : Int) (pre : List TQuery) (q2 : TQuery) (post : List TQuery),
      (∀ p ∈ pre, p.outcome = QOutcome.ret true) →
      QOutcome.truthy q2.outcome = false →
      (TransactionWorker.execute_transaction (Transaction.mk0 tid2 (pre ++ q2 :: post))
          LockManager.empty).map
          (fun r => (r.1, r.2.1.aborted, r.2.1.committed, r.2.2.2)) =
        some (false, true, false, pre ++ [q2])) := by
  constructor
  · obtain ⟨lm1, heq⟩ := Transaction.execute_ret_spec tid qs h
    rw [heq]
    rfl
  · intro tid2 pre q2 post hpre hq2
    unfold TransactionWorker.execute_transaction Transaction.mk0
    rw [if_neg (by simp)]
    dsimp only
    rw [workerLoop_falsy pre [] q2 post hpre hq2]
    dsimp only
    rw [if_neg (by simp)]
    unfold Transaction.abort
    rw [if_neg (by simp)]
    unfold LockManager.release_all_locks
    rw [show dGet LockManager.empty.transaction_locks tid2 = none from rfl]
    simp

/-- C9 witness: with an update returning falsy followed by a select returning
truthy, Transaction.execute records both results and commits, while the
worker given the select (truthy) followed by the update (falsy) stops after
the update and aborts. -/
theorem execute_ignores_falsy_witness :
    (Transaction.execute
        (Transaction.mk0 7
          [{ op := QueryOp.update, args := [5], outcome := QOutcome.ret false },
           { op := QueryOp.select, args := [6], outcome := QOutcome.ret true }])
        LockManager.empty).map
        (fun r => (r.1, r.2.1.committed, r.2.1.aborted, r.2.1.results)) =
      some (ExecOutcome.ret true, true, false, [false, true]) ∧
    (TransactionWorker.execute_transaction
        (Transaction.mk0 9
          ([{ op := QueryOp.select, args := [6], outcome := QOutcome.ret true }] ++
            { op := QueryOp.update, args := [5], outcome := QOutcome.ret false } :: []))
        LockManager.empty).map
        (fun r => (r.1, r.2.1.aborted, r.2.1.committed, r.2.2.2)) =
      some (false, true, false,
        [{ op := QueryOp.select, args := [6], outcome := QOutcome.ret true }] ++
          [{ op := QueryOp.update, args := [5], outcome := QOutcome.ret false }]) := by
  constructor
  · have h := (execute_ignores_falsy 7
      [{ op := QueryOp.update, args := [5], outcome := QOutcome.ret false },
       { op := QueryOp.select, args := [6], outcome := QOutcome.ret true }] (by decide)).1
    rw [h]
    rfl
  · exact (execute_ignores_falsy 7
      [{ op := QueryOp.update, args := [5], outcome := QOutcome.ret false },
       { op := QueryOp.select, args := [6], outcome := QOutcome.ret true }] (by decide)).2
      9 [{ op := QueryOp.select, args := [6], outcome := QOutcome.ret true }]
      { op := QueryOp.update, args := [5], outcome := QOutcome.ret false } [] (by decide) (by decide)

/-! View preservation: table reads are determined by, and preserve, the
content view of the bufferpool. -/

theorem Table.sameView_refl (t : Table) : t.SameView t :=
  ⟨rfl, rfl, rfl, rfl, rfl, rfl, rfl, rfl, rfl, rfl, rfl, fun _ => rfl⟩

theorem Table.sameView_trans {t s u : Table} (h1 : t.SameView s) (h2 : s.SameView u) :
    t.SameView u := by
  obtain ⟨a1, a2, a3, a4, a5, a6, a7, a8, a9, a10, a11, a12⟩ := h1
  obtain ⟨b1, b2, b3, b4, b5, b6, b7, b8, b9, b10, b11, b12⟩ := h2
  exact ⟨a1.trans b1, a2.trans b2, a3.trans b3, a4.trans b4, a5.trans b5, a6.trans b6,
    a7.trans b7, a8.trans b8, a9.trans b9, a10.trans b10, a11.trans b11,
    fun k => (a12 k).trans (b12 k)⟩

theorem Table.sameView_symm {t s : Table} (h : t.SameView s) : s.SameView t := by
  obtain ⟨a1, a2, a3, a4, a5, a6, a7, a8, a9, a10, a11, a12⟩ := h
  exact ⟨a1.symm, a2.symm, a3.symm, a4.symm, a5.symm, a6.symm, a7.symm, a8.symm, a9.symm,
    a10.symm, a11.symm, fun k => (a12 k).symm⟩

theorem Table.sameView_of_bp (t : Table) (bp : Bufferpool PageKey)
    (h : ∀ k, t.bufferpool.pageOf k = bp.pageOf k) : t.SameView { t with bufferpool := bp } :=
  ⟨rfl, rfl, rfl, rfl, rfl, rfl, rfl, rfl, rfl, rfl, rfl, h⟩

/-- viewPage is determined by the view. -/
theorem Table.viewPage_congr {t s : Table} (h : t.SameView s) (isb : Bool) (c pi : Nat) :
    t.viewPage isb c pi = s.viewPage isb c pi := by
  obtain ⟨a1, a2, a3, a4, a5, a6, a7, a8, a9, a10, a11, a12⟩ := h
  unfold Table.viewPage Table.total_columns
  rw [a2, a8, a9, a12]

/-- readColsV is determined by the view. -/
theorem Table.readColsV_congr {t s : Table} (h : t.SameView s) (isb : Bool) (pi sl : Nat) :
    ∀ cs : List Nat, t.readColsV isb pi sl cs = s.readColsV isb pi sl cs
  | [] => rfl
  | c :: rest => by
    unfold Table.readColsV
    rw [Table.viewPage_congr h, Table.readColsV_congr h isb pi sl rest]

/-- getRecordV is determined by the view. -/
theorem Table.getRecordV_congr {t s : Table} (h : t.SameView s) (rid : Int) :
    t.getRecordV rid = s.getRecordV rid := by
  have hpd : t.page_directory = s.page_directory := h.2.2.1
  have hnc : t.num_columns = s.num_columns := h.2.1
  have hkey : t.key = s.key := h.1
  unfold Table.getRecordV
  rw [hpd]
  cases dGet s.page_directory rid with
  | none => rfl
  | some e =>
    rcases e with ⟨pt, pi, sl⟩
    dsimp only
    rw [Table.viewPage_congr h, Table.viewPage_congr h, Table.viewPage_congr h,
      Table.readColsV_congr h, hnc, hkey]

/-- The page handed out by _get_page is the viewPage. -/
theorem Table.getPage_fst (t : Table) (isb : Bool) (c pi : Nat) :
    (t.getPage isb c pi).1 = t.viewPage isb c pi := by
  unfold Table.getPage Table.viewPage
  dsimp only
  split <;> split <;> first | rfl | simp [Bufferpool.get_page_fst]

/-- _get_page preserves the view and the pool invariant. -/
theorem Table.getPage_view (t : Table) (isb : Bool) (c pi : Nat) (h : BPInv t.bufferpool) :
    t.SameView ((t.getPage isb c pi).2) ∧ BPInv (((t.getPage isb c pi).2)).bufferpool := by
  unfold Table.getPage
  dsimp only
  split <;> split <;>
    first
      | exact ⟨Table.sameView_refl t, h⟩
      | exact ⟨Table.sameView_of_bp t _ (fun k => (t.bufferpool.get_page_pageOf _ h.1 k).symm),
          t.bufferpool.get_page_inv _ h⟩

/-- The read loop of get_record preserves the view and the pool invariant. -/
theorem Table.readCols_view : ∀ (cs : List Nat) (t : Table) (isb : Bool) (pi sl : Nat),
    BPInv t.bufferpool →
    t.SameView ((t.readCols isb pi sl cs).2) ∧ BPInv (((t.readCols isb pi sl cs).2)).bufferpool
  | [], t, _, _, _, h => ⟨Table.sameView_refl t, h⟩
  | c :: rest, t, isb, pi, sl, h => by
    obtain ⟨hv, hi⟩ := t.getPage_view isb c pi h
    obtain ⟨hv2, hi2⟩ := Table.readCols_view rest ((t.getPage isb c pi).2) isb pi sl hi
    unfold Table.readCols
    rcases hgp : t.getPage isb c pi with ⟨og, t1⟩
    rw [hgp] at hv hi hv2 hi2
    cases og with
    | none => exact ⟨hv, hi⟩
    | some pg =>
      dsimp only
      cases hrd : pg.read sl with
      | none => exact ⟨hv, hi⟩
      | some v =>
        dsimp only
        rcases hrc : Table.readCols t1 isb pi sl rest with ⟨ov, t2⟩
        rw [hrc] at hv2 hi2
        cases ov with
        | none => exact ⟨Table.sameView_trans hv hv2, hi2⟩
        | some vs => exact ⟨Table.sameView_trans hv hv2, hi2⟩

/-- The value of the read loop of get_record is the view-level readColsV. -/
theorem Table.readCols_fst : ∀ (cs : List Nat) (t : Table) (isb : Bool) (pi sl : Nat),
    BPInv t.bufferpool →
    (t.readCols isb pi sl cs).1 = t.readColsV isb pi sl cs
  | [], _, _, _, _, _ => rfl
  | c :: rest, t, isb, pi, sl, h => by
    obtain ⟨hv, hi⟩ := t.getPage_view isb c pi h
    have hf := t.getPage_fst isb c pi
    have hrec := Table.readCols_fst rest ((t.getPage isb c pi).2) isb pi sl hi
    unfold Table.readCols
    rw [Table.readColsV, ← hf]
    rcases hgp : t.getPage isb c pi with ⟨og, t1⟩
    rw [hgp] at hv hi hrec hf
    dsimp only at hv hi hrec hf ⊢
    cases og with
    | none => rfl
    | some pg =>
      dsimp only
      cases hrd : pg.read sl with
      | none => rfl
      | some v =>
        dsimp only
        rw [Table.readColsV_congr hv isb pi sl rest, ← hrec]
        rcases hrc : Table.readCols t1 isb pi sl rest with ⟨ov, t2⟩
        dsimp only
        cases ov with
        | none => rfl
        | some vs => rfl

/-- The value of get_record is the view-level getRecordV. -/
theorem Table.get_record_fst (t : Table) (rid : Int) (h : BPInv t.bufferpool) :
    (t.get_record rid).1 = t.getRecordV rid := by
  unfold Table.get_record Table.getRecordV
  cases hpd : dGet t.page_directory rid with
  | none => rfl
  | some e =>
    rcases e with ⟨pt, pi, sl⟩
    dsimp only
    by_cases hdel : pt = RecKind.deleted
    · rw [if_pos hdel, if_pos hdel]
    · rw [if_neg hdel, if_neg hdel]
      obtain ⟨hv1, hi1⟩ := t.getPage_view (decide (pt = RecKind.base)) 0 pi h
      have hf1 := t.getPage_fst (decide (pt = RecKind.base)) 0 pi
      rw [← hf1]
      rcases hg1 : t.getPage (decide (pt = RecKind.base)) 0 pi with ⟨og1, t1⟩
      rw [hg1] at hv1 hi1 hf1
      dsimp only at hv1 hi1 hf1 ⊢
      cases og1 with
      | none => rfl
      | some pg0 =>
        dsimp only
        obtain ⟨hv2, hi2⟩ := t1.getPage_view (decide (pt = RecKind.base)) 2 pi hi1
        have hf2 := t1.getPage_fst (decide (pt = RecKind.base)) 2 pi
        rw [Table.viewPage_congr hv1, ← hf2]
        rcases hg2 : t1.getPage (decide (pt = RecKind.base)) 2 pi with ⟨og2, t2⟩
        rw [hg2] at hv2 hi2 hf2
        dsimp only at hv2 hi2 hf2 ⊢
        cases og2 with
        | none => rfl
        | some pg2 =>
          dsimp only
          obtain ⟨hv3, hi3⟩ := t2.getPage_view (decide (pt = RecKind.base)) 3 pi hi2
          have hf3 := t2.getPage_fst (decide (pt = RecKind.base)) 3 pi
          rw [Table.viewPage_congr (Table.sameView_trans hv1 hv2), ← hf3]
          rcases hg3 : t2.getPage (decide (pt = RecKind.base)) 3 pi with ⟨og3, t3⟩
          rw [hg3] at hv3 hi3 hf3
          dsimp only at hv3 hi3 hf3 ⊢
          cases og3 with
          | none => rfl
          | some pg3 =>
            dsimp only
            have hfr := Table.readCols_fst (List.range' 4 t.num_columns) t3
              (decide (pt = RecKind.base)) pi sl hi3
            rw [Table.readColsV_congr (Table.sameView_trans hv1 (Table.sameView_trans hv2 hv3)),
              ← hfr]
            rcases hgr : t3.readCols (decide (pt = RecKind.base)) pi sl
                (List.range' 4 t.num_columns) with ⟨ovs, t4⟩
            dsimp only
            cases ovs with
            | none => rfl
            | some values =>
              dsimp only
              split <;> rfl

/-- get_record preserves the view and the pool invariant. -/
theorem Table.get_record_view (t : Table) (rid : Int) (h : BPInv t.bufferpool) :
    t.SameView ((t.get_record rid).2) ∧ BPInv (((t.get_record rid).2)).bufferpool := by
  unfold Table.get_record
  cases hpd : dGet t.page_directory rid with
  | none => exact ⟨Table.sameView_refl t, h⟩
  | some e =>
    rcases e with ⟨pt, pi, sl⟩
    dsimp only
    by_cases hdel : pt = RecKind.deleted
    · rw [if_pos hdel]
      exact ⟨Table.sameView_refl t, h⟩
    · rw [if_neg hdel]
      obtain ⟨hv1, hi1⟩ := t.getPage_view (decide (pt = RecKind.base)) 0 pi h
      rcases hg1 : t.getPage (decide (pt = RecKind.base)) 0 pi with ⟨og1, t1⟩
      rw [hg1] at hv1 hi1
      cases og1 with
      | none => exact ⟨hv1, hi1⟩
      | some pg0 =>
        dsimp only
        obtain ⟨hv2, hi2⟩ := t1.getPage_view (decide (pt = RecKind.base)) 2 pi hi1
        rcases hg2 : t1.getPage (decide (pt = RecKind.base)) 2 pi with ⟨og2, t2⟩
        rw [hg2] at hv2 hi2
        cases og2 with
        | none => exact ⟨Table.sameView_trans hv1 hv2, hi2⟩
        | some pg2 =>
          dsimp only
          obtain ⟨hv3, hi3⟩ := t2.getPage_view (decide (pt = RecKind.base)) 3 pi hi2
          rcases hg3 : t2.getPage (decide (pt = RecKind.base)) 3 pi with ⟨og3, t3⟩
          rw [hg3] at hv3 hi3
          have hv13 := Table.sameView_trans hv1 (Table.sameView_trans hv2 hv3)
          cases og3 with
          | none => exact ⟨hv13, hi3⟩
          | some pg3 =>
            dsimp only
            obtain ⟨hv4, hi4⟩ := Table.readCols_view (List.range' 4 t.num_columns) t3
              (decide (pt = RecKind.base)) pi sl hi3
            rcases hgr : t3.readCols (decide (pt = RecKind.base)) pi sl
                (List.range' 4 t.num_columns) with ⟨ovs, t4⟩
            rw [hgr] at hv4 hi4
            have hv14 := Table.sameView_trans hv13 hv4
            cases ovs with
            | none => exact ⟨hv14, hi4⟩
            | some values =>
              dsimp only
              split
              · exact ⟨hv14, hi4⟩
              · exact ⟨hv14, hi4⟩

/-- The success branch of the view-level read loop. -/
theorem Table.readColsV_ok : ∀ (cs : List Nat) (t : Table) (isb : Bool) (pi sl : Nat)
    (f : Nat → Int),
    (∀ c ∈ cs, c < t.total_columns) →
    pi < (if isb then t.num_base_pages else t.num_tail_pages) →
    (∀ c ∈ cs, (t.bufferpool.pageOf (isb, c, pi)).read sl = some (f c)) →
    t.readColsV isb pi sl cs = some (cs.map f)
  | [], _, _, _, _, _, _, _, _ => rfl
  | c :: rest, t, isb, pi, sl, f, hb, hp, hr => by
    have hbc := hb c (List.mem_cons_self c rest)
    have hrc := hr c (List.mem_cons_self c rest)
    rw [Table.readColsV, Table.viewPage, if_neg (by push_neg; exact ⟨hbc, hp⟩)]
    dsimp only
    rw [hrc]
    dsimp only
    rw [Table.readColsV_ok rest t isb pi sl f
      (fun c2 h2 => hb c2 (List.mem_cons_of_mem c h2)) hp
      (fun c2 h2 => hr c2 (List.mem_cons_of_mem c h2))]
    rfl

/-- The value of getRecordV at a base record whose user pages all read back. -/
theorem Table.getRecordV_base (t : Table) (rid : Int) (idx slot : Nat) (f : Nat → Int)
    (hpd : dGet t.page_directory rid = some (RecKind.base, idx, slot))
    (hidx : idx < t.num_base_pages)
    (hkey : t.key < t.num_columns)
    (hread : ∀ c ∈ List.range' 4 t.num_columns,
      (t.bufferpool.pageOf (true, c, idx)).read slot = some (f c)) :
    t.getRecordV rid =
      some { rid := rid, key := ((List.range' 4 t.num_columns).map f).getD t.key 0,
             columns := (List.range' 4 t.num_columns).map f,
             indirection := (t.bufferpool.pageOf (true, 0, idx)).read slot,
             timestamp := (t.bufferpool.pageOf (true, 2, idx)).read slot,
             schema_encoding := (t.bufferpool.pageOf (true, 3, idx)).read slot } := by
  have htot : 4 ≤ t.total_columns := by
    unfold Table.total_columns
    omega
  have hrange : ∀ c ∈ List.range' 4 t.num_columns, c < t.total_columns := by
    intro c hc
    rw [List.mem_range'] at hc
    unfold Table.total_columns
    omega
  unfold Table.getRecordV
  rw [hpd]
  dsimp only
  rw [if_neg (by decide : ¬ (RecKind.base = RecKind.deleted))]
  rw [show decide (RecKind.base = RecKind.base) = true from rfl]
  rw [Table.viewPage, if_neg (by simp; omega)]
  dsimp only
  rw [Table.viewPage, if_neg (by simp; omega)]
  dsimp only
  rw [Table.viewPage, if_neg (by simp; omega)]
  dsimp only
  rw [Table.readColsV_ok (List.range' 4 t.num_columns) t true idx slot f hrange
    (by simpa using hidx) hread]
  dsimp only
  rw [if_pos (by rw [List.length_map, List.length_range']; exact hkey)]

/-! Write-path lemmas for create_record. -/

/-- A successful append: capacity and range check pass, the value lands at
slot num_records and the count advances. -/
theorem Page.write_append_ok (p : Page) (v : Int) (hcap : p.num_records < 512)
    (hfit : fitsInt64 v = true) :
    p.write v none = (true, { num_records := p.num_records + 1, data := fun j => if j = p.num_records then v else p.data j }) := by
  unfold Page.write
  rw [if_neg (by simp [Page.has_capacity]; omega), if_pos hfit]

/-- write_to_page lifted to the table: pages other than the target keep
their content, the core fields and the pool invariant are preserved. -/
theorem Table.bpWrite_other (t : Table) (k : PageKey) (v : Int) (i : Option Nat)
    (hinv : BPInv t.bufferpool) :
    t.coreEq ((t.bpWrite k v i).2) ∧ BPInv (((t.bpWrite k v i).2)).bufferpool ∧
    ∀ j, j ≠ k → ((t.bpWrite k v i).2).bufferpool.pageOf j = t.bufferpool.pageOf j := by
  refine ⟨t.bpWrite_coreEq k v i, (t.bufferpool.write_to_page_state k v i hinv).1, ?_⟩
  intro j hj
  have h := t.bufferpool.write_to_page_pageOf k v i hinv j
  show ((t.bufferpool.write_to_page k v i).2).pageOf j = t.bufferpool.pageOf j
  rw [h, if_neg hj]

/-- A successful append through the bufferpool. -/
theorem Table.bpWrite_append (t : Table) (k : PageKey) (v : Int)
    (hinv : BPInv t.bufferpool)
    (hcap : (t.bufferpool.pageOf k).num_records < 512)
    (hfit : fitsInt64 v = true) :
    (t.bpWrite k v none).1 = true ∧
    ((t.bpWrite k v none).2).bufferpool.pageOf k =
      { num_records := (t.bufferpool.pageOf k).num_records + 1,
        data := fun j => if j = (t.bufferpool.pageOf k).num_records then v
                         else (t.bufferpool.pageOf k).data j } := by
  have hw := Page.write_append_ok (t.bufferpool.pageOf k) v hcap hfit
  constructor
  · show (t.bufferpool.write_to_page k v none).1 = true
    rw [t.bufferpool.write_to_page_fst k v none, hw]
  · have h := t.bufferpool.write_to_page_pageOf k v none hinv k
    show ((t.bufferpool.write_to_page k v none).2).pageOf k = _
    rw [h, if_pos rfl, hw]

/-- The data-column write loop of create_record under capacity and range
guarantees: it succeeds, appends value m at the top of column 4+i+m, leaves
every other page alone, and preserves the core fields and pool invariant. -/
theorem Table.writeUserCols_ok : ∀ (vs : List Int) (t : Table) (idx i : Nat),
    BPInv t.bufferpool →
    (∀ v ∈ vs, fitsInt64 v = true) →
    (∀ m, m < vs.length → (t.bufferpool.pageOf (true, 4 + (i + m), idx)).num_records < 512) →
    (t.writeUserCols idx i vs).1 = true ∧
    t.coreEq ((t.writeUserCols idx i vs).2) ∧
    BPInv (((t.writeUserCols idx i vs).2)).bufferpool ∧
    (∀ j : PageKey, (∀ m, m < vs.length → j ≠ (true, 4 + (i + m), idx)) →
      ((t.writeUserCols idx i vs).2).bufferpool.pageOf j = t.bufferpool.pageOf j) ∧
    (∀ m, m < vs.length →
      ((t.writeUserCols idx i vs).2).bufferpool.pageOf (true, 4 + (i + m), idx) =
        { num_records := (t.bufferpool.pageOf (true, 4 + (i + m), idx)).num_records + 1,
          data := fun q => if q = (t.bufferpool.pageOf (true, 4 + (i + m), idx)).num_records
                           then vs.getD m 0 else (t.bufferpool.pageOf (true, 4 + (i + m), idx)).data q })
  | [], t, idx, i, hinv, _, _ =>
    ⟨rfl, t.coreEq_refl, hinv, fun _ _ => rfl, fun m hm => absurd hm (by simp)⟩
  | v :: rest, t, idx, i, hinv, hfit, hcap => by
    have hv : fitsInt64 v = true := hfit v (List.mem_cons_self v rest)
    have hc0 : (t.bufferpool.pageOf (true, 4 + i, idx)).num_records < 512 := by
      have h := hcap 0 (by simp)
      have he : 4 + (i + 0) = 4 + i := by omega
      rw [he] at h
      exact h
    obtain ⟨hw1, hwpage⟩ := t.bpWrite_append (true, 4 + i, idx) v hinv hc0 hv
    obtain ⟨hwcore, hwinv, hwother⟩ := t.bpWrite_other (true, 4 + i, idx) v none hinv
    have hcaprec : ∀ m, m < rest.length →
        (((t.bpWrite (true, 4 + i, idx) v none).2).bufferpool.pageOf
          (true, 4 + (i + 1 + m), idx)).num_records < 512 := by
      intro m hm
      rw [hwother (true, 4 + (i + 1 + m), idx) (by intro he; injection he with h1 h2; injection h2 with h3 h4; omega)]
      have h := hcap (m + 1) (by simpa using hm)
      have he : 4 + (i + (m + 1)) = 4 + (i + 1 + m) := by omega
      rw [he] at h
      exact h
    obtain ⟨h1, h2, h3, h4, h5⟩ := Table.writeUserCols_ok rest
      ((t.bpWrite (true, 4 + i, idx) v none).2) idx (i + 1) hwinv
      (fun v2 hv2 => hfit v2 (List.mem_cons_of_mem v hv2)) hcaprec
    unfold Table.writeUserCols
    dsimp only
    rw [hw1, if_pos rfl]
    refine ⟨h1, Table.coreEq_trans hwcore h2, h3, ?_, ?_⟩
    · intro j hj
      rw [h4 j ?hrest, hwother j ?hhead]
      case hrest =>
        intro m hm
        have h := hj (m + 1) (by simpa using hm)
        have he : 4 + (i + (m + 1)) = 4 + (i + 1 + m) := by omega
        rw [he] at h
        exact h
      case hhead =>
        have h := hj 0 (by simp)
        have he : 4 + (i + 0) = 4 + i := by omega
        rw [he] at h
        exact h
    · intro m hm
      cases m with
      | zero =>
        have he : 4 + (i + 0) = 4 + i := by omega
        rw [he]
        rw [h4 (true, 4 + i, idx)
          (by intro m2 hm2; intro heq; injection heq with q1 q2; injection q2 with q3 q4; omega)]
        rw [hwpage]
        rfl
      | succ m2 =>
        have hm2 : m2 < rest.length := by simpa using hm
        have h := h5 m2 hm2
        have he : 4 + (i + (m2 + 1)) = 4 + (i + 1 + m2) := by omega
        rw [he]
        rw [h]
        rw [hwother (true, 4 + (i + 1 + m2), idx)
          (by intro heq; injection heq with q1 q2; injection q2 with q3 q4; omega)]
        rfl

/-- The short-circuit capacity check: view-preserving, and a true result
certifies capacity of every checked column. -/
theorem Table.colsHaveCapacity_ok : ∀ (cs : List Nat) (t : Table) (isb : Bool) (idx : Nat),
    BPInv t.bufferpool →
    t.SameView ((t.colsHaveCapacity isb idx cs).2) ∧
    BPInv (((t.colsHaveCapacity isb idx cs).2)).bufferpool ∧
    ((t.colsHaveCapacity isb idx cs).1 = true →
      ∀ c ∈ cs, (t.bufferpool.pageOf (isb, c, idx)).has_capacity = true)
  | [], t, _, _, h => ⟨Table.sameView_refl t, h, fun _ c hc => absurd hc (List.not_mem_nil c)⟩
  | c :: rest, t, isb, idx, h => by
    have hview : t.SameView { t with bufferpool := (t.bufferpool.get_page (isb, c, idx)).2 } :=
      Table.sameView_of_bp t _ (fun k => (t.bufferpool.get_page_pageOf _ h.1 k).symm)
    have hinv1 : BPInv ((t.bufferpool.get_page (isb, c, idx)).2) := t.bufferpool.get_page_inv _ h
    obtain ⟨ihv, ihi, ihc⟩ := Table.colsHaveCapacity_ok rest
      { t with bufferpool := (t.bufferpool.get_page (isb, c, idx)).2 } isb idx hinv1
    unfold Table.colsHaveCapacity
    dsimp only
    split
    · rename_i hcap
      refine ⟨Table.sameView_trans hview ihv, ihi, ?_⟩
      intro hfst c2 hc2
      rcases List.mem_cons.mp hc2 with he | hm
      · rw [he]
        rw [Bufferpool.get_page_fst] at hcap
        exact hcap
      · have hpg := hview.2.2.2.2.2.2.2.2.2.2.2 (isb, c2, idx)
        rw [hpg]
        exact ihc hfst c2 hm
    · rename_i hcap
      exact ⟨hview, hinv1, fun hfst => absurd hfst (by simp)⟩

/-- The base-chain scan of create_record: view-preserving, and a successful
scan returns a chain index from the candidate list at which every column of
the checked range has capacity. -/
theorem Table.scanBaseChains_ok : ∀ (l : List Nat) (t : Table),
    BPInv t.bufferpool →
    t.SameView ((t.scanBaseChains l).2) ∧ BPInv (((t.scanBaseChains l).2)).bufferpool ∧
    (∀ i, (t.scanBaseChains l).1 = some i → i ∈ l ∧
      ∀ c ∈ List.range t.total_columns, (t.bufferpool.pageOf (true, c, i)).has_capacity = true)
  | [], t, h => ⟨Table.sameView_refl t, h, fun i hi => absurd hi (by simp [Table.scanBaseChains])⟩
  | i0 :: rest, t, h => by
    obtain ⟨hv1, hi1, hc1⟩ := Table.colsHaveCapacity_ok (List.range t.total_columns) t true i0 h
    unfold Table.scanBaseChains
    dsimp only
    split
    · rename_i hchk
      refine ⟨hv1, hi1, ?_⟩
      intro i hi
      have hii : i0 = i := by
        simpa using hi
      rw [← hii]
      exact ⟨List.mem_cons_self i0 rest, hc1 hchk⟩
    · rename_i hchk
      obtain ⟨hv2, hi2, hc2⟩ :=
        Table.scanBaseChains_ok rest ((t.colsHaveCapacity true i0 (List.range t.total_columns)).2) hi1
      refine ⟨Table.sameView_trans hv1 hv2, hi2, ?_⟩
      intro i hi
      obtain ⟨hmem, hcap⟩ := hc2 i hi
      refine ⟨List.mem_cons_of_mem i0 hmem, ?_⟩
      intro c hc
      have hnc : t.num_columns = ((t.colsHaveCapacity true i0 (List.range t.total_columns)).2).num_columns := hv1.2.1
      have hpg := hv1.2.2.2.2.2.2.2.2.2.2.2 (true, c, i)
      rw [hpg]
      refine hcap c ?_
      have htot : ((t.colsHaveCapacity true i0 (List.range t.total_columns)).2).total_columns = t.total_columns := by
        show ((t.colsHaveCapacity true i0 (List.range t.total_columns)).2).num_columns + 4 = t.num_columns + 4
        rw [← hnc]
      rw [htot]
      exact hc

/-- get_num_records lifted to the table: the count of the viewed page,
view-preserving. -/
theorem Table.bpNumRecords_ok (t : Table) (k : PageKey) (h : BPInv t.bufferpool) :
    (t.bpNumRecords k).1 = (t.bufferpool.pageOf k).num_records ∧
    t.SameView ((t.bpNumRecords k).2) ∧ BPInv (((t.bpNumRecords k).2)).bufferpool := by
  refine ⟨?_, ?_, ?_⟩
  · show (t.bufferpool.get_num_records k).1 = _
    unfold Bufferpool.get_num_records
    dsimp only
    rw [Bufferpool.get_page_fst]
  · exact Table.sameView_of_bp t _ (fun k2 => (t.bufferpool.get_page_pageOf k h.1 k2).symm)
  · exact t.bufferpool.get_page_inv k h

/-! Index maintenance of create_record. -/

theorem getD_set_self {α : Type} : ∀ (l : List α) (i : Nat) (x d : α), i < l.length →
    (l.set i x).getD i d = x
  | [], _, _, _, h => absurd h (by simp)
  | a :: l, 0, x, d, _ => rfl
  | a :: l, i + 1, x, d, h => by
    simp only [List.set_cons_succ, List.getD_cons_succ]
    exact getD_set_self l i x d (by simpa using h)

theorem getD_set_ne {α : Type} : ∀ (l : List α) (i j : Nat) (x d : α), i ≠ j →
    (l.set i x).getD j d = l.getD j d
  | [], _, _, _, _, _ => rfl
  | a :: l, 0, 0, x, d, h => absurd rfl h
  | a :: l, 0, j + 1, x, d, _ => by
    simp only [List.set_cons_zero, List.getD_cons_succ]
  | a :: l, i + 1, 0, x, d, _ => by
    simp only [List.set_cons_succ, List.getD_cons_zero]
  | a :: l, i + 1, j + 1, x, d, h => by
    simp only [List.set_cons_succ, List.getD_cons_succ]
    exact getD_set_ne l i j x d (by omega)

/-- updateIndices touches nothing but the indices field. -/
theorem Table.updateIndices_fields : ∀ (ps : List (Nat × Int)) (t : Table) (rid : Int),
    (t.updateIndices rid ps).key = t.key ∧
    (t.updateIndices rid ps).num_columns = t.num_columns ∧
    (t.updateIndices rid ps).page_directory = t.page_directory ∧
    (t.updateIndices rid ps).bufferpool = t.bufferpool ∧
    (t.updateIndices rid ps).next_rid = t.next_rid ∧
    (t.updateIndices rid ps).num_records = t.num_records ∧
    (t.updateIndices rid ps).num_base_pages = t.num_base_pages ∧
    (t.updateIndices rid ps).now = t.now
  | [], t, rid => ⟨rfl, rfl, rfl, rfl, rfl, rfl, rfl, rfl⟩
  | (i, v) :: rest, t, rid => by
    unfold Table.updateIndices
    dsimp only
    split
    · obtain ⟨a1, a2, a3, a4, a5, a6, a7, a8⟩ :=
        Table.updateIndices_fields rest { t with indices := Index.update_index t.indices i v rid } rid
      exact ⟨a1, a2, a3, a4, a5, a6, a7, a8⟩
    · exact Table.updateIndices_fields rest t rid

/-- updateIndices leaves the mapping of any column outside the update list
unchanged. -/
theorem Table.updateIndices_getD_other : ∀ (ps : List (Nat × Int)) (t : Table) (rid : Int)
    (c : Nat), c ∉ ps.map Prod.fst →
    (t.updateIndices rid ps).indices.getD c none = t.indices.getD c none
  | [], t, rid, c, _ => rfl
  | (i, v) :: rest, t, rid, c, hc => by
    simp only [List.map_cons, List.mem_cons, not_or] at hc
    have hic : i ≠ c := fun h => hc.1 h.symm
    unfold Table.updateIndices
    dsimp only
    split
    · rw [Table.updateIndices_getD_other rest _ rid c hc.2]
      show (Index.update_index t.indices i v rid).getD c none = t.indices.getD c none
      unfold Index.update_index
      cases hgi : t.indices.getD i none with
      | none => rfl
      | some d =>
        dsimp only
        exact getD_set_ne t.indices i c _ none hic
    · exact Table.updateIndices_getD_other rest t rid c hc.2

/-- After the index maintenance of create_record, the column mapping of any
updated column whose dict held no entry for the new rid locates the updated
value at the new rid. -/
theorem Table.updateIndices_locate : ∀ (ps : List (Nat × Int)) (t : Table) (rid : Int)
    (keycol : Nat) (keyval : Int),
    (keycol, keyval) ∈ ps →
    (ps.map Prod.fst).Nodup →
    (∀ d, t.indices.getD keycol none = some d → ∀ p ∈ d, p.2 ≠ rid) →
    (t.indices.getD keycol none).isSome →
    Index.locate (t.updateIndices rid ps).indices keycol keyval = some rid
  | [], _, _, _, _, hmem, _, _, _ => absurd hmem (List.not_mem_nil _)
  | (i, v) :: rest, t, rid, keycol, keyval, hmem, hnodup, hnr, hsome => by
    obtain ⟨hd, hval⟩ := Option.isSome_iff_exists.mp hsome
    rcases List.mem_cons.mp hmem with hhead | hrest
    · injection hhead with h1 h2
      have hlen : keycol < t.indices.length := by
        by_contra hge
        rw [List.getD_eq_default] at hval
        · exact Option.noConfusion hval
        · omega
      have hfind : hd.find? (fun p => decide (p.2 = rid)) = none := by
        rw [List.find?_eq_none]
        intro p hp
        simp only [decide_eq_true_eq]
        exact hnr hd hval p hp
      have hfst : keycol ∉ rest.map Prod.fst := by
        simp only [List.map_cons, List.nodup_cons] at hnodup
        exact h1 ▸ hnodup.1
      unfold Table.updateIndices
      dsimp only
      rw [← h1, ← h2, if_pos (by rw [hval]; rfl)]
      unfold Index.locate
      rw [Table.updateIndices_getD_other rest
        ({ t with indices := Index.update_index t.indices keycol keyval rid }) rid keycol hfst]
      show ((match (Index.update_index t.indices keycol keyval rid).getD keycol none with
        | none => (none : Option Int)
        | some d => dGet d keyval)) = some rid
      unfold Index.update_index
      rw [hval]
      dsimp only
      rw [hfind]
      dsimp only
      rw [getD_set_self t.indices keycol _ none hlen]
      exact dGet_dSet_self hd keyval rid
    · have hik : i ≠ keycol := by
        intro he
        simp only [List.map_cons, List.nodup_cons] at hnodup
        exact hnodup.1 (he ▸ List.mem_map_of_mem Prod.fst hrest)
      have hnodup2 : (rest.map Prod.fst).Nodup := by
        simp only [List.map_cons, List.nodup_cons] at hnodup
        exact hnodup.2
      unfold Table.updateIndices
      dsimp only
      split
      · have hpres : (Index.update_index t.indices i v rid).getD keycol none = t.indices.getD keycol none := by
          unfold Index.update_index
          cases hgi : t.indices.getD i none with
          | none => rfl
          | some d =>
            dsimp only
            exact getD_set_ne t.indices i keycol _ none hik
        refine Table.updateIndices_locate rest _ rid keycol keyval hrest hnodup2 ?_ ?_
        · intro d hded p hp
          show p.2 ≠ rid
          apply hnr d ?_ p hp
          rw [← hpres]
          exact hded
        · show ((({ t with indices := Index.update_index t.indices i v rid } : Table)).indices.getD keycol none).isSome
          rw [show (({ t with indices := Index.update_index t.indices i v rid } : Table)).indices = Index.update_index t.indices i v rid from rfl, hpres]
          exact hsome
      · exact Table.updateIndices_locate rest t rid keycol keyval hrest hnodup2 hnr hsome

/-! The inserted row reads back and projects to itself. -/

theorem map_range'_getD : ∀ (vs : List Int) (s : Nat),
    (List.range' s vs.length).map (fun c => vs.getD (c - s) 0) = vs
  | [], _ => rfl
  | v :: rest, s => by
    rw [List.length_cons, List.range'_succ, List.map_cons]
    have hhead : (v :: rest).getD (s - s) 0 = v := by
      rw [Nat.sub_self]
      rfl
    rw [hhead]
    have htail : (List.range' (s + 1) rest.length).map (fun c => (v :: rest).getD (c - s) 0) =
        (List.range' (s + 1) rest.length).map (fun c => rest.getD (c - (s + 1)) 0) := by
      refine List.map_congr_left ?_
      intro c hc
      rw [List.mem_range'] at hc
      have he : c - s = (c - (s + 1)) + 1 := by omega
      rw [he]
      rfl
    rw [htail, map_range'_getD rest (s + 1)]

theorem projectColumns_ones (vs : List Int) :
    projectColumns vs (List.replicate vs.length 1) = vs.map some := by
  apply List.ext_getElem?
  intro i
  unfold projectColumns
  rw [List.getElem?_map, List.getElem?_map, List.getElem?_enum]
  by_cases hi : i < vs.length
  · rw [List.getElem?_replicate, if_pos hi, List.getElem?_eq_getElem hi]
    simp [List.getD_eq_getElem vs 0 hi]
    rw [List.getElem?_eq_getElem hi]
    rfl
  · have hle : vs.length ≤ i := by omega
    rw [List.getElem?_replicate, if_neg hi, List.getElem?_eq_none hle]
    rfl

theorem mem_enum_getD (l : List Int) (i : Nat) (h : i < l.length) :
    (i, l.getD i 0) ∈ l.enum := by
  rw [List.mk_mem_enum_iff_getElem?, List.getElem?_eq_getElem h, List.getD_eq_getElem l 0 h]

/-- The slot-allocation, write and registration phase of create_record,
starting from the state after the chain scan: writes succeed, the record
comes back as built from the arguments, the page directory points at the
new slot, the primary index locates the new rid, and the user pages read
back the inserted values. -/
theorem Table.create_record_tail (t t1 : Table) (columns : List Int) (rid timestamp : Int)
    (idx : Nat)
    (hbp1 : BPInv t1.bufferpool)
    (hkey1 : t1.key = t.key)
    (hnc1 : t1.num_columns = t.num_columns)
    (hpd1 : t1.page_directory = t.page_directory)
    (hind1 : t1.indices = t.indices)
    (hnrid1 : t1.next_rid = t.next_rid + 1)
    (hnrec1 : t1.num_records = t.num_records)
    (hpg1 : ∀ k, t1.bufferpool.pageOf k = t.bufferpool.pageOf k)
    (hidx1 : idx < t1.num_base_pages)
    (hcap : ∀ c, c < t.total_columns →
      (t.bufferpool.pageOf (true, c, idx)).num_records < 512)
    (halignI : ∀ c, c < t.total_columns →
      (t.bufferpool.pageOf (true, c, idx)).num_records =
        (t.bufferpool.pageOf (true, 0, idx)).num_records)
    (hklt : t.key < t.num_columns)
    (hlen : columns.length = t.num_columns)
    (hfit : ∀ v ∈ columns, fitsInt64 v = true)
    (hfitrid : fitsInt64 rid = true)
    (hfitts : fitsInt64 timestamp = true)
    (hir : ∀ d, t.indices.getD t.key none = some d → ∀ p ∈ d, p.2 ≠ rid)
    (hki : (t.indices.getD t.key none).isSome) :
    ∃ slot t5,
      (let sl := t1.bpNumRecords (true, 0, idx)
       let slotv := sl.1
       let t2 := sl.2
       let t3 : Table := { t2 with bufferpool := { t2.bufferpool with page_directory := dSet t2.bufferpool.page_directory rid (true, 0, idx) } }
       let w0 := t3.bpWrite (true, 0, idx) rid none
       let w1 := (w0.2).bpWrite (true, 1, idx) rid none
       let w2 := (w1.2).bpWrite (true, 2, idx) timestamp none
       let w3 := (w2.2).bpWrite (true, 3, idx) 0 none
       let wu := (w3.2).writeUserCols idx 0 columns
       if ¬ wu.1 then (none, wu.2)
       else
         let t4 : Table := { wu.2 with page_directory := dSet (wu.2).page_directory rid (RecKind.base, idx, slotv) }
         if t4.key < columns.length then
           let record : Record :=
             { rid := rid, key := columns.getD t4.key 0, columns := columns, indirection := some rid, timestamp := some timestamp, schema_encoding := some 0 }
           let t5 := t4.updateIndices rid columns.enum
           (some record, { t5 with num_records := t5.num_records + 1 })
         else (none, t4)) =
        (some { rid := rid, key := columns.getD t.key 0, columns := columns, indirection := some rid, timestamp := some timestamp, schema_encoding := some 0 }, t5) ∧
      t5.key = t.key ∧
      t5.num_columns = t.num_columns ∧
      t5.num_records = t.num_records + 1 ∧
      t5.next_rid = t.next_rid + 1 ∧
      dGet t5.page_directory rid = some (RecKind.base, idx, slot) ∧
      idx < t5.num_base_pages ∧
      BPInv t5.bufferpool ∧
      Index.locate t5.indices t.key (columns.getD t.key 0) = some rid ∧
      (∀ m, m < t.num_columns →
        (t5.bufferpool.pageOf (true, 4 + m, idx)).read slot = some (columns.getD m 0)) := by
  obtain ⟨hnr1, hnrv, hnrb⟩ := t1.bpNumRecords_ok (true, 0, idx) hbp1
  obtain ⟨v1, v2, v3, v4, v5, v6, v7, v8, v9, v10, v11, v12⟩ := hnrv
  dsimp only
  rcases hsl : t1.bpNumRecords (true, 0, idx) with ⟨slotv, t2⟩
  dsimp only
  rw [hsl] at hnr1 hnrb v1 v2 v3 v4 v5 v6 v7 v8 v9 v10 v11 v12
  dsimp only at hnr1 hnrb v1 v2 v3 v4 v5 v6 v7 v8 v9 v10 v11 v12
  have hslv : slotv = (t.bufferpool.pageOf (true, 0, idx)).num_records := by
    rw [hnr1, hpg1]
  have hbp3 : BPInv (({ t2 with bufferpool := { t2.bufferpool with page_directory := dSet t2.bufferpool.page_directory rid (true, 0, idx) } } : Table)).bufferpool := hnrb
  obtain ⟨hc0, hb0, ho0⟩ := Table.bpWrite_other ({ t2 with bufferpool := { t2.bufferpool with page_directory := dSet t2.bufferpool.page_directory rid (true, 0, idx) } } : Table) (true, 0, idx) rid none hbp3
  rcases hw0 : ({ t2 with bufferpool := { t2.bufferpool with page_directory := dSet t2.bufferpool.page_directory rid (true, 0, idx) } } : Table).bpWrite (true, 0, idx) rid none with ⟨b0, s1⟩
  dsimp only
  rw [hw0] at hc0 hb0 ho0
  dsimp only at hc0 hb0 ho0
  obtain ⟨hc1, hb1, ho1⟩ := Table.bpWrite_other s1 (true, 1, idx) rid none hb0
  rcases hw1 : s1.bpWrite (true, 1, idx) rid none with ⟨b1, s2⟩
  dsimp only
  rw [hw1] at hc1 hb1 ho1
  dsimp only at hc1 hb1 ho1
  obtain ⟨hc2, hb2, ho2⟩ := Table.bpWrite_other s2 (true, 2, idx) timestamp none hb1
  rcases hw2 : s2.bpWrite (true, 2, idx) timestamp none with ⟨b2, s3⟩
  dsimp only
  rw [hw2] at hc2 hb2 ho2
  dsimp only at hc2 hb2 ho2
  obtain ⟨hc3, hb3, ho3⟩ := Table.bpWrite_other s3 (true, 3, idx) 0 none hb2
  rcases hw3 : s3.bpWrite (true, 3, idx) 0 none with ⟨b3, s4⟩
  dsimp only
  rw [hw3] at hc3 hb3 ho3
  dsimp only at hc3 hb3 ho3
  have hmeta : ∀ (j : PageKey), j ≠ (true, 0, idx) → j ≠ (true, 1, idx) → j ≠ (true, 2, idx) →
      j ≠ (true, 3, idx) → s4.bufferpool.pageOf j = t.bufferpool.pageOf j := by
    intro j h0 h1 h2 h3
    rw [ho3 j h3, ho2 j h2, ho1 j h1, ho0 j h0]
    show t2.bufferpool.pageOf j = t.bufferpool.pageOf j
    rw [← v12 j, hpg1 j]
  have huserkey : ∀ m : Nat, s4.bufferpool.pageOf (true, 4 + m, idx) =
      t.bufferpool.pageOf (true, 4 + m, idx) := by
    intro m
    refine hmeta (true, 4 + m, idx) ?_ ?_ ?_ ?_ <;>
      (intro he; injection he with e1 e2; injection e2 with e3 e4; omega)
  have hcapU : ∀ m, m < columns.length →
      (s4.bufferpool.pageOf (true, 4 + (0 + m), idx)).num_records < 512 := by
    intro m hm
    have h4m : 4 + (0 + m) = 4 + m := by omega
    rw [h4m, huserkey m]
    refine hcap (4 + m) ?_
    unfold Table.total_columns
    omega
  obtain ⟨hu1, huc, hub, huo, hup⟩ := Table.writeUserCols_ok columns s4 idx 0 hb3
    hfit hcapU
  rcases hwu : s4.writeUserCols idx 0 columns with ⟨ub, t4p⟩
  dsimp only
  rw [hwu] at hu1 huc hub huo hup
  dsimp only at hu1 huc hub huo hup
  obtain ⟨u1, u2, u3, u4, u5, u6, u7, u8, u9, u10, u11⟩ := huc
  have ht2key : t2.key = t.key := v1.symm.trans hkey1
  have hs4key : s4.key = t.key :=
    hc3.1.trans (hc2.1.trans (hc1.1.trans (hc0.1.trans ht2key)))
  have ht4pkey : t4p.key = t.key := u1.trans hs4key
  have ht2nc : t2.num_columns = t.num_columns := v2.symm.trans hnc1
  have hs4nc : s4.num_columns = t.num_columns :=
    hc3.2.1.trans (hc2.2.1.trans (hc1.2.1.trans (hc0.2.1.trans ht2nc)))
  have ht4pnc : t4p.num_columns = t.num_columns := u2.trans hs4nc
  have ht2pd : t2.page_directory = t.page_directory := v3.symm.trans hpd1
  have hs4pd : s4.page_directory = t.page_directory :=
    hc3.2.2.1.trans (hc2.2.2.1.trans (hc1.2.2.1.trans (hc0.2.2.1.trans ht2pd)))
  have ht4ppd : t4p.page_directory = t.page_directory := u3.trans hs4pd
  have ht2ind : t2.indices = t.indices := v4.symm.trans hind1
  have hs4ind : s4.indices = t.indices :=
    hc3.2.2.2.1.trans (hc2.2.2.2.1.trans (hc1.2.2.2.1.trans (hc0.2.2.2.1.trans ht2ind)))
  have ht4pind : t4p.indices = t.indices := u4.trans hs4ind
  have ht2rid : t2.next_rid = t.next_rid + 1 := v5.symm.trans hnrid1
  have hs4rid : s4.next_rid = t.next_rid + 1 :=
    hc3.2.2.2.2.1.trans (hc2.2.2.2.2.1.trans (hc1.2.2.2.2.1.trans (hc0.2.2.2.2.1.trans ht2rid)))
  have ht4prid : t4p.next_rid = t.next_rid + 1 := u5.trans hs4rid
  have ht2rec : t2.num_records = t.num_records := v6.symm.trans hnrec1
  have hs4rec : s4.num_records = t.num_records :=
    hc3.2.2.2.2.2.1.trans (hc2.2.2.2.2.2.1.trans (hc1.2.2.2.2.2.1.trans (hc0.2.2.2.2.2.1.trans ht2rec)))
  have ht4prec : t4p.num_records = t.num_records := u6.trans hs4rec
  have ht2nbp : t2.num_base_pages = t1.num_base_pages := v8.symm
  have hs4nbp : s4.num_base_pages = t1.num_base_pages :=
    hc3.2.2.2.2.2.2.2.1.trans (hc2.2.2.2.2.2.2.2.1.trans (hc1.2.2.2.2.2.2.2.1.trans (hc0.2.2.2.2.2.2.2.1.trans ht2nbp)))
  have ht4pnbp : t4p.num_base_pages = t1.num_base_pages := u8.trans hs4nbp
  obtain ⟨g1, g2, g3, g4, g5, g6, g7, g8⟩ := Table.updateIndices_fields columns.enum
    ({ t4p with page_directory := dSet t4p.page_directory rid (RecKind.base, idx, slotv) } : Table) rid
  have hkcl : t.key < columns.length := by omega
  refine ⟨slotv, ({ (({ t4p with page_directory := dSet t4p.page_directory rid (RecKind.base, idx, slotv) } : Table)).updateIndices rid columns.enum with num_records := ((({ t4p with page_directory := dSet t4p.page_directory rid (RecKind.base, idx, slotv) } : Table)).updateIndices rid columns.enum).num_records + 1 } : Table), ?_, ?_, ?_, ?_, ?_, ?_, ?_, ?_, ?_, ?_⟩
  · rw [hu1, if_neg (by simp)]
    dsimp only
    rw [ht4pkey, if_pos hkcl]
  · exact g1.trans ht4pkey
  · exact g2.trans ht4pnc
  · show ((({ t4p with page_directory := dSet t4p.page_directory rid (RecKind.base, idx, slotv) } : Table)).updateIndices rid columns.enum).num_records + 1 = t.num_records + 1
    rw [g6]
    show t4p.num_records + 1 = t.num_records + 1
    rw [ht4prec]
  · exact g5.trans ht4prid
  · show dGet ((({ t4p with page_directory := dSet t4p.page_directory rid (RecKind.base, idx, slotv) } : Table)).updateIndices rid columns.enum).page_directory rid = some (RecKind.base, idx, slotv)
    rw [g3]
    exact dGet_dSet_self t4p.page_directory rid (RecKind.base, idx, slotv)
  · show idx < ((({ t4p with page_directory := dSet t4p.page_directory rid (RecKind.base, idx, slotv) } : Table)).updateIndices rid columns.enum).num_base_pages
    rw [g7]
    show idx < t4p.num_base_pages
    rw [ht4pnbp]
    exact hidx1
  · show BPInv ((({ t4p with page_directory := dSet t4p.page_directory rid (RecKind.base, idx, slotv) } : Table)).updateIndices rid columns.enum).bufferpool
    rw [g4]
    exact hub
  · show Index.locate ((({ t4p with page_directory := dSet t4p.page_directory rid (RecKind.base, idx, slotv) } : Table)).updateIndices rid columns.enum).indices t.key (columns.getD t.key 0) = some rid
    refine Table.updateIndices_locate columns.enum
      ({ t4p with page_directory := dSet t4p.page_directory rid (RecKind.base, idx, slotv) } : Table) rid t.key (columns.getD t.key 0) ?_ ?_ ?_ ?_
    · exact mem_enum_getD columns t.key hkcl
    · rw [List.enum_map_fst]
      exact List.nodup_range columns.length
    · intro d hd p hp
      refine hir d ?_ p hp
      rw [← ht4pind]
      exact hd
    · show (t4p.indices.getD t.key none).isSome = true
      rw [ht4pind]
      exact hki
  · intro m hm
    have hmlen : m < columns.length := by omega
    have hread := hup m hmlen
    have h4m : 4 + (0 + m) = 4 + m := by omega
    rw [h4m] at hread
    show (((({ t4p with page_directory := dSet t4p.page_directory rid (RecKind.base, idx, slotv) } : Table)).updateIndices rid columns.enum).bufferpool.pageOf (true, 4 + m, idx)).read slotv = some (columns.getD m 0)
    rw [g4]
    show ((t4p.bufferpool.pageOf (true, 4 + m, idx))).read slotv = some (columns.getD m 0)
    rw [hread, huserkey m]
    have hnum : (t.bufferpool.pageOf (true, 4 + m, idx)).num_records = slotv := by
      rw [hslv]
      refine halignI (4 + m) ?_
      unfold Table.total_columns
      omega
    rw [hnum]
    unfold Page.read
    dsimp only
    rw [if_neg (by omega), if_pos rfl]

/-- create_record on a well-formed table with a full row of in-range values:
it succeeds with the monotonic counter as rid, registers the row at a fresh
slot of some base chain, indexes the key column value, and the user pages
read the row back. -/
theorem Table.create_record_ok (t : Table) (columns : List Int)
    (hwf : t.WF) (hlen : columns.length = t.num_columns)
    (hfit : ∀ v ∈ columns, fitsInt64 v = true) :
    ∃ idx slot t5,
      t.create_record columns =
        (some { rid := t.next_rid, key := columns.getD t.key 0, columns := columns, indirection := some t.next_rid, timestamp := some t.now, schema_encoding := some 0 }, t5) ∧
      t5.key = t.key ∧
      t5.num_columns = t.num_columns ∧
      t5.num_records = t.num_records + 1 ∧
      t5.next_rid = t.next_rid + 1 ∧
      dGet t5.page_directory t.next_rid = some (RecKind.base, idx, slot) ∧
      idx < t5.num_base_pages ∧
      BPInv t5.bufferpool ∧
      Index.locate t5.indices t.key (columns.getD t.key 0) = some t.next_rid ∧
      (∀ m, m < t.num_columns →
        (t5.bufferpool.pageOf (true, 4 + m, idx)).read slot = some (columns.getD m 0)) := by
  obtain ⟨hbp, hklt, halign, hfresh, hnn, hfr, hfn, hirWF, hki⟩ := hwf
  have hir : ∀ d, t.indices.getD t.key none = some d → ∀ p ∈ d, p.2 ≠ t.next_rid :=
    fun d hd p hp => ne_of_lt (hirWF t.key d hd p hp)
  unfold Table.create_record
  dsimp only
  obtain ⟨hsv, hsb, hsf⟩ := Table.scanBaseChains_ok (List.range t.num_base_pages)
    ({ t with next_rid := t.next_rid + 1 } : Table) hbp
  rcases hscan : Table.scanBaseChains ({ t with next_rid := t.next_rid + 1 } : Table)
      (List.range t.num_base_pages) with ⟨oscan, tscan⟩
  dsimp only
  rw [hscan] at hsv hsb hsf
  dsimp only at hsv hsb hsf
  obtain ⟨q1, q2, q3, q4, q5, q6, q7, q8, q9, q10, q11, q12⟩ := hsv
  cases oscan with
  | some i =>
    dsimp only
    obtain ⟨hmem, hcapg⟩ := hsf i rfl
    have hilt : i < t.num_base_pages := List.mem_range.mp hmem
    have hcap2 : ∀ c, c < t.total_columns →
        (t.bufferpool.pageOf (true, c, i)).num_records < 512 := by
      intro c hc
      have h := hcapg c (List.mem_range.mpr hc)
      simp only [Page.has_capacity, decide_eq_true_eq] at h
      exact h
    have halign2 : ∀ c, c < t.total_columns →
        (t.bufferpool.pageOf (true, c, i)).num_records =
          (t.bufferpool.pageOf (true, 0, i)).num_records := by
      intro c hc
      exact halign i hilt c hc 0 (by unfold Table.total_columns; omega)
    refine ⟨i, ?_⟩
    exact Table.create_record_tail t tscan columns t.next_rid t.now i
      hsb q1.symm q2.symm q3.symm q4.symm q5.symm q6.symm
      (fun k => (q12 k).symm)
      (by rw [← q8]; exact hilt)
      hcap2 halign2 hklt hlen hfit hfr hfn hir hki
  | none =>
    dsimp only
    have hnbp : tscan.num_base_pages = t.num_base_pages := q8.symm
    have hempty : ∀ c, t.bufferpool.pageOf (true, c, tscan.num_base_pages) = Page.empty := by
      intro c
      refine hfresh c tscan.num_base_pages ?_
      omega
    have hcap2 : ∀ c, c < t.total_columns →
        (t.bufferpool.pageOf (true, c, tscan.num_base_pages)).num_records < 512 := by
      intro c hc
      rw [hempty c]
      show (0 : Nat) < 512
      omega
    have halign2 : ∀ c, c < t.total_columns →
        (t.bufferpool.pageOf (true, c, tscan.num_base_pages)).num_records =
          (t.bufferpool.pageOf (true, 0, tscan.num_base_pages)).num_records := by
      intro c hc
      rw [hempty c, hempty 0]
    refine ⟨tscan.num_base_pages, ?_⟩
    exact Table.create_record_tail t
      ({ tscan with num_base_pages := tscan.num_base_pages + 1 } : Table) columns
      t.next_rid t.now tscan.num_base_pages
      hsb q1.symm q2.symm q3.symm q4.symm q5.symm q6.symm
      (fun k => (q12 k).symm)
      (Nat.lt_succ_self tscan.num_base_pages)
      hcap2 halign2 hklt hlen hfit hfr hfn hir hki

/-! Claim C1: insert then select returns the inserted row. -/

/-- C1: on any well-formed table, inserting a full row of in-range values
whose key value the primary index does not yet hold succeeds, and a
select on that key over the key column with an all-ones projection returns
exactly one record: the new rid, the key, and the inserted values. -/
theorem insert_then_select_roundtrip (t : Table) (columns : List Int)
    (hwf : t.WF) (hlen : columns.length = t.num_columns)
    (hfit : ∀ v ∈ columns, fitsInt64 v = true)
    (habsent : Index.locate t.indices t.key (columns.getD t.key 0) = none) :
    (Query.insert t columns).1 = true ∧
    (Query.select (Query.insert t columns).2 (columns.getD t.key 0) t.key
        (List.replicate t.num_columns 1)).1 =
      some [{ rid := some t.next_rid, key := columns.getD t.key 0, columns := columns.map some }] := by
  have hklt : t.key < t.num_columns := hwf.2.1
  obtain ⟨idx, slot, t5, heq, hk5, hn5, hr5, hx5, hpd5, hib5, hbp5, hloc5, hread5⟩ :=
    Table.create_record_ok t columns hwf hlen hfit
  have hins : Query.insert t columns = (true, t5) := by
    unfold Query.insert
    rw [if_neg (by omega), heq]
  rw [hins]
  dsimp only
  refine ⟨rfl, ?_⟩
  have hkcl : t.key < columns.length := by omega
  have hgrv : t5.getRecordV t.next_rid =
      some { rid := t.next_rid,
             key := ((List.range' 4 t5.num_columns).map (fun c => columns.getD (c - 4) 0)).getD t5.key 0,
             columns := (List.range' 4 t5.num_columns).map (fun c => columns.getD (c - 4) 0),
             indirection := (t5.bufferpool.pageOf (true, 0, idx)).read slot,
             timestamp := (t5.bufferpool.pageOf (true, 2, idx)).read slot,
             schema_encoding := (t5.bufferpool.pageOf (true, 3, idx)).read slot } := by
    refine Table.getRecordV_base t5 t.next_rid idx slot (fun c => columns.getD (c - 4) 0)
      hpd5 hib5 (by rw [hk5, hn5]; exact hklt) ?_
    intro c hc
    rw [List.mem_range'] at hc
    have hm : c - 4 < t.num_columns := by omega
    have h := hread5 (c - 4) hm
    have he : 4 + (c - 4) = c := by omega
    rw [he] at h
    exact h
  have hvals : (List.range' 4 t5.num_columns).map (fun c => columns.getD (c - 4) 0) = columns := by
    rw [hn5, ← hlen]
    exact map_range'_getD columns 4
  rw [hvals, hk5] at hgrv
  have hfst : (t5.get_record t.next_rid).1 =
      some { rid := t.next_rid, key := columns.getD t.key 0, columns := columns,
             indirection := (t5.bufferpool.pageOf (true, 0, idx)).read slot,
             timestamp := (t5.bufferpool.pageOf (true, 2, idx)).read slot,
             schema_encoding := (t5.bufferpool.pageOf (true, 3, idx)).read slot } := by
    rw [Table.get_record_fst t5 t.next_rid hbp5, hgrv]
  have hsome5 : (t5.indices.getD t5.key none).isSome = true := by
    rw [hk5]
    unfold Index.locate at hloc5
    cases hgd : t5.indices.getD t.key none with
    | none =>
      rw [hgd] at hloc5
      exact Option.noConfusion hloc5
    | some d => rfl
  unfold Query.select
  rw [if_pos hsome5, hk5, hloc5]
  dsimp only
  rcases hgr : t5.get_record t.next_rid with ⟨orec, t6⟩
  rw [hgr] at hfst
  dsimp only at hfst
  rw [hfst]
  dsimp only
  rw [if_neg (fun h => h rfl)]
  have hne : (List.replicate t.num_columns (1 : Nat)).isEmpty = false := by
    cases hn : t.num_columns with
    | zero => omega
    | succ n => rfl
  rw [hne]
  dsimp only
  rw [show (List.replicate t.num_columns (1 : Nat)) = List.replicate columns.length 1 from by rw [hlen]]
  rw [projectColumns_ones columns]
  simp

/-- The freshly initialised 5-column demo table is well-formed. -/
theorem demoTable_wf : Table.WF demoTable := by
  have hpg : ∀ k, demoTable.bufferpool.pageOf k = Page.empty := fun k => rfl
  refine ⟨⟨?_, ?_⟩, ?_, ?_, ?_, ?_, ?_, ?_, ?_, ?_⟩
  · intro p hp
    exact absurd hp (List.not_mem_nil p)
  · simp [demoTable, Table.init, Bufferpool.init]
  · decide
  · intro i _ c1 _ c2 _
    rw [hpg (true, c1, i), hpg (true, c2, i)]
  · intro c i _
    exact hpg (true, c, i)
  · decide
  · decide
  · decide
  · intro c d hd p hp
    rcases c with _ | _ | _ | _ | _ | c
    · exact absurd hp (Option.some.inj hd ▸ List.not_mem_nil p)
    · exact Option.noConfusion hd
    · exact Option.noConfusion hd
    · exact Option.noConfusion hd
    · exact Option.noConfusion hd
    · exact Option.noConfusion hd
  · decide

/-- C1 witness: inserting (92106429, 1, 2, 3, 4) into the fresh demo table
succeeds, and select(92106429, 0, [1,1,1,1,1]) returns one record carrying
rid 0 and exactly the inserted values. -/
theorem insert_then_select_roundtrip_witness :
    (Query.insert demoTable [92106429, 1, 2, 3, 4]).1 = true ∧
    (Query.select (Query.insert demoTable [92106429, 1, 2, 3, 4]).2 92106429 0
        [1, 1, 1, 1, 1]).1 =
      some [{ rid := some 0, key := 92106429, columns := [some 92106429, some 1, some 2, some 3, some 4] }] := by
  have h := insert_then_select_roundtrip demoTable [92106429, 1, 2, 3, 4] demoTable_wf
    (by decide) (by decide) (by decide)
  exact h

/-! Claim C2: sum over a key range. -/

theorem Table.get_record_fst_congr (t s : Table) (rid : Int)
    (ht : BPInv t.bufferpool) (hs : BPInv s.bufferpool) (hv : t.SameView s) :
    (t.get_record rid).1 = (s.get_record rid).1 := by
  rw [Table.get_record_fst t rid ht, Table.get_record_fst s rid hs,
    Table.getRecordV_congr hv]

theorem Table.recKey_congr (t s : Table) (rid : Int)
    (ht : BPInv t.bufferpool) (hs : BPInv s.bufferpool) (hv : t.SameView s) :
    t.recKey rid = s.recKey rid := by
  unfold Table.recKey
  rw [Table.get_record_fst_congr t s rid ht hs hv]

theorem Table.currentColValue_congr (t s : Table) (col : Nat) (rid : Int)
    (ht : BPInv t.bufferpool) (hs : BPInv s.bufferpool) (hv : t.SameView s) :
    t.currentColValue col rid = s.currentColValue col rid := by
  unfold Table.currentColValue
  rw [Table.get_record_fst_congr t s rid ht hs hv]

/-- The accumulation loop of Query.sum: when every rid resolves to a record
and the record keys are pairwise distinct and disjoint from the seen set,
no rid is skipped and the result adds every current column value to the
accumulator. -/
theorem Query.sumLoop_ok : ∀ (rids : List Int) (t : Table) (col : Nat) (seen : List Int)
    (acc : Int),
    BPInv t.bufferpool →
    (∀ r ∈ rids, ((t.get_record r).1).isSome = true) →
    (rids.map (fun r => t.recKey r)).Nodup →
    (∀ r ∈ rids, t.recKey r ∉ seen) →
    (Query.sumLoop t col seen acc rids).1 =
      acc + (rids.map (fun r => t.currentColValue col r)).sum
  | [], t, col, seen, acc, _, _, _, _ => by simp [Query.sumLoop]
  | rid :: rest, t, col, seen, acc, hbp, hsome, hnodup, hseen => by
    obtain ⟨rec, hrec⟩ := Option.isSome_iff_exists.mp (hsome rid (List.mem_cons_self rid rest))
    obtain ⟨hv1, hb1⟩ := t.get_record_view rid hbp
    unfold Query.sumLoop
    rcases hgr : t.get_record rid with ⟨orec, t1⟩
    rw [hgr] at hrec hv1 hb1
    dsimp only at hrec hv1 hb1
    rw [hrec]
    dsimp only
    have hkey : rec.key = t.recKey rid := by
      unfold Table.recKey
      rw [hgr]
      dsimp only
      rw [hrec]
    have hnotin : rec.key ∉ seen := by
      rw [hkey]
      exact hseen rid (List.mem_cons_self rid rest)
    rw [if_neg hnotin]
    have hval : rec.columns.getD col 0 = t.currentColValue col rid := by
      unfold Table.currentColValue
      rw [hgr]
      dsimp only
      rw [hrec]
    have hsome1 : ∀ r ∈ rest, ((t1.get_record r).1).isSome = true := by
      intro r hr
      rw [← Table.get_record_fst_congr t t1 r hbp hb1 hv1]
      exact hsome r (List.mem_cons_of_mem rid hr)
    have hkc : ∀ r ∈ rest, t1.recKey r = t.recKey r := fun r _ =>
      (Table.recKey_congr t t1 r hbp hb1 hv1).symm
    have hnodup1 : (rest.map (fun r => t1.recKey r)).Nodup := by
      rw [show rest.map (fun r => t1.recKey r) = rest.map (fun r => t.recKey r) from
        List.map_congr_left hkc]
      exact (List.nodup_cons.mp hnodup).2
    have hseen1 : ∀ r ∈ rest, t1.recKey r ∉ seen ++ [rec.key] := by
      intro r hr
      rw [hkc r hr]
      intro hmem
      rcases List.mem_append.mp hmem with hm | hm
      · exact hseen r (List.mem_cons_of_mem rid hr) hm
      · have he := List.mem_singleton.mp hm
        rw [hkey] at he
        have hhead := (List.nodup_cons.mp hnodup).1
        have hmm : t.recKey r ∈ rest.map (fun r => t.recKey r) :=
          List.mem_map_of_mem (fun r => t.recKey r) hr
        rw [he] at hmm
        exact hhead hmm
    have hrec1 := Query.sumLoop_ok rest t1 col (seen ++ [rec.key])
      (acc + rec.columns.getD col 0) hb1 hsome1 hnodup1 hseen1
    rw [hrec1]
    rw [show rest.map (fun r => t1.currentColValue col r) =
        rest.map (fun r => t.currentColValue col r) from
      List.map_congr_left (fun r hr =>
        (Table.currentColValue_congr t t1 col r hbp hb1 hv1).symm)]
    rw [List.map_cons, List.sum_cons, hval]
    omega

/-- C2: on a table whose primary index is populated and consistent (each
indexed rid resolves to a record bearing the indexed key, keys unduplicated),
sum(lo, hi, c) with an in-range aggregate column returns the arithmetic sum
of the current value of column c over every indexed key in [lo, hi]. -/
theorem sum_over_key_range (t : Table) (lo hi : Int) (c : Nat)
    (hbp : BPInv t.bufferpool)
    (hc : c < t.num_columns)
    (hidx : (t.indices.getD t.key none).isSome = true)
    (hnodup : (t.keyDict.map Prod.fst).Nodup)
    (hcons : ∀ p ∈ t.keyDict, ((t.get_record p.2).1).isSome = true ∧ t.recKey p.2 = p.1) :
    (Query.sum t lo hi c).1 =
      some (((t.keyDict.filter (fun p => decide (lo ≤ p.1 ∧ p.1 ≤ hi))).map
        (fun p => t.currentColValue c p.2)).sum) := by
  obtain ⟨d, hd⟩ := Option.isSome_iff_exists.mp hidx
  have hkd : t.keyDict = d := by
    unfold Table.keyDict
    rw [hd]
    rfl
  have hrids : Index.locate_range t.indices lo hi t.key =
      ((t.keyDict.filter (fun p => decide (lo ≤ p.1 ∧ p.1 ≤ hi))).insertionSort
        (fun p q => p.1 ≤ q.1)).map Prod.snd := by
    unfold Index.locate_range
    rw [hd]
    dsimp only
    rw [← hkd]
  have hperm : ((t.keyDict.filter (fun p => decide (lo ≤ p.1 ∧ p.1 ≤ hi))).insertionSort
      (fun p q => p.1 ≤ q.1)).Perm (t.keyDict.filter (fun p => decide (lo ≤ p.1 ∧ p.1 ≤ hi))) :=
    List.perm_insertionSort _ _
  have hsubkd : ∀ p ∈ ((t.keyDict.filter (fun p => decide (lo ≤ p.1 ∧ p.1 ≤ hi))).insertionSort
      (fun p q => p.1 ≤ q.1)), p ∈ t.keyDict := by
    intro p hp
    exact List.mem_of_mem_filter (hperm.mem_iff.mp hp)
  have hsome : ∀ r ∈ (((t.keyDict.filter (fun p => decide (lo ≤ p.1 ∧ p.1 ≤ hi))).insertionSort
      (fun p q => p.1 ≤ q.1)).map Prod.snd), ((t.get_record r).1).isSome = true := by
    intro r hr
    obtain ⟨p, hp, hpr⟩ := List.mem_map.mp hr
    rw [← hpr]
    exact (hcons p (hsubkd p hp)).1
  have hkm : List.map (fun r => t.recKey r) (List.map Prod.snd
      ((t.keyDict.filter (fun p => decide (lo ≤ p.1 ∧ p.1 ≤ hi))).insertionSort
        (fun p q => p.1 ≤ q.1))) =
      List.map Prod.fst ((t.keyDict.filter (fun p => decide (lo ≤ p.1 ∧ p.1 ≤ hi))).insertionSort
        (fun p q => p.1 ≤ q.1)) := by
    rw [List.map_map]
    exact List.map_congr_left (fun p hp => (hcons p (hsubkd p hp)).2)
  have hnodupS : (((((t.keyDict.filter (fun p => decide (lo ≤ p.1 ∧ p.1 ≤ hi))).insertionSort
      (fun p q => p.1 ≤ q.1)).map Prod.snd)).map (fun r => t.recKey r)).Nodup := by
    rw [hkm]
    refine ((hperm.map Prod.fst).nodup_iff).mpr ?_
    exact List.Nodup.sublist ((List.filter_sublist _).map Prod.fst) hnodup
  have hseen0 : ∀ r ∈ (((t.keyDict.filter (fun p => decide (lo ≤ p.1 ∧ p.1 ≤ hi))).insertionSort
      (fun p q => p.1 ≤ q.1)).map Prod.snd), t.recKey r ∉ ([] : List Int) := by
    intro r _ h
    exact absurd h (List.not_mem_nil _)
  have hloop := Query.sumLoop_ok (((t.keyDict.filter (fun p => decide (lo ≤ p.1 ∧ p.1 ≤ hi))).insertionSort
      (fun p q => p.1 ≤ q.1)).map Prod.snd) t c [] 0 hbp hsome hnodupS hseen0
  unfold Query.sum
  rw [if_neg (by omega)]
  dsimp only
  rw [hrids, hloop]
  have hcm : List.map (fun r => t.currentColValue c r) (List.map Prod.snd
      ((t.keyDict.filter (fun p => decide (lo ≤ p.1 ∧ p.1 ≤ hi))).insertionSort
        (fun p q => p.1 ≤ q.1))) =
      List.map (fun p : Int × Int => t.currentColValue c p.2)
        ((t.keyDict.filter (fun p => decide (lo ≤ p.1 ∧ p.1 ≤ hi))).insertionSort
          (fun p q => p.1 ≤ q.1)) := by
    rw [List.map_map]
    rfl
  rw [hcm]
  have hsum := (hperm.map (fun p : Int × Int => t.currentColValue c p.2)).sum_eq
  rw [hsum, zero_add]

/-- C2 witness: after inserting keys 1..10 with column 1 equal to the key,
the demo table satisfies the consistency hypotheses and sum(3, 7, 1)
returns 3 + 4 + 5 + 6 + 7 = 25. -/
theorem sum_over_key_range_witness :
    (Query.sum demoTableTen 3 7 1).1 = some 25 := by
  have h := sum_over_key_range demoTableTen 3 7 1
    (⟨by set_option maxRecDepth 1000000 in decide, by set_option maxRecDepth 1000000 in decide⟩)
    (by decide)
    (by set_option maxRecDepth 1000000 in decide)
    (by set_option maxRecDepth 1000000 in decide)
    (by set_option maxRecDepth 1000000 in decide)
  rw [h]
  set_option maxRecDepth 1000000 in decide

end LStore
